import Mathlib

/-!
# Simple sparse conditional constant propagation (`SimpleSCCP.cpp`)

A shallow embedding of `advcmp/project3/lib/SimpleSCCP.cpp`:

* the lattice `ConstantValue` with `meet` and `operator==`;
* the instruction visitor (`visitPHINode`, `visitBranchInst`, `visitICmpInst`,
  `visitBinaryOperator`, `visitInstruction`);
* the analysis engine (`analyze`, `visit`, `isFirstVisit`, `isExecutableBlock`,
  `isExecutableEdge`, `appendExecutableSuccessors`, `getConstantValue`);
* the transformation `foldConstants`.

Conventions of the embedding.

* A pointer to a basic block is an `Option BlockId` (`none` is `nullptr`); a pointer to an
  instruction is its `InstId`.  Identifiers double as addresses for the ordered sets.
* `std::set` is a strictly sorted list (`setInsert`, `List.erase`, membership); the dense map
  `DataflowFacts` is an association list (`mapFind`, `mapSet`).
* `int64_t` arithmetic is `Int` arithmetic wrapped by `toInt64`.
* Undefined behaviour of the C++ program (integer division by zero or with an unrepresentable
  quotient, a null or dangling dereference, use of an erased phi) is the result `none`.
* The loop body of `analyze` is `processEdge` / `processInst`, parametrised by the element that
  is removed from the work set, so that every removal order can be discussed (`Step`);
  `loopBody` removes `*begin()`, the least element.
-/

namespace SimpleSCCP

/-! ## Lattice -/

/-- Modelled from the spec: the class declaration of `ConstantValue` is in `SimpleSCCP.h`, which
is not among the sources.  The spec gives a tagged value with the variants Top, Constant and
Bottom, never Top and Bottom at once. -/
inductive ConstantValue
  | top
  | const (v : Int)
  | bot
deriving DecidableEq, Repr

/-- The member `IsTop` that `meet` and `operator==` read. -/
def ConstantValue.IsTop : ConstantValue → Bool
  | .top => true
  | _ => false

/-- The member `IsBot` that `meet` and `operator==` read. -/
def ConstantValue.IsBot : ConstantValue → Bool
  | .bot => true
  | _ => false

/-- The member `IntValue` (read by the source only when neither flag is set). -/
def ConstantValue.IntValue : ConstantValue → Int
  | .const v => v
  | _ => 0

/-- Modelled from the spec: `isConstant()` is declared in `SimpleSCCP.h`; a value is a
constant when it is neither Top nor Bottom. -/
def ConstantValue.isConstant (c : ConstantValue) : Bool := !c.IsTop && !c.IsBot

/-- Modelled from the spec: `value()` is declared in `SimpleSCCP.h`; the integer of a
constant. -/
def ConstantValue.value (c : ConstantValue) : Int := c.IntValue

/-- `ConstantValue::operator==` (lines 34-42). -/
def ConstantValue.eq (self other : ConstantValue) : Bool :=
  let IsEqualType := (self.IsTop == other.IsTop) && (self.IsBot == other.IsBot)
  if !IsEqualType then false
  else if !self.IsTop && !self.IsBot then self.IntValue == other.IntValue
  else true

/-- `ConstantValue::operator!=` (line 44). -/
def ConstantValue.ne (self other : ConstantValue) : Bool := !(self.eq other)

/-- `ConstantValue::meet` (lines 21-32). -/
def ConstantValue.meet (self other : ConstantValue) : ConstantValue :=
  if self.IsTop then other
  else if other.IsTop || self.eq other then self
  else ConstantValue.bot

/-- The lattice order Bottom <= Constant(v) <= Top, distinct constants incomparable. -/
def ConstantValue.le (a b : ConstantValue) : Prop := a = .bot ∨ b = .top ∨ a = b

instance (a b : ConstantValue) : Decidable (ConstantValue.le a b) := by
  unfold ConstantValue.le
  exact inferInstance

/-- Height of a lattice value above Bottom. -/
def ConstantValue.height : ConstantValue → Nat
  | .top => 2
  | .const _ => 1
  | .bot => 0

/-! ## Machine integers -/

/-- Wrap an integer to the range of `int64_t` (two's complement). -/
def toInt64 (x : Int) : Int := (x + 2 ^ 63) % 2 ^ 64 - 2 ^ 63

/-- `ConstantInt::getSExtValue` for a literal of `width` bits with bit pattern `bits`. -/
def getSExtValue (width bits : Nat) : Int :=
  let b := bits % 2 ^ width
  if 2 * b < 2 ^ width then (b : Int) else (b : Int) - 2 ^ width

/-! ## Program graph model (the query surface of the host IR) -/

abbrev BlockId := Nat

abbrev InstId := Nat

/-- An operand: an integer literal (`ConstantInt` of a given width and bit pattern), a function
argument, or the result of an instruction. -/
inductive Value
  | constInt (width : Nat) (bits : Nat)
  | argument (idx : Nat)
  | inst (id : InstId)
deriving DecidableEq, Repr

/-- `llvm::Instruction::BinaryOps`. -/
inductive BinaryOps
  | Add | FAdd | Sub | FSub | Mul | FMul | UDiv | SDiv | FDiv | URem | SRem | FRem
  | Shl | LShr | AShr | And | Or | Xor
deriving DecidableEq, Repr

/-- `llvm::CmpInst::Predicate`: the ten integer predicates, and `OTHER` for every remaining
enumerator. -/
inductive Predicate
  | ICMP_EQ | ICMP_NE | ICMP_UGT | ICMP_UGE | ICMP_ULT | ICMP_ULE
  | ICMP_SGT | ICMP_SGE | ICMP_SLT | ICMP_SLE | OTHER
deriving DecidableEq, Repr

/-- The instruction kinds the visitor distinguishes.  `Br` and `CondBr` are the two forms of
`BranchInst`; `Other` is any other instruction (return, call, switch, ...), with its operands,
its successors and whether it is a terminator. -/
inductive InstKind
  | PHINode (incoming : List (Value × Option BlockId))
  | Br (dest : BlockId)
  | CondBr (cond : Value) (ifTrue ifFalse : BlockId)
  | ICmpInst (pred : Predicate) (op0 op1 : Value)
  | BinaryOperator (opcode : BinaryOps) (op0 op1 : Value)
  | Other (operands : List Value) (successors : List BlockId) (isTerm : Bool)
deriving DecidableEq, Repr

/-- An instruction: its identity, the bit width of its integer type, and its kind. -/
structure Instruction where
  id : InstId
  ty : Nat
  kind : InstKind
deriving DecidableEq, Repr

structure BasicBlock where
  id : BlockId
  insts : List Instruction
deriving DecidableEq, Repr

/-- A function body: the entry block followed by the other blocks. -/
structure Function where
  entry : BasicBlock
  rest : List BasicBlock
deriving DecidableEq, Repr

/-- The blocks of `F` in order (`for (BasicBlock &BB : F)`). -/
def Function.blocks (F : Function) : List BasicBlock := F.entry :: F.rest

def InstKind.isPHI : InstKind → Bool
  | .PHINode _ => true
  | _ => false

def InstKind.isTerminator : InstKind → Bool
  | .Br _ => true
  | .CondBr _ _ _ => true
  | .Other _ _ t => t
  | _ => false

/-- The successor blocks of an instruction (`successors()`, `getSuccessor(i)`). -/
def InstKind.successors : InstKind → List BlockId
  | .Br d => [d]
  | .CondBr _ t f => [t, f]
  | .Other _ s _ => s
  | _ => []

/-- The value operands of an instruction. -/
def InstKind.operands : InstKind → List Value
  | .PHINode inc => inc.map Prod.fst
  | .Br _ => []
  | .CondBr c _ _ => [c]
  | .ICmpInst _ a b => [a, b]
  | .BinaryOperator _ a b => [a, b]
  | .Other ops _ _ => ops

/-- `BasicBlock::phis()`: the phi nodes at the head of the block. -/
def BasicBlock.phis (BB : BasicBlock) : List Instruction :=
  BB.insts.takeWhile (fun I => I.kind.isPHI)

/-- `BasicBlock::getTerminator()`: the last instruction when it is a terminator. -/
def BasicBlock.getTerminator (BB : BasicBlock) : Option Instruction :=
  match BB.insts.getLast? with
  | some I => if I.kind.isTerminator then some I else none
  | none => none

/-- Dereference a block pointer. -/
def Function.getBlock (F : Function) (b : BlockId) : Option BasicBlock :=
  F.blocks.find? (fun BB => BB.id == b)

/-- Search the blocks for the instruction with identity `id`; gives its parent and itself. -/
def findInstIn (id : InstId) : List BasicBlock → Option (BlockId × Instruction)
  | [] => none
  | BB :: rest =>
    match BB.insts.find? (fun I => I.id == id) with
    | some I => some (BB.id, I)
    | none => findInstIn id rest

/-- Dereference an instruction pointer. -/
def Function.findInst (F : Function) (id : InstId) : Option (BlockId × Instruction) :=
  findInstIn id F.blocks

/-- `Instruction::getParent()` through an instruction pointer (`nullptr` when detached). -/
def Function.getParent (F : Function) (id : InstId) : Option BlockId :=
  (F.findInst id).map Prod.fst

/-- All instructions of `F`, in block order. -/
def Function.instructions (F : Function) : List Instruction :=
  F.blocks.flatMap (fun BB => BB.insts)

/-- `Value::users()` restricted to instructions: the instructions with `v` among their
operands. -/
def Function.users (F : Function) (v : Value) : List InstId :=
  (F.instructions.filter (fun J => decide (v ∈ J.kind.operands))).map (fun J => J.id)

/-! ## Ordered sets and the fact map -/

/-- `std::set::insert` on a strictly sorted list. -/
def setInsert {α : Type} [DecidableEq α] (lt : α → α → Bool) (x : α) : List α → List α
  | [] => [x]
  | y :: ys =>
    if x = y then y :: ys
    else if lt x y then x :: y :: ys
    else y :: setInsert lt x ys

/-- Insert every element of a list. -/
def setInsertAll {α : Type} [DecidableEq α] (lt : α → α → Bool) (xs : List α) (s : List α) :
    List α :=
  xs.foldl (fun acc x => setInsert lt x acc) s

/-- `DenseMap::find`. -/
def mapFind {α β : Type} [DecidableEq α] (k : α) : List (α × β) → Option β
  | [] => none
  | (k', v) :: rest => if k = k' then some v else mapFind k rest

/-- `DenseMap::operator[]` assignment: overwrite the entry of `k`, or add one. -/
def mapSet {α β : Type} [DecidableEq α] (k : α) (v : β) : List (α × β) → List (α × β)
  | [] => [(k, v)]
  | (k', v') :: rest => if k = k' then (k, v) :: rest else (k', v') :: mapSet k v rest

/-- `CFGEdge`: an ordered pair of block pointers (the members `From` and `To` that
`operator<` and `operator==` read). -/
structure CFGEdge where
  From : Option BlockId
  To : Option BlockId
deriving DecidableEq, Repr

/-- The address a block pointer stands for (`reinterpret_cast<std::uintptr_t>`); `nullptr`
is 0. -/
def addressOf : Option BlockId → Nat
  | none => 0
  | some b => b + 1

/-- `CFGEdge::operator<` (lines 46-58). -/
def CFGEdge.lt (self other : CFGEdge) : Bool :=
  let ThisFrom := addressOf self.From
  let ThisTo := addressOf self.To
  let OtherFrom := addressOf other.From
  let OtherTo := addressOf other.To
  if ThisFrom < OtherFrom then true
  else if ThisFrom = OtherFrom ∧ ThisTo < OtherTo then true
  else false

/-- The order of instruction pointers in `SSAWorkset`. -/
def instLt (a b : InstId) : Bool := decide (a < b)

/-! ## Analysis state -/

/-- The members of `SimpleSCCPAnalysis` that `analyze` resets and its loop updates.
Modelled from the spec: their declarations are in `SimpleSCCP.h`; the two work sets and
`ExecutableEdges` are sets (the source uses `insert`, `erase`, `count`, `begin`, `empty`),
`DataflowFacts` is a map from values to lattice values. -/
structure SCCPState where
  CFGWorkset : List CFGEdge
  SSAWorkset : List InstId
  ExecutableEdges : List CFGEdge
  DataflowFacts : List (Value × ConstantValue)
deriving DecidableEq, Repr

/-- `SimpleSCCPAnalysis::isExecutableEdge` (lines 354-356). -/
def isExecutableEdge (s : SCCPState) (CE : CFGEdge) : Bool :=
  decide (CE ∈ s.ExecutableEdges)

/-- The loop of `isFirstVisit`, with the count so far. -/
def isFirstVisitLoop (TheBlock : Option BlockId) : List CFGEdge → Nat → Bool
  | [], ExecutableIncomingEdgeCount => if ExecutableIncomingEdgeCount ≠ 1 then false else true
  | Edge :: more, ExecutableIncomingEdgeCount =>
    if Edge.To = TheBlock then
      if ExecutableIncomingEdgeCount + 1 > 1 then false
      else isFirstVisitLoop TheBlock more (ExecutableIncomingEdgeCount + 1)
    else isFirstVisitLoop TheBlock more ExecutableIncomingEdgeCount

/-- `SimpleSCCPAnalysis::isFirstVisit` (lines 328-342). -/
def isFirstVisit (s : SCCPState) (BB : Option BlockId) : Bool :=
  isFirstVisitLoop BB s.ExecutableEdges 0

/-- `SimpleSCCPAnalysis::isExecutableBlock` (lines 344-352). -/
def isExecutableBlock (s : SCCPState) (BB : Option BlockId) : Bool :=
  s.ExecutableEdges.any (fun Edge => decide (Edge.To = BB))

/-- `SimpleSCCPAnalysis::getConstantValue` (lines 373-382). -/
def getConstantValue (s : SCCPState) (v : Value) : ConstantValue :=
  match v with
  | .constInt width bits => .const (getSExtValue width bits)
  | _ =>
    match mapFind v s.DataflowFacts with
    | some c => c
    | none => .top

/-- `SimpleSCCPAnalysis::appendExecutableSuccessors` (lines 358-364) for a branch in block
`Parent` with the given successors. -/
def appendExecutableSuccessors (Parent : BlockId) (succs : List BlockId) (s : SCCPState) :
    SCCPState :=
  succs.foldl
    (fun st BB =>
      let Candidate : CFGEdge := ⟨some Parent, some BB⟩
      if Candidate ∈ st.ExecutableEdges then st
      else { st with CFGWorkset := setInsert CFGEdge.lt Candidate st.CFGWorkset })
    s

/-! ## Instruction visitor -/

/-- `InstructionVisitor::visitPHINode` (lines 73-88) for a phi in block `Parent`. -/
def visitPHINode (F : Function) (s : SCCPState) (Parent : BlockId)
    (incoming : List (Value × Option BlockId)) : ConstantValue :=
  let FromBlock : Option BlockId := some Parent
  incoming.foldl
    (fun NewValue entry =>
      match entry.1 with
      | .inst id =>
        let ToBlock := F.getParent id
        let Edge : CFGEdge := ⟨ToBlock, FromBlock⟩
        if isExecutableEdge s Edge then NewValue.meet (getConstantValue s entry.1)
        else NewValue
      | _ => NewValue)
    ConstantValue.top

/-- `InstructionVisitor::visitBranchInst` (lines 101-118) for a branch `I` of block `Parent`;
`CondBr` is the case `I.isConditional()`.  The lattice value and the state with the new
`CFGWorkset`. -/
def visitBranchInst (s : SCCPState) (Parent : BlockId) (I : InstKind) :
    ConstantValue × SCCPState :=
  match I with
  | .CondBr Condition Successor0 Successor1 =>
    let C := getConstantValue s Condition
    if C.isConstant then
      if C.value ≠ 0 then
        (.bot,
          { s with CFGWorkset := setInsert CFGEdge.lt ⟨some Parent, some Successor0⟩ s.CFGWorkset })
      else
        (.bot,
          { s with CFGWorkset := setInsert CFGEdge.lt ⟨some Parent, some Successor1⟩ s.CFGWorkset })
    else
      (.bot, appendExecutableSuccessors Parent I.successors s)
  | _ => (.bot, appendExecutableSuccessors Parent I.successors s)

/-- `InstructionVisitor::visitICmpInst` (lines 127-170). -/
def visitICmpInst (s : SCCPState) (pred : Predicate) (Operand1 Operand2 : Value) :
    ConstantValue :=
  let CV1 := getConstantValue s Operand1
  let CV2 := getConstantValue s Operand2
  if CV1.IsBot || CV2.IsBot then .bot
  else if CV1.IsTop || CV2.IsTop then .top
  else
    let Int1 := CV1.value
    let Int2 := CV2.value
    match pred with
    | .ICMP_SLT | .ICMP_ULT => .const (if Int1 < Int2 then 1 else 0)
    | .ICMP_SLE | .ICMP_ULE => .const (if Int1 ≤ Int2 then 1 else 0)
    | .ICMP_SGT | .ICMP_UGT => .const (if Int1 > Int2 then 1 else 0)
    | .ICMP_SGE | .ICMP_UGE => .const (if Int1 ≥ Int2 then 1 else 0)
    | .ICMP_EQ => .const (if Int1 = Int2 then 1 else 0)
    | .ICMP_NE => .const (if Int1 ≠ Int2 then 1 else 0)
    | .OTHER => .bot

/-- The C++ expression `Int1 / Int2` on `int64_t`: undefined when the divisor is zero or the
quotient is not representable, truncating division otherwise. -/
def divInt64 (Int1 Int2 : Int) : Option Int :=
  if Int2 = 0 then none
  else if Int1 = -(2 ^ 63) ∧ Int2 = -1 then none
  else some (Int.tdiv Int1 Int2)

/-- `InstructionVisitor::visitBinaryOperator` (lines 180-223); `none` is undefined
behaviour. -/
def visitBinaryOperator (s : SCCPState) (opcode : BinaryOps) (Operand1 Operand2 : Value) :
    Option ConstantValue :=
  let CV1 := getConstantValue s Operand1
  let CV2 := getConstantValue s Operand2
  if CV1.IsBot || CV2.IsBot then some .bot
  else if CV1.IsTop || CV2.IsTop then some .top
  else
    let Int1 := CV1.value
    let Int2 := CV2.value
    match opcode with
    | .Add => some (.const (toInt64 (Int1 + Int2)))
    | .Sub => some (.const (toInt64 (Int1 - Int2)))
    | .Mul => some (.const (toInt64 (Int1 * Int2)))
    | .UDiv | .SDiv => (divInt64 Int1 Int2).map ConstantValue.const
    | .And => some (.const (Int.land Int1 Int2))
    | .Or => some (.const (Int.lor Int1 Int2))
    | .Xor => some (.const (Int.xor Int1 Int2))
    | _ => some .bot

/-- `InstructionVisitor::visitInstruction` (lines 228-230). -/
def visitInstruction : ConstantValue := .bot

/-- The dispatch `TheVisitor.visit(I)` of `InstVisitor` on the instruction kind, for an
instruction of block `Parent`: the lattice value and the state (only a branch changes it). -/
def visitorVisit (F : Function) (Parent : BlockId) (I : Instruction) (s : SCCPState) :
    Option (ConstantValue × SCCPState) :=
  match I.kind with
  | .PHINode incoming => some (visitPHINode F s Parent incoming, s)
  | .Br _ => some (visitBranchInst s Parent I.kind)
  | .CondBr _ _ _ => some (visitBranchInst s Parent I.kind)
  | .ICmpInst pred a b => some (visitICmpInst s pred a b, s)
  | .BinaryOperator opcode a b => (visitBinaryOperator s opcode a b).map (fun c => (c, s))
  | .Other _ _ _ => some (visitInstruction, s)

/-! ## Analysis engine -/

/-- The two identical loops of `visit` that add the users of `I` to `SSAWorkset`. -/
def insertUsers (F : Function) (I : Instruction) (s : SCCPState) : SCCPState :=
  { s with SSAWorkset := setInsertAll instLt (F.users (.inst I.id)) s.SSAWorkset }

/-- `SimpleSCCPAnalysis::visit` (lines 300-326) of instruction `I` of block `Parent`. -/
def visit (F : Function) (Parent : BlockId) (I : Instruction) (s : SCCPState) :
    Option SCCPState :=
  match visitorVisit F Parent I s with
  | none => none
  | some (NewLatticeValue, s1) =>
    match mapFind (Value.inst I.id) s1.DataflowFacts with
    | some OldLatticeValue =>
      if NewLatticeValue.ne OldLatticeValue then
        some (insertUsers F I
          { s1 with DataflowFacts := mapSet (Value.inst I.id) NewLatticeValue s1.DataflowFacts })
      else some s1
    | none =>
      some (insertUsers F I
        { s1 with DataflowFacts := s1.DataflowFacts ++ [(Value.inst I.id, NewLatticeValue)] })

/-- Visit the instructions of a list in order. -/
def visitAll (F : Function) (Parent : BlockId) : List Instruction → SCCPState → Option SCCPState
  | [], s => some s
  | I :: more, s =>
    match visit F Parent I s with
    | none => none
    | some s1 => visitAll F Parent more s1

/-- The state `analyze` sets up before its loop (lines 246-250). -/
def analyzeInit (F : Function) : SCCPState :=
  { CFGWorkset := [⟨none, some F.entry.id⟩]
    SSAWorkset := []
    ExecutableEdges := []
    DataflowFacts := [] }

/-- The first branch of the loop body of `analyze` (lines 254-283), for the edge `Edge` taken
from `CFGWorkset`. -/
def processEdge (F : Function) (Edge : CFGEdge) (s : SCCPState) : Option SCCPState :=
  let s0 : SCCPState :=
    { s with CFGWorkset := s.CFGWorkset.erase Edge
             ExecutableEdges := setInsert CFGEdge.lt Edge s.ExecutableEdges }
  match Edge.To with
  | none => none
  | some b =>
    match F.getBlock b with
    | none => none
    | some ToBlock =>
      match visitAll F b ToBlock.phis s0 with
      | none => none
      | some s1 =>
        let s2opt :=
          if isFirstVisit s1 (some b) then
            visitAll F b (ToBlock.insts.filter (fun I => !I.kind.isPHI)) s1
          else some s1
        match s2opt with
        | none => none
        | some s2 =>
          match ToBlock.getTerminator with
          | none => none
          | some TI =>
            match TI.kind.successors with
            | [Successor0] =>
              let NewEdge : CFGEdge := ⟨some b, some Successor0⟩
              let exec :=
                if NewEdge ∈ s2.ExecutableEdges then s2.ExecutableEdges
                else setInsert CFGEdge.lt NewEdge s2.ExecutableEdges
              some { s2 with ExecutableEdges := exec
                             CFGWorkset := setInsert CFGEdge.lt NewEdge s2.CFGWorkset }
            | _ => some s2

/-- The second branch of the loop body of `analyze` (lines 285-291), for the instruction `V`
taken from `SSAWorkset`. -/
def processInst (F : Function) (V : InstId) (s : SCCPState) : Option SCCPState :=
  let s0 : SCCPState := { s with SSAWorkset := s.SSAWorkset.erase V }
  match F.findInst V with
  | none => none
  | some (Parent, I) =>
    if I.kind.isPHI then visit F Parent I s0
    else if isExecutableBlock s0 (some Parent) then visit F Parent I s0
    else some s0

/-- One iteration of the loop of `analyze` (lines 252-293), removing `*begin()`. -/
def loopBody (F : Function) (s : SCCPState) : Option SCCPState :=
  match s.CFGWorkset with
  | Edge :: _ => processEdge F Edge s
  | [] =>
    match s.SSAWorkset with
    | V :: _ => processInst F V s
    | [] => some s

/-- The loop of `analyze` run for at most `fuel` iterations: `some` final state when both work
sets became empty, `none` when the fuel ran out or the behaviour was undefined. -/
def analyzeLoop (F : Function) : Nat → SCCPState → Option SCCPState
  | 0, s => if s.CFGWorkset = [] ∧ s.SSAWorkset = [] then some s else none
  | fuel + 1, s =>
    if s.CFGWorkset = [] ∧ s.SSAWorkset = [] then some s
    else
      match loopBody F s with
      | none => none
      | some s1 => analyzeLoop F fuel s1

/-- `SimpleSCCPAnalysis::analyze` (lines 245-295) with a bound on the iterations. -/
def analyze (F : Function) (fuel : Nat) : Option SCCPState :=
  analyzeLoop F fuel (analyzeInit F)

/-- One iteration of the loop of `analyze` with an arbitrary choice of the removed element:
an edge of `CFGWorkset` when there is one, an instruction of `SSAWorkset` otherwise. -/
inductive Step (F : Function) : SCCPState → SCCPState → Prop
  | cfg (s s1 : SCCPState) (Edge : CFGEdge) :
      Edge ∈ s.CFGWorkset → processEdge F Edge s = some s1 → Step F s s1
  | ssa (s s1 : SCCPState) (V : InstId) :
      s.CFGWorkset = [] → V ∈ s.SSAWorkset → processInst F V s = some s1 → Step F s s1

/-- The states `analyze` can be in at the head of its loop, for any removal order. -/
inductive Reachable (F : Function) : SCCPState → Prop
  | init : Reachable F (analyzeInit F)
  | step (s s1 : SCCPState) : Reachable F s → Step F s s1 → Reachable F s1

/-- The loop of `analyze` has finished in state `s`. -/
def Finished (s : SCCPState) : Prop := s.CFGWorkset = [] ∧ s.SSAWorkset = []

instance (s : SCCPState) : Decidable (Finished s) := by
  unfold Finished
  exact inferInstance

/-! ## Transformation -/

/-- Replace one operand when it is `old`. -/
def replaceValue (old new v : Value) : Value := if v = old then new else v

/-- Replace `old` by `new` in the operands of an instruction. -/
def InstKind.replaceUses (old new : Value) : InstKind → InstKind
  | .PHINode inc => .PHINode (inc.map (fun e => (replaceValue old new e.1, e.2)))
  | .Br d => .Br d
  | .CondBr c t f => .CondBr (replaceValue old new c) t f
  | .ICmpInst p a b => .ICmpInst p (replaceValue old new a) (replaceValue old new b)
  | .BinaryOperator o a b => .BinaryOperator o (replaceValue old new a) (replaceValue old new b)
  | .Other ops succs t => .Other (ops.map (replaceValue old new)) succs t

/-- Apply a function to every block of `F`. -/
def Function.mapBlocks (F : Function) (f : BasicBlock → BasicBlock) : Function :=
  { entry := f F.entry, rest := F.rest.map f }

/-- `Value::replaceAllUsesWith`: every operand of `F` that is `old` becomes `new`. -/
def Function.replaceAllUsesWith (F : Function) (old new : Value) : Function :=
  F.mapBlocks (fun BB =>
    { BB with insts := BB.insts.map (fun I => { I with kind := I.kind.replaceUses old new }) })

/-- `Instruction::removeFromParent`: unlink the instruction `id` from its block. -/
def Function.removeFromParent (F : Function) (id : InstId) : Function :=
  F.mapBlocks (fun BB => { BB with insts := BB.insts.filter (fun I => I.id ≠ id) })

/-- `ConstantInt::get(Ty, V)` for an integer type of `width` bits and the `int64_t` value `v`
passed as `uint64_t`: the bit pattern truncated to the width. -/
def constantIntGet (width : Nat) (v : Int) : Value :=
  .constInt width (((v % 2 ^ 64) % 2 ^ width).toNat)

/-- The body of the loop over `DataflowFacts` (lines 411-422): the function and the list
`AbondonedInst` so far, and one entry of the map.  A key that names no instruction of the
function is passed over. -/
def substituteEntry (acc : Function × List InstId) (entry : Value × ConstantValue) :
    Function × List InstId :=
  let V := entry.1
  let CV := entry.2
  if CV.isConstant then
    match V with
    | .inst id =>
      match acc.1.findInst id with
      | some (_, I) =>
        if acc.1.users (.inst id) = [] then (acc.1, acc.2 ++ [id])
        else (acc.1.replaceAllUsesWith (.inst id) (constantIntGet I.ty CV.value), acc.2 ++ [id])
      | none => acc
    | _ => acc
  else acc

/-- Remove the instructions of `AbondonedInst` from their blocks (lines 424-427, 456-459). -/
def removeAbandoned (F : Function) (AbondonedInst : List InstId) : Function :=
  AbondonedInst.foldl (fun G id => G.removeFromParent id) F

/-- The constant-substitution pass of `foldConstants` (lines 410-427). -/
def substituteConstants (F : Function) (DataflowFacts : List (Value × ConstantValue)) :
    Function :=
  let r := DataflowFacts.foldl substituteEntry (F, [])
  removeAbandoned r.1 r.2

/-- An instruction identity not in use in `F` (what `IRBuilder::CreateBr` allocates). -/
def Function.freshId (F : Function) : InstId :=
  (F.instructions.map (fun I => I.id)).foldl max 0 + 1

/-- `ConstantInt::isOne`. -/
def isOne (width bits : Nat) : Bool := bits % 2 ^ width == 1

/-- `ConstantInt::isZero`. -/
def isZero (width bits : Nat) : Bool := bits % 2 ^ width == 0

/-- The loop over the blocks of lines 431-454, with the next fresh identity: the blocks with
the new branches inserted before the old terminators, the abandoned terminators, and
`madeChange`.  A block without terminator makes `dyn_cast` act on a null pointer. -/
def simplifyBranchesLoop : List BasicBlock → InstId →
    Option (List BasicBlock × List InstId × Bool)
  | [], _ => some ([], [], false)
  | BB :: more, next =>
    match BB.getTerminator with
    | none => none
    | some TI =>
      let rewrite (dest : BlockId) : Option (List BasicBlock × List InstId × Bool) :=
        let NewBI : Instruction := ⟨next, 0, .Br dest⟩
        match simplifyBranchesLoop more (next + 1) with
        | none => none
        | some (bs, ab, _) =>
          some ({ BB with insts := BB.insts.dropLast ++ [NewBI, TI] } :: bs, TI.id :: ab, true)
      let keep : Option (List BasicBlock × List InstId × Bool) :=
        match simplifyBranchesLoop more next with
        | none => none
        | some (bs, ab, ch) => some (BB :: bs, ab, ch)
      match TI.kind with
      | .CondBr (.constInt width bits) Successor0 Successor1 =>
        if isOne width bits then rewrite Successor0
        else if isZero width bits then rewrite Successor1
        else keep
      | _ => keep

/-- The branch-simplification pass of `foldConstants` (lines 429-459). -/
def simplifyBranches (F : Function) : Option (Function × Bool) :=
  match simplifyBranchesLoop F.blocks F.freshId with
  | some (e :: r, ab, ch) => some (removeAbandoned ⟨e, r⟩ ab, ch)
  | _ => none

/-- The successors of a block (`succ_begin`, `succ_end`): those of its terminator. -/
def Function.successorsOf (F : Function) (b : BlockId) : List BlockId :=
  match F.getBlock b with
  | some BB =>
    match BB.getTerminator with
    | some TI => TI.kind.successors
    | none => []
  | none => []

/-- The inner loop of the traversal (lines 474-479): `WorkList` (its back is the head of the
list) and `Reachable` after looking at the successors. -/
def visitSuccessors (succs : List BlockId) (WorkList Reachable : List BlockId) :
    List BlockId × List BlockId :=
  succs.foldl
    (fun acc Succ =>
      if Succ ∈ acc.2 then acc
      else (Succ :: acc.1, setInsert instLt Succ acc.2))
    (WorkList, Reachable)

/-- The traversal loop (lines 470-480) for at most `fuel` iterations: `WorkList` and
`Reachable` when the loop has ended (`WorkList` empty) or the fuel has run out. -/
def reachLoop (F : Function) : Nat → List BlockId → List BlockId →
    List BlockId × List BlockId
  | 0, WorkList, Reachable => (WorkList, Reachable)
  | _ + 1, [], Reachable => ([], Reachable)
  | fuel + 1, Current :: WorkList, Reachable =>
    let r := visitSuccessors (F.successorsOf Current) WorkList Reachable
    reachLoop F fuel r.1 r.2

/-- A bound on the iterations of the traversal: every block pushed is the entry or the target
of a successor slot. -/
def Function.reachFuel (F : Function) : Nat :=
  1 + (F.blocks.map (fun BB => (F.successorsOf BB.id).length)).sum

/-- The set `Reachable` of lines 461-480. -/
def reachableBlocks (F : Function) : List BlockId :=
  (reachLoop F F.reachFuel [F.entry.id] [F.entry.id]).2

/-- Lines 482-496: erase the blocks that are not in `Reachable`.  The entry block is put into
`Reachable` first, so it is never erased.  Replacing the uses of an erased block by undef only
touches terminators that are themselves erased or already detached (the incoming blocks of a
phi are not uses).  An operand of a surviving instruction that names an instruction of an
erased block is left as it is. -/
def removeUnreachableBlocks (F : Function) : Function :=
  { entry := F.entry
    rest := F.rest.filter (fun BB => decide (BB.id ∈ reachableBlocks F)) }

/-- The loop over the incoming entries of one phi (lines 501-508), from index `i`, for at most
`fuel` iterations: the remaining entries and whether one was removed.  `none`: the last entry
was removed, `removeIncomingValue` erased the phi and the loops go on using it. -/
def repairIncoming : Nat → Nat → List (Value × Option BlockId) → Bool →
    Option (List (Value × Option BlockId) × Bool)
  | 0, _, inc, ch => some (inc, ch)
  | fuel + 1, i, inc, ch =>
    match inc.get? i with
    | none => some (inc, ch)
    | some (_, none) => repairIncoming fuel (i + 1) inc ch
    | some (_, some _) =>
      let inc1 := inc.eraseIdx i
      if inc1 = [] then none else repairIncoming fuel (i + 1) inc1 true

/-- Lines 500-509 for the phi nodes at the head of an instruction list. -/
def repairPhiList : List Instruction → Option (List Instruction × Bool)
  | [] => some ([], false)
  | I :: more =>
    match I.kind with
    | .PHINode inc =>
      match repairIncoming inc.length 0 inc false with
      | none => none
      | some (inc1, ch) =>
        match repairPhiList more with
        | none => none
        | some (more1, ch1) => some ({ I with kind := .PHINode inc1 } :: more1, ch || ch1)
    | _ => some (I :: more, false)

/-- Lines 499-510 over a list of blocks. -/
def repairBlocks : List BasicBlock → Option (List BasicBlock × Bool)
  | [] => some ([], false)
  | BB :: more =>
    match repairPhiList BB.insts with
    | none => none
    | some (insts, ch) =>
      match repairBlocks more with
      | none => none
      | some (more1, ch1) => some ({ BB with insts := insts } :: more1, ch || ch1)

/-- The phi-repair pass of `foldConstants` (lines 498-510). -/
def repairPhis (F : Function) : Option (Function × Bool) :=
  match repairBlocks F.blocks with
  | some (e :: r, ch) => some (⟨e, r⟩, ch)
  | _ => none

/-- `SimpleSCCPTransform::foldConstants` (lines 394-514): the rewritten function and the
returned flag `madeChange`; `none` is undefined behaviour. -/
def foldConstants (F : Function) (DataflowFacts : List (Value × ConstantValue)) :
    Option (Function × Bool) :=
  let F1 := substituteConstants F DataflowFacts
  match simplifyBranches F1 with
  | none => none
  | some (F2, madeChange2) =>
    let F3 := removeUnreachableBlocks F2
    match repairPhis F3 with
    | none => none
    | some (F4, madeChange4) => some (F4, madeChange2 || madeChange4)

/-! ## Runs of the analysis -/

/-- What one iteration of the loop of `analyze` removes from a work set. -/
inductive Choice
  | edge (e : CFGEdge)
  | inst (v : InstId)
deriving DecidableEq, Repr

/-- One iteration of the loop of `analyze` that removes the given element; `none` when the
loop cannot remove it in this state (or on undefined behaviour). -/
def stepWith (F : Function) (c : Choice) (s : SCCPState) : Option SCCPState :=
  match c with
  | .edge e => if e ∈ s.CFGWorkset then processEdge F e s else none
  | .inst v => if s.CFGWorkset = [] ∧ v ∈ s.SSAWorkset then processInst F v s else none

/-- Run the loop of `analyze` along a removal order. -/
def runWith (F : Function) : List Choice → SCCPState → Option SCCPState
  | [], s => some s
  | c :: more, s =>
    match stepWith F c s with
    | none => none
    | some s1 => runWith F more s1

/-- Run `n` iterations of the loop of `analyze` (removing `*begin()` each time), whether or not
the work sets become empty. -/
def iterateLoop (F : Function) : Nat → SCCPState → Option SCCPState
  | 0, s => some s
  | n + 1, s =>
    match loopBody F s with
    | none => none
    | some s1 => iterateLoop F n s1

/-- The elementary state changes inside one iteration of the loop of `analyze`. -/
inductive Micro (F : Function) : SCCPState → SCCPState → Prop
  | takeEdge (s : SCCPState) (Edge : CFGEdge) :
      Edge ∈ s.CFGWorkset →
      Micro F s { s with CFGWorkset := s.CFGWorkset.erase Edge
                         ExecutableEdges := setInsert CFGEdge.lt Edge s.ExecutableEdges }
  | visit (s s1 : SCCPState) (BB : BasicBlock) (I : Instruction) :
      BB ∈ F.blocks → I ∈ BB.insts →
      (I.kind.isPHI = true ∨ isExecutableBlock s (some BB.id) = true) →
      visit F BB.id I s = some s1 → Micro F s s1
  | addSuccessor (s : SCCPState) (BB : BasicBlock) (Successor0 : BlockId) :
      BB ∈ F.blocks → isExecutableBlock s (some BB.id) = true →
      Micro F s { s with
        ExecutableEdges :=
          if (⟨some BB.id, some Successor0⟩ : CFGEdge) ∈ s.ExecutableEdges then s.ExecutableEdges
          else setInsert CFGEdge.lt ⟨some BB.id, some Successor0⟩ s.ExecutableEdges
        CFGWorkset := setInsert CFGEdge.lt ⟨some BB.id, some Successor0⟩ s.CFGWorkset }
  | takeInst (s : SCCPState) (V : InstId) :
      Micro F s { s with SSAWorkset := s.SSAWorkset.erase V }

/-- Every point of `analyze`: the states reached from the initial one by elementary changes. -/
inductive MicroReachable (F : Function) : SCCPState → Prop
  | init : MicroReachable F (analyzeInit F)
  | step (s s1 : SCCPState) : MicroReachable F s → Micro F s s1 → MicroReachable F s1

/-- The seed edge (sentinel null to the entry block). -/
def seedEdge (F : Function) : CFGEdge := ⟨none, some F.entry.id⟩

/-- Block `b` is reached from the entry block along edges of `exec` only. -/
inductive ExecPath (F : Function) (exec : List CFGEdge) : BlockId → Prop
  | entry : ExecPath F exec F.entry.id
  | edge (a b : BlockId) :
      ExecPath F exec a → (⟨some a, some b⟩ : CFGEdge) ∈ exec → ExecPath F exec b

/-- Instruction identities are identities: no two instructions of `F` share one. -/
def Function.UniqueIds (F : Function) : Prop := (F.instructions.map (fun I => I.id)).Nodup

instance (F : Function) : Decidable F.UniqueIds := by
  unfold Function.UniqueIds
  exact inferInstance

/-- The number of times the stored fact of `v` changes along a sequence of states (the first
store of a fact is not a change of a stored fact). -/
def factChanges (v : Value) : List SCCPState → Nat
  | s :: t :: more =>
    (if mapFind v s.DataflowFacts ≠ none ∧ mapFind v s.DataflowFacts ≠ mapFind v t.DataflowFacts
     then 1 else 0) + factChanges v (t :: more)
  | _ => 0

/-- An edge is the seed edge, or its source block is reached from the entry block along
edges of `exec` and is the target of an edge of `exec`. -/
def EdgeOK (F : Function) (exec : List CFGEdge) (e : CFGEdge) : Prop :=
  e = seedEdge F ∨
    ∃ a, e.From = some a ∧ ExecPath F exec a ∧ ∃ e1 ∈ exec, e1.To = some a

/-- The common shape of the comparison and arithmetic transfer functions: Bottom if an operand
is Bottom, else Top if an operand is Top, else `g` on the two constants. -/
def strictLift (g : Int → Int → Option ConstantValue) (CV1 CV2 : ConstantValue) :
    Option ConstantValue :=
  if CV1.IsBot || CV2.IsBot then some .bot
  else if CV1.IsTop || CV2.IsTop then some .top
  else g CV1.value CV2.value

/-- State `s1` is below state `s`: every value has a fact below its fact in `s`, and every
edge executable in `s` is executable in `s1`. -/
def StateLe (s1 s : SCCPState) : Prop :=
  (∀ v, (getConstantValue s1 v).le (getConstantValue s v)) ∧
    ∀ e ∈ s.ExecutableEdges, e ∈ s1.ExecutableEdges

/-- Every fact stored in `s` is still stored in `s1`, with a value below the old one. -/
def FactsLe (s1 s : SCCPState) : Prop :=
  ∀ k f, mapFind k s.DataflowFacts = some f →
    ∃ f1, mapFind k s1.DataflowFacts = some f1 ∧ f1.le f

/-- Every stored fact is above what the visitor computes for its instruction now. -/
def FactInv (F : Function) (s : SCCPState) : Prop :=
  ∀ BB ∈ F.blocks, ∀ I ∈ BB.insts, ∀ f, mapFind (Value.inst I.id) s.DataflowFacts = some f →
    ∀ n t, visitorVisit F BB.id I s = some (n, t) → n.le f

/-- The height of the stored fact of `v` (an absent fact counts as Top). -/
def storedHeight (v : Value) (s : SCCPState) : Nat :=
  match mapFind v s.DataflowFacts with
  | some f => f.height
  | none => 2

/-- Block `b` is reached from the entry block of `F` by zero or more successor steps. -/
def CFGReach (F : Function) (b : BlockId) : Prop :=
  Relation.ReflTransGen (fun x y => y ∈ F.successorsOf x) F.entry.id b

/-- Every successor slot of `F`: the universe the traversal can push. -/
def Function.successorSlots (F : Function) : List BlockId :=
  F.blocks.flatMap (fun BB => F.successorsOf BB.id)

/-- The invariant of the traversal loop: the entry block is in `Reachable`, every block of
`Reachable` is reached from the entry block, `WorkList` is part of `Reachable`, and a block of
`Reachable` is still in `WorkList` or has all its successors in `Reachable`. -/
def ReachInv (F : Function) (WorkList Reachable : List BlockId) : Prop :=
  F.entry.id ∈ Reachable ∧ (∀ x ∈ Reachable, CFGReach F x) ∧
    (∀ x ∈ WorkList, x ∈ Reachable) ∧
    ∀ x ∈ Reachable, x ∈ WorkList ∨ ∀ y ∈ F.successorsOf x, y ∈ Reachable

/-- The successor a block's terminator is rewritten to by branch simplification, if it is:
successor 0 for a conditional branch on the literal true (`isOne`), successor 1 for one on
the literal false (`isZero`). -/
def literalBranchTarget (BB : BasicBlock) : Option BlockId :=
  match BB.getTerminator with
  | some TI =>
    match TI.kind with
    | .CondBr (.constInt width bits) Successor0 Successor1 =>
      if isOne width bits then some Successor0
      else if isZero width bits then some Successor1
      else none
    | _ => none
  | none => none

/-- Block `BB1` is what branch simplification makes of block `BB`: the terminator replaced by
an unconditional branch to the target when `literalBranchTarget` gives one, the same block
otherwise. -/
def BranchSimplified (BB BB1 : BasicBlock) : Prop :=
  match literalBranchTarget BB with
  | some dest =>
    ∃ newId, BB1 = ⟨BB.id, BB.insts.dropLast ++ [⟨newId, 0, .Br dest⟩]⟩
  | none => BB1 = BB

/-- Apply a function to every value operand of an instruction. -/
def InstKind.mapOperands (f : Value → Value) : InstKind → InstKind
  | .PHINode inc => .PHINode (inc.map (fun e => (f e.1, e.2)))
  | .Br d => .Br d
  | .CondBr c t e => .CondBr (f c) t e
  | .ICmpInst p a b => .ICmpInst p (f a) (f b)
  | .BinaryOperator o a b => .BinaryOperator o (f a) (f b)
  | .Other ops succs t => .Other (ops.map f) succs t

/-- Apply a function to every value operand of every instruction of `F`. -/
def Function.mapOperands (F : Function) (f : Value → Value) : Function :=
  F.mapBlocks (fun BB =>
    { BB with insts := BB.insts.map (fun I => { I with kind := I.kind.mapOperands f }) })

/-- The literal that constant substitution puts in place of the value `v`, if any: `v` is
the result of an instruction of `F` whose fact is Constant(c), and the literal is `c` in the
type of the instruction. -/
def constantOf (F : Function) (DataflowFacts : List (Value × ConstantValue)) (v : Value) :
    Option Value :=
  match v with
  | .inst id =>
    match mapFind (Value.inst id) DataflowFacts with
    | some CV =>
      if CV.isConstant then (F.findInst id).map (fun p => constantIntGet p.2.ty CV.value)
      else none
    | none => none
  | _ => none

/-- The operand that stands for `v` after constant substitution. -/
def substValue (F : Function) (DataflowFacts : List (Value × ConstantValue)) (v : Value) :
    Value :=
  (constantOf F DataflowFacts v).getD v

/-- Constant substitution as the spec words it: every use of an instruction with a Constant
fact is replaced by the literal, and the instruction is deleted; everything else stays. -/
def substitutionSpec (F : Function) (DataflowFacts : List (Value × ConstantValue)) : Function :=
  F.mapBlocks (fun BB =>
    { BB with
      insts :=
        (BB.insts.filter (fun I => (constantOf F DataflowFacts (Value.inst I.id)).isNone)).map
          (fun I => { I with kind := I.kind.mapOperands (substValue F DataflowFacts) }) })

/-! ## Straight-line programs -/

/-- The evaluated value of an operand of a straight-line program, as the spec words it: a
literal stands for its sign-extended value, an earlier result for its value in `env`; an
argument or a result that is not earlier has none. -/
def evalOperandSpec (env : List (InstId × Int)) : Value → Option Int
  | .constInt width bits => some (getSExtValue width bits)
  | .inst id => mapFind id env
  | .argument _ => none

/-- The evaluated value of a supported binary operator on 64-bit signed integers, as the spec
words it; `none` for an unsupported opcode, a zero divisor, or a quotient that is not
representable. -/
def evalBinarySpec (opcode : BinaryOps) (a b : Int) : Option Int :=
  match opcode with
  | .Add => some (toInt64 (a + b))
  | .Sub => some (toInt64 (a - b))
  | .Mul => some (toInt64 (a * b))
  | .UDiv | .SDiv =>
    if b = 0 ∨ (a = -(2 ^ 63) ∧ b = -1) then none else some (Int.tdiv a b)
  | .And => some (Int.land a b)
  | .Or => some (Int.lor a b)
  | .Xor => some (Int.xor a b)
  | _ => none

/-- The evaluated values of a list of binary operators in program order, added to `env`;
`none` when an instruction is not a binary operator or has no evaluated value. -/
def evalBodySpec : List Instruction → List (InstId × Int) → Option (List (InstId × Int))
  | [], env => some env
  | I :: more, env =>
    match I.kind with
    | .BinaryOperator opcode a b =>
      match evalOperandSpec env a, evalOperandSpec env b with
      | some x, some y =>
        match evalBinarySpec opcode x y with
        | some r => evalBodySpec more (env ++ [(I.id, r)])
        | none => none
      | _, _ => none
    | _ => none

/-- The facts that say Constant of the evaluated value for every instruction of `env`. -/
def factsOfSpec (env : List (InstId × Int)) : List (Value × ConstantValue) :=
  env.map (fun p => (Value.inst p.1, ConstantValue.const p.2))

/-- The single-block function with the instructions `body` followed by a return of the
operands `ops`. -/
def straightLine (b : BlockId) (body : List Instruction) (rid : InstId) (rty : Nat)
    (ops : List Value) : Function :=
  { entry := ⟨b, body ++ [⟨rid, rty, .Other ops [] true⟩]⟩
    rest := [] }

/-! ## Visited blocks -/

/-- Every instruction of every block that is the destination of an edge of
`ExecutableEdges` has an entry in `DataflowFacts`. -/
def AllVisited (F : Function) (s : SCCPState) : Prop :=
  ∀ BB ∈ F.blocks, isExecutableBlock s (some BB.id) = true →
    ∀ I ∈ BB.insts, (mapFind (Value.inst I.id) s.DataflowFacts).isSome = true

instance (F : Function) (s : SCCPState) : Decidable (AllVisited F s) := by
  unfold AllVisited
  exact inferInstance

/-! ## Example programs -/

/-- Two blocks: `entry: br loop` and `loop: br loop`. -/
def selfLoopFn : Function :=
  { entry := ⟨0, [⟨10, 0, .Br 1⟩]⟩
    rest := [⟨1, [⟨11, 0, .Br 1⟩]⟩] }

/-- A counting loop.
`entry(0): br header`;
`header(1): p(20) = phi [0, entry], [inc, body]; c(21) = icmp slt p, 10; br c, body, exit`;
`body(2): inc(30) = add p, 1; br header`;
`exit(3): ret p`. -/
def loopFn : Function :=
  { entry := ⟨0, [⟨10, 0, .Br 1⟩]⟩
    rest := [
      ⟨1, [⟨20, 32, .PHINode [(.constInt 32 0, some 0), (.inst 30, some 2)]⟩,
           ⟨21, 1, .ICmpInst .ICMP_SLT (.inst 20) (.constInt 32 10)⟩,
           ⟨22, 0, .CondBr (.inst 21) 2 3⟩]⟩,
      ⟨2, [⟨30, 32, .BinaryOperator .Add (.inst 20) (.constInt 32 1)⟩,
           ⟨31, 0, .Br 1⟩]⟩,
      ⟨3, [⟨40, 0, .Other [.inst 20] [] true⟩]⟩] }

/-- A diamond.
`entry(0): br arg0, A, B`; `A(1): br M`; `B(2): br M`; `M(3): x(40) = add 1, 2; ret x`. -/
def diamondFn : Function :=
  { entry := ⟨0, [⟨10, 0, .CondBr (.argument 0) 1 2⟩]⟩
    rest := [
      ⟨1, [⟨20, 0, .Br 3⟩]⟩,
      ⟨2, [⟨30, 0, .Br 3⟩]⟩,
      ⟨3, [⟨40, 32, .BinaryOperator .Add (.constInt 32 1) (.constInt 32 2)⟩,
           ⟨41, 0, .Other [.inst 40] [] true⟩]⟩] }

/-- Scenario A: `x(10) = 2 + 3; y(11) = x * 4; return y`. -/
def scenarioA : Function :=
  { entry := ⟨0, [⟨10, 32, .BinaryOperator .Add (.constInt 32 2) (.constInt 32 3)⟩,
                  ⟨11, 32, .BinaryOperator .Mul (.inst 10) (.constInt 32 4)⟩,
                  ⟨12, 0, .Other [.inst 11] [] true⟩]⟩
    rest := [] }

/-- The facts of scenario A as the claim gives them: x = Constant(5), y = Constant(20). -/
def scenarioAFacts : List (Value × ConstantValue) :=
  [(.inst 10, .const 5), (.inst 11, .const 20), (.inst 12, .bot)]

/-- Scenario B: `if (1 < 2) A else B`, with a phi in the merge block.
`entry(0): b(9) = add arg0, 2; c(10) = icmp slt 1, 2; br c, A, B`;
`A(1): a(20) = add arg0, 1; br M`; `B(2): br M`;
`M(3): p(40) = phi [a, A], [b, B]; ret p`. -/
def scenarioB : Function :=
  { entry := ⟨0, [⟨9, 32, .BinaryOperator .Add (.argument 0) (.constInt 32 2)⟩,
                  ⟨10, 1, .ICmpInst .ICMP_SLT (.constInt 32 1) (.constInt 32 2)⟩,
                  ⟨11, 0, .CondBr (.inst 10) 1 2⟩]⟩
    rest := [
      ⟨1, [⟨20, 32, .BinaryOperator .Add (.argument 0) (.constInt 32 1)⟩, ⟨21, 0, .Br 3⟩]⟩,
      ⟨2, [⟨31, 0, .Br 3⟩]⟩,
      ⟨3, [⟨40, 32, .PHINode [(.inst 20, some 1), (.inst 9, some 2)]⟩,
           ⟨41, 0, .Other [.inst 40] [] true⟩]⟩] }

/-- The facts `analyze` computes for scenario B. -/
def scenarioBFacts : List (Value × ConstantValue) :=
  [(.inst 9, .top), (.inst 10, .const 1), (.inst 11, .bot), (.inst 20, .top), (.inst 21, .bot),
   (.inst 40, .top), (.inst 41, .bot)]

/-- The state of `analyze` on `selfLoopFn` after two iterations of the loop. -/
def selfLoopStuck : SCCPState :=
  { CFGWorkset := [⟨some 1, some 1⟩]
    SSAWorkset := []
    ExecutableEdges := [⟨none, some 0⟩, ⟨some 0, some 1⟩, ⟨some 1, some 1⟩]
    DataflowFacts := [(.inst 10, .bot), (.inst 11, .bot)] }

/-- A removal order for `diamondFn`: the edge into the merge block is taken as soon as it is
pending. -/
def diamondOrderDepthFirst : List Choice :=
  [.edge ⟨none, some 0⟩, .edge ⟨some 0, some 1⟩, .edge ⟨some 1, some 3⟩,
   .edge ⟨some 0, some 2⟩, .edge ⟨some 2, some 3⟩, .inst 41]

/-- A removal order for `diamondFn`: the least edge first, as `*CFGWorkset.begin()` gives when
the blocks lie at increasing addresses. -/
def diamondOrderByAddress : List Choice :=
  [.edge ⟨none, some 0⟩, .edge ⟨some 0, some 1⟩, .edge ⟨some 0, some 2⟩,
   .edge ⟨some 1, some 3⟩, .edge ⟨some 2, some 3⟩]

/-- What `foldConstants` makes of scenario B. -/
def scenarioBFolded : Function :=
  { entry := ⟨0, [⟨9, 32, .BinaryOperator .Add (.argument 0) (.constInt 32 2)⟩,
                  ⟨42, 0, .Br 1⟩]⟩
    rest := [
      ⟨1, [⟨20, 32, .BinaryOperator .Add (.argument 0) (.constInt 32 1)⟩, ⟨21, 0, .Br 3⟩]⟩,
      ⟨3, [⟨40, 32, .PHINode [(.inst 9, some 2)]⟩,
           ⟨41, 0, .Other [.inst 40] [] true⟩]⟩] }

/-- What `foldConstants` makes of scenario A. -/
def scenarioAFolded : Function :=
  { entry := ⟨0, [⟨12, 0, .Other [.constInt 32 20] [] true⟩]⟩
    rest := [] }

/-- The executable edges `analyze` ends with on `diamondFn`, for both removal orders. -/
def diamondEdges : List CFGEdge :=
  [⟨none, some 0⟩, ⟨some 0, some 1⟩, ⟨some 0, some 2⟩, ⟨some 1, some 3⟩, ⟨some 2, some 3⟩]

/-- The final state of `analyze` on `diamondFn` along `diamondOrderDepthFirst`. -/
def diamondFinalDepthFirst : SCCPState :=
  { CFGWorkset := []
    SSAWorkset := []
    ExecutableEdges := diamondEdges
    DataflowFacts :=
      [(.inst 10, .bot), (.inst 20, .bot), (.inst 40, .const 3), (.inst 41, .bot),
       (.inst 30, .bot)] }

/-- The final state of `analyze` on `diamondFn` along `diamondOrderByAddress`. -/
def diamondFinalByAddress : SCCPState :=
  { CFGWorkset := []
    SSAWorkset := []
    ExecutableEdges := diamondEdges
    DataflowFacts := [(.inst 10, .bot), (.inst 20, .bot), (.inst 30, .bot)] }

/-- The final state of `analyze` on `loopFn`. -/
def loopFinal : SCCPState :=
  { CFGWorkset := []
    SSAWorkset := []
    ExecutableEdges :=
      [⟨none, some 0⟩, ⟨some 0, some 1⟩, ⟨some 1, some 2⟩, ⟨some 1, some 3⟩, ⟨some 2, some 1⟩]
    DataflowFacts :=
      [(.inst 10, .bot), (.inst 20, .top), (.inst 21, .top), (.inst 22, .bot),
       (.inst 30, .top), (.inst 31, .bot), (.inst 40, .bot)] }

/-- The states of `analyze` on scenario A after its first iteration, by what is left in
`SSAWorkset`. -/
def scenarioAState (ssa : List InstId) : SCCPState :=
  { CFGWorkset := []
    SSAWorkset := ssa
    ExecutableEdges := [⟨none, some 0⟩]
    DataflowFacts := scenarioAFacts }

/-- The state after `visit` of `x` of scenario A in the initial state of `analyze`. -/
def scenarioAVisited : SCCPState :=
  { CFGWorkset := [⟨none, some 0⟩]
    SSAWorkset := [11]
    ExecutableEdges := []
    DataflowFacts := [(.inst 10, .const 5)] }

/-- Scenario B after constant substitution: the comparison `c` is gone and the branch tests
the literal true. -/
def scenarioBSubstituted : Function :=
  { entry := ⟨0, [⟨9, 32, .BinaryOperator .Add (.argument 0) (.constInt 32 2)⟩,
                  ⟨11, 0, .CondBr (.constInt 1 1) 1 2⟩]⟩
    rest := [
      ⟨1, [⟨20, 32, .BinaryOperator .Add (.argument 0) (.constInt 32 1)⟩, ⟨21, 0, .Br 3⟩]⟩,
      ⟨2, [⟨31, 0, .Br 3⟩]⟩,
      ⟨3, [⟨40, 32, .PHINode [(.inst 20, some 1), (.inst 9, some 2)]⟩,
           ⟨41, 0, .Other [.inst 40] [] true⟩]⟩] }

/-- Scenario B after constant substitution and branch simplification. -/
def scenarioBSimplified : Function :=
  { entry := ⟨0, [⟨9, 32, .BinaryOperator .Add (.argument 0) (.constInt 32 2)⟩,
                  ⟨42, 0, .Br 1⟩]⟩
    rest := [
      ⟨1, [⟨20, 32, .BinaryOperator .Add (.argument 0) (.constInt 32 1)⟩, ⟨21, 0, .Br 3⟩]⟩,
      ⟨2, [⟨31, 0, .Br 3⟩]⟩,
      ⟨3, [⟨40, 32, .PHINode [(.inst 20, some 1), (.inst 9, some 2)]⟩,
           ⟨41, 0, .Other [.inst 40] [] true⟩]⟩] }


/-- Three additions in an 8-bit type: `x = add i8 100, 100; y = add i8 x, 100; ret y`. -/
def narrowFn : Function :=
  { entry := ⟨0, [⟨10, 8, .BinaryOperator .Add (.constInt 8 100) (.constInt 8 100)⟩,
                  ⟨11, 8, .BinaryOperator .Add (.inst 10) (.constInt 8 100)⟩,
                  ⟨12, 0, .Other [.inst 11] [] true⟩]⟩
    rest := [] }

/-- The facts `analyze` ends with on `narrowFn`. -/
def narrowFacts : List (Value × ConstantValue) :=
  [(.inst 10, .const 200), (.inst 11, .const 300), (.inst 12, .bot)]

/-- The function `narrowFn` after constant substitution with `narrowFacts`. -/
def narrowSubstituted : Function :=
  { entry := ⟨0, [⟨12, 0, .Other [.constInt 8 44] [] true⟩]⟩
    rest := [] }

/-- A division by the literal zero: `x = udiv i32 7, 0; ret x`. -/
def divZeroFn : Function :=
  { entry := ⟨0, [⟨10, 32, .BinaryOperator .UDiv (.constInt 32 7) (.constInt 32 0)⟩,
                  ⟨11, 0, .Other [.inst 10] [] true⟩]⟩
    rest := [] }
/-! # Theorems -/

/-! ## The lattice -/

theorem ConstantValue.eq_iff (a b : ConstantValue) : a.eq b = true ↔ a = b := by
  cases a <;> cases b <;> simp [ConstantValue.eq, ConstantValue.IsTop, ConstantValue.IsBot,
    ConstantValue.IntValue]

theorem ConstantValue.ne_iff (a b : ConstantValue) : a.ne b = true ↔ a ≠ b := by
  simp [ConstantValue.ne, ← ConstantValue.eq_iff]

theorem ConstantValue.le_refl (a : ConstantValue) : a.le a := Or.inr (Or.inr rfl)

theorem ConstantValue.le_trans {a b c : ConstantValue} (h1 : a.le b) (h2 : b.le c) :
    a.le c := by
  unfold ConstantValue.le at *
  rcases h1 with h | h | h
  · exact Or.inl h
  · subst h
    rcases h2 with h | h | h
    · cases h
    · exact Or.inr (Or.inl h)
    · exact Or.inr (Or.inl h.symm)
  · subst h
    exact h2

theorem ConstantValue.bot_le (a : ConstantValue) : ConstantValue.bot.le a := Or.inl rfl

theorem ConstantValue.le_top (a : ConstantValue) : a.le ConstantValue.top := Or.inr (Or.inl rfl)

theorem ConstantValue.meet_le_left (a b : ConstantValue) : (a.meet b).le a := by
  cases a <;> cases b <;>
    simp [ConstantValue.meet, ConstantValue.le, ConstantValue.eq, ConstantValue.IsTop,
      ConstantValue.IsBot, ConstantValue.IntValue]
  exact (em _).symm

theorem ConstantValue.meet_mono {a b c d : ConstantValue} (h1 : a.le b) (h2 : c.le d) :
    (a.meet c).le (b.meet d) := by
  cases a <;> cases b <;> cases c <;> cases d <;>
    simp [ConstantValue.meet, ConstantValue.le, ConstantValue.eq, ConstantValue.IsTop,
      ConstantValue.IsBot, ConstantValue.IntValue] at h1 h2 ⊢ <;>
    (try subst h1) <;> (try subst h2) <;> (try split) <;> simp_all

/-- C10: idempotence, Top as identity and Bottom as absorbing element of `meet`, on both
sides, and the meet of two distinct constants is Bottom. -/
theorem meet_idempotent_identity_absorbing (a : ConstantValue) :
    a.meet a = a ∧
    ConstantValue.top.meet a = a ∧ a.meet ConstantValue.top = a ∧
    ConstantValue.bot.meet a = ConstantValue.bot ∧ a.meet ConstantValue.bot = ConstantValue.bot ∧
    ∀ x y : Int, x ≠ y →
      (ConstantValue.const x).meet (ConstantValue.const y) = ConstantValue.bot := by
  refine ⟨?_, ?_, ?_, ?_, ?_, ?_⟩
  · cases a <;> simp [ConstantValue.meet, ConstantValue.eq, ConstantValue.IsTop,
      ConstantValue.IsBot, ConstantValue.IntValue]
  · simp [ConstantValue.meet, ConstantValue.IsTop]
  · cases a <;> simp [ConstantValue.meet, ConstantValue.eq, ConstantValue.IsTop,
      ConstantValue.IsBot, ConstantValue.IntValue]
  · cases a <;> simp [ConstantValue.meet, ConstantValue.eq, ConstantValue.IsTop,
      ConstantValue.IsBot, ConstantValue.IntValue]
  · cases a <;> simp [ConstantValue.meet, ConstantValue.eq, ConstantValue.IsTop,
      ConstantValue.IsBot, ConstantValue.IntValue]
  · intro x y hxy
    simp [ConstantValue.meet, ConstantValue.eq, ConstantValue.IsTop,
      ConstantValue.IsBot, ConstantValue.IntValue, hxy]

/-! ## Sets and maps -/

theorem mem_setInsert {α : Type} [DecidableEq α] (lt : α → α → Bool) (x a : α) (l : List α) :
    a ∈ setInsert lt x l ↔ a = x ∨ a ∈ l := by
  induction l with
  | nil => simp [setInsert]
  | cons y ys ih =>
    unfold setInsert
    split
    · rename_i h
      subst h
      simp
    · split
      · simp
      · simp only [List.mem_cons, ih]
        tauto

theorem mem_setInsertAll {α : Type} [DecidableEq α] (lt : α → α → Bool) (xs : List α) (a : α)
    (l : List α) : a ∈ setInsertAll lt xs l ↔ a ∈ xs ∨ a ∈ l := by
  unfold setInsertAll
  induction xs generalizing l with
  | nil => simp
  | cons x xs ih =>
    simp only [List.foldl_cons, ih, mem_setInsert, List.mem_cons]
    tauto

theorem mapFind_mapSet {α β : Type} [DecidableEq α] (k k1 : α) (v : β) (l : List (α × β)) :
    mapFind k1 (mapSet k v l) = if k1 = k then some v else mapFind k1 l := by
  induction l with
  | nil => simp [mapSet, mapFind]
  | cons p ps ih =>
    obtain ⟨k2, v2⟩ := p
    unfold mapSet
    by_cases h : k = k2
    · subst h
      by_cases h1 : k1 = k <;> simp [mapFind, h1]
    · simp only [h, if_false]
      by_cases h1 : k1 = k2
      · subst h1
        simp [mapFind, Ne.symm h]
      · simp [mapFind, h1, ih]

theorem mapFind_append {α β : Type} [DecidableEq α] (k k1 : α) (v : β) (l : List (α × β)) :
    mapFind k1 (l ++ [(k, v)]) =
      match mapFind k1 l with
      | some x => some x
      | none => if k1 = k then some v else none := by
  induction l with
  | nil => simp [mapFind]
  | cons p ps ih =>
    obtain ⟨k2, v2⟩ := p
    by_cases h1 : k1 = k2
    · simp [mapFind, h1]
    · simp [mapFind, h1, ih]

/-! ## Frame properties of the visitor and of `visit` -/

theorem appendExecutableSuccessors_frame (P : BlockId) (succs : List BlockId) (s : SCCPState) :
    (appendExecutableSuccessors P succs s).ExecutableEdges = s.ExecutableEdges ∧
    (appendExecutableSuccessors P succs s).DataflowFacts = s.DataflowFacts ∧
    (appendExecutableSuccessors P succs s).SSAWorkset = s.SSAWorkset ∧
    ∀ e ∈ (appendExecutableSuccessors P succs s).CFGWorkset,
      e ∈ s.CFGWorkset ∨ e.From = some P := by
  unfold appendExecutableSuccessors
  induction succs generalizing s with
  | nil =>
    simp only [List.foldl_nil, true_and]
    exact fun e he => Or.inl he
  | cons b bs ih =>
    simp only [List.foldl_cons]
    split
    · exact ih s
    · obtain ⟨h1, h2, h3, h4⟩ :=
        ih { s with CFGWorkset := setInsert CFGEdge.lt ⟨some P, some b⟩ s.CFGWorkset }
      refine ⟨h1, h2, h3, ?_⟩
      intro e he
      rcases h4 e he with h | h
      · rcases (mem_setInsert _ _ _ _).1 h with h | h
        · right
          rw [h]
        · exact Or.inl h
      · exact Or.inr h

theorem visitBranchInst_frame (s : SCCPState) (P : BlockId) (I : InstKind) :
    (visitBranchInst s P I).1 = ConstantValue.bot ∧
    (visitBranchInst s P I).2.ExecutableEdges = s.ExecutableEdges ∧
    (visitBranchInst s P I).2.DataflowFacts = s.DataflowFacts ∧
    (visitBranchInst s P I).2.SSAWorkset = s.SSAWorkset ∧
    ∀ e ∈ (visitBranchInst s P I).2.CFGWorkset, e ∈ s.CFGWorkset ∨ e.From = some P := by
  have happ : ∀ succs,
      (ConstantValue.bot, appendExecutableSuccessors P succs s).1 = ConstantValue.bot ∧
      (ConstantValue.bot, appendExecutableSuccessors P succs s).2.ExecutableEdges =
        s.ExecutableEdges ∧
      (ConstantValue.bot, appendExecutableSuccessors P succs s).2.DataflowFacts =
        s.DataflowFacts ∧
      (ConstantValue.bot, appendExecutableSuccessors P succs s).2.SSAWorkset = s.SSAWorkset ∧
      ∀ e ∈ (ConstantValue.bot, appendExecutableSuccessors P succs s).2.CFGWorkset,
        e ∈ s.CFGWorkset ∨ e.From = some P :=
    fun succs => ⟨rfl, appendExecutableSuccessors_frame P succs s⟩
  have hins : ∀ b,
      ∀ e ∈ setInsert CFGEdge.lt (⟨some P, some b⟩ : CFGEdge) s.CFGWorkset,
        e ∈ s.CFGWorkset ∨ e.From = some P := by
    intro b e he
    rcases (mem_setInsert _ _ _ _).1 he with h | h
    · right
      rw [h]
    · exact Or.inl h
  unfold visitBranchInst
  split
  · simp only
    split
    · split
      · exact ⟨rfl, rfl, rfl, rfl, hins _⟩
      · exact ⟨rfl, rfl, rfl, rfl, hins _⟩
    · exact happ _
  · exact happ _

theorem visitorVisit_frame (F : Function) (P : BlockId) (I : Instruction) (s s1 : SCCPState)
    (n : ConstantValue) (h : visitorVisit F P I s = some (n, s1)) :
    s1.ExecutableEdges = s.ExecutableEdges ∧ s1.DataflowFacts = s.DataflowFacts ∧
    s1.SSAWorkset = s.SSAWorkset ∧
    ∀ e ∈ s1.CFGWorkset, e ∈ s.CFGWorkset ∨ (e.From = some P ∧ I.kind.isPHI = false) := by
  have hbranch : I.kind.isPHI = false → visitBranchInst s P I.kind = (n, s1) →
      s1.ExecutableEdges = s.ExecutableEdges ∧ s1.DataflowFacts = s.DataflowFacts ∧
      s1.SSAWorkset = s.SSAWorkset ∧
      ∀ e ∈ s1.CFGWorkset, e ∈ s.CFGWorkset ∨ (e.From = some P ∧ I.kind.isPHI = false) := by
    intro hk hb
    obtain ⟨-, h1, h2, h3, h4⟩ := visitBranchInst_frame s P I.kind
    rw [hb] at h1 h2 h3 h4
    refine ⟨h1, h2, h3, ?_⟩
    intro e he
    rcases h4 e he with h | h
    · exact Or.inl h
    · exact Or.inr ⟨h, hk⟩
  unfold visitorVisit at h
  split at h
  · simp only [Option.some.injEq, Prod.mk.injEq] at h
    obtain ⟨-, rfl⟩ := h
    exact ⟨rfl, rfl, rfl, fun e he => Or.inl he⟩
  · rename_i dest hk
    exact hbranch (by simp [hk, InstKind.isPHI]) (Option.some.inj h)
  · rename_i cond t f hk
    exact hbranch (by simp [hk, InstKind.isPHI]) (Option.some.inj h)
  · simp only [Option.some.injEq, Prod.mk.injEq] at h
    obtain ⟨-, rfl⟩ := h
    exact ⟨rfl, rfl, rfl, fun e he => Or.inl he⟩
  · simp only [Option.map_eq_some', Prod.mk.injEq] at h
    obtain ⟨c, -, -, rfl⟩ := h
    exact ⟨rfl, rfl, rfl, fun e he => Or.inl he⟩
  · simp only [Option.some.injEq, Prod.mk.injEq] at h
    obtain ⟨-, rfl⟩ := h
    exact ⟨rfl, rfl, rfl, fun e he => Or.inl he⟩

/-- What `visit` does to the state: the fact of the visited instruction becomes the value the
visitor computed, every other fact is kept, the executable edges are kept, and the only new
edges of `CFGWorkset` leave the block of a visited branch. -/
theorem visit_spec (F : Function) (P : BlockId) (I : Instruction) (s s2 : SCCPState)
    (h : visit F P I s = some s2) :
    ∃ n s1, visitorVisit F P I s = some (n, s1) ∧
      s2.ExecutableEdges = s.ExecutableEdges ∧
      s2.CFGWorkset = s1.CFGWorkset ∧
      (∀ k, mapFind k s2.DataflowFacts =
        if k = Value.inst I.id then some n else mapFind k s.DataflowFacts) ∧
      (∀ v ∈ s2.SSAWorkset, v ∈ s.SSAWorkset ∨ v ∈ F.users (Value.inst I.id)) := by
  unfold visit at h
  split at h
  · cases h
  · rename_i n s1 hv
    obtain ⟨h1, h2, h3, -⟩ := visitorVisit_frame F P I s s1 n hv
    refine ⟨n, s1, hv, ?_⟩
    split at h
    · rename_i old hold
      split at h
      · rename_i hne
        simp only [Option.some.injEq] at h
        subst h
        refine ⟨h1, rfl, ?_, ?_⟩
        · intro k
          simp only [insertUsers, mapFind_mapSet, h2]
        · intro v hv
          simp only [insertUsers, mem_setInsertAll, h3] at hv
          tauto
      · rename_i hne
        simp only [Option.some.injEq] at h
        subst h
        have : n = old := by
          by_contra hc
          exact hne ((ConstantValue.ne_iff _ _).2 hc)
        subst this
        refine ⟨h1, rfl, ?_, ?_⟩
        · intro k
          by_cases hk : k = Value.inst I.id
          · subst hk
            simp [hold]
          · simp [hk, h2]
        · intro v hv
          rw [h3] at hv
          exact Or.inl hv
    · rename_i hnone
      simp only [Option.some.injEq] at h
      subst h
      refine ⟨h1, rfl, ?_, ?_⟩
      · intro k
        simp only [insertUsers, mapFind_append]
        by_cases hk : k = Value.inst I.id
        · subst hk
          simp [hnone]
        · simp only [hk, if_false, h2]
          cases mapFind k s.DataflowFacts <;> rfl
      · intro v hv
        simp only [insertUsers, mem_setInsertAll, h3] at hv
        tauto

/-! ## Every iteration of the loop is a sequence of elementary changes -/

theorem getBlock_some (F : Function) (b : BlockId) (BB : BasicBlock)
    (h : F.getBlock b = some BB) : BB ∈ F.blocks ∧ BB.id = b := by
  unfold Function.getBlock at h
  refine ⟨List.mem_of_find?_eq_some h, ?_⟩
  have := List.find?_some h
  simpa using this

theorem findInstIn_some (V : InstId) (bs : List BasicBlock) (P : BlockId) (I : Instruction)
    (h : findInstIn V bs = some (P, I)) :
    ∃ BB ∈ bs, BB.id = P ∧ I ∈ BB.insts ∧ I.id = V := by
  induction bs with
  | nil => simp [findInstIn] at h
  | cons B more ih =>
    unfold findInstIn at h
    split at h
    · rename_i J hJ
      simp only [Option.some.injEq, Prod.mk.injEq] at h
      obtain ⟨rfl, rfl⟩ := h
      refine ⟨B, List.mem_cons_self _ _, rfl, List.mem_of_find?_eq_some hJ, ?_⟩
      have := List.find?_some hJ
      simpa using this
    · obtain ⟨BB, h1, h2⟩ := ih h
      exact ⟨BB, List.mem_cons_of_mem _ h1, h2⟩

theorem findInst_some (F : Function) (V : InstId) (P : BlockId) (I : Instruction)
    (h : F.findInst V = some (P, I)) :
    ∃ BB ∈ F.blocks, BB.id = P ∧ I ∈ BB.insts ∧ I.id = V :=
  findInstIn_some V F.blocks P I h

theorem isExecutableBlock_iff (s : SCCPState) (b : Option BlockId) :
    isExecutableBlock s b = true ↔ ∃ e ∈ s.ExecutableEdges, e.To = b := by
  simp [isExecutableBlock]

theorem isExecutableBlock_congr (s s1 : SCCPState) (b : Option BlockId)
    (h : s1.ExecutableEdges = s.ExecutableEdges) :
    isExecutableBlock s1 b = isExecutableBlock s b := by
  simp [isExecutableBlock, h]

theorem visitAll_micro (F : Function) (BB : BasicBlock) (l : List Instruction)
    (s s1 : SCCPState) (hBB : BB ∈ F.blocks) (hl : ∀ I ∈ l, I ∈ BB.insts)
    (hex : isExecutableBlock s (some BB.id) = true) (h : visitAll F BB.id l s = some s1) :
    Relation.ReflTransGen (Micro F) s s1 ∧ s1.ExecutableEdges = s.ExecutableEdges := by
  induction l generalizing s with
  | nil =>
    simp only [visitAll, Option.some.injEq] at h
    subst h
    exact ⟨Relation.ReflTransGen.refl, rfl⟩
  | cons I more ih =>
    unfold visitAll at h
    split at h
    · cases h
    · rename_i s0 hv
      obtain ⟨n, t, -, hexec, -⟩ := visit_spec F BB.id I s s0 hv
      have hstep : Micro F s s0 :=
        Micro.visit s s0 BB I hBB (hl I (List.mem_cons_self _ _)) (Or.inr hex) hv
      have hex0 : isExecutableBlock s0 (some BB.id) = true := by
        rw [isExecutableBlock_congr s s0 _ hexec]
        exact hex
      obtain ⟨h1, h2⟩ := ih s0 (fun J hJ => hl J (List.mem_cons_of_mem _ hJ)) hex0 h
      exact ⟨Relation.ReflTransGen.head hstep h1, h2.trans hexec⟩

theorem processEdge_micro (F : Function) (Edge : CFGEdge) (s s1 : SCCPState)
    (hmem : Edge ∈ s.CFGWorkset) (h : processEdge F Edge s = some s1) :
    Relation.ReflTransGen (Micro F) s s1 := by
  unfold processEdge at h
  simp only at h
  split at h
  · cases h
  · rename_i b hb
    split at h
    · cases h
    · rename_i ToBlock hblock
      obtain ⟨hBB, hid⟩ := getBlock_some F b ToBlock hblock
      subst hid
      have h0 := Micro.takeEdge (F := F) s Edge hmem
      have hex0 : isExecutableBlock
          { s with CFGWorkset := s.CFGWorkset.erase Edge
                   ExecutableEdges := setInsert CFGEdge.lt Edge s.ExecutableEdges }
          (some ToBlock.id) = true := by
        rw [isExecutableBlock_iff]
        exact ⟨Edge, (mem_setInsert _ _ _ _).2 (Or.inl rfl), hb⟩
      split at h
      · cases h
      · rename_i sa hphis
        obtain ⟨h1, hexec1⟩ := visitAll_micro F ToBlock _ _ sa hBB
          (fun I hI => List.takeWhile_subset _ hI) hex0 hphis
        have hex1 : isExecutableBlock sa (some ToBlock.id) = true := by
          rw [isExecutableBlock_congr _ sa _ hexec1]
          exact hex0
        have hchain1 : Relation.ReflTransGen (Micro F) s sa :=
          Relation.ReflTransGen.head h0 h1
        split at h
        · cases h
        · rename_i sb hsb
          have h2 : Relation.ReflTransGen (Micro F) sa sb ∧
              sb.ExecutableEdges = sa.ExecutableEdges := by
            split at hsb
            · exact visitAll_micro F ToBlock _ sa sb hBB
                (fun I hI => List.mem_of_mem_filter hI) hex1 hsb
            · simp only [Option.some.injEq] at hsb
              subst hsb
              exact ⟨Relation.ReflTransGen.refl, rfl⟩
          have hex2 : isExecutableBlock sb (some ToBlock.id) = true := by
            rw [isExecutableBlock_congr _ sb _ h2.2]
            exact hex1
          have hchain2 : Relation.ReflTransGen (Micro F) s sb := hchain1.trans h2.1
          split at h
          · cases h
          · rename_i TI hTI
            split at h
            · rename_i Successor0 hsucc
              simp only [Option.some.injEq] at h
              subst h
              exact hchain2.tail (Micro.addSuccessor sb ToBlock Successor0 hBB hex2)
            · simp only [Option.some.injEq] at h
              subst h
              exact hchain2

theorem processInst_micro (F : Function) (V : InstId) (s s1 : SCCPState)
    (h : processInst F V s = some s1) : Relation.ReflTransGen (Micro F) s s1 := by
  unfold processInst at h
  simp only at h
  have h0 := Micro.takeInst (F := F) s V
  split at h
  · cases h
  · rename_i P I hfind
    obtain ⟨BB, hBB, hid, hI, -⟩ := findInst_some F V P I hfind
    subst hid
    split at h
    · rename_i hphi
      exact (Relation.ReflTransGen.single h0).tail
        (Micro.visit _ s1 BB I hBB hI (Or.inl hphi) h)
    · split at h
      · rename_i hex
        exact (Relation.ReflTransGen.single h0).tail
          (Micro.visit _ s1 BB I hBB hI (Or.inr hex) h)
      · simp only [Option.some.injEq] at h
        subst h
        exact Relation.ReflTransGen.single h0

theorem micro_of_step {F : Function} {s s1 : SCCPState} (h : Step F s s1) :
    Relation.ReflTransGen (Micro F) s s1 := by
  cases h with
  | cfg Edge hmem hp => exact processEdge_micro F Edge s s1 hmem hp
  | ssa V _ _ hp => exact processInst_micro F V s s1 hp

theorem microReachable_of_chain {F : Function} {s s1 : SCCPState} (hs : MicroReachable F s)
    (h : Relation.ReflTransGen (Micro F) s s1) : MicroReachable F s1 := by
  induction h with
  | refl => exact hs
  | tail _ hstep ih => exact MicroReachable.step _ _ ih hstep

theorem microReachable_of_reachable {F : Function} {s : SCCPState} (h : Reachable F s) :
    MicroReachable F s := by
  induction h with
  | init => exact MicroReachable.init
  | step s s1 _ hstep ih => exact microReachable_of_chain ih (micro_of_step hstep)

/-! ## Executable-edge soundness -/

theorem execPath_mono {F : Function} {exec exec1 : List CFGEdge} {a : BlockId}
    (h : ExecPath F exec a) (hsub : ∀ e ∈ exec, e ∈ exec1) : ExecPath F exec1 a := by
  induction h with
  | entry => exact ExecPath.entry
  | edge a b _ hmem ih => exact ExecPath.edge a b ih (hsub _ hmem)

theorem edgeOK_mono {F : Function} {exec exec1 : List CFGEdge} {e : CFGEdge}
    (h : EdgeOK F exec e) (hsub : ∀ e ∈ exec, e ∈ exec1) : EdgeOK F exec1 e := by
  rcases h with h | ⟨a, h1, h2, e1, h3, h4⟩
  · exact Or.inl h
  · exact Or.inr ⟨a, h1, execPath_mono h2 hsub, e1, hsub _ h3, h4⟩

/-- The target of an edge that satisfies `EdgeOK` and is executable is reached from the entry
block along executable edges. -/
theorem execPath_of_target {F : Function} {exec : List CFGEdge} {e : CFGEdge} {b : BlockId}
    (hok : EdgeOK F exec e) (hmem : e ∈ exec) (hto : e.To = some b) : ExecPath F exec b := by
  rcases hok with h | ⟨a, h1, h2, -⟩
  · subst h
    simp only [seedEdge, Option.some.injEq] at hto
    subst hto
    exact ExecPath.entry
  · refine ExecPath.edge a b h2 ?_
    have : e = ⟨some a, some b⟩ := by
      cases e
      simp_all
    rw [← this]
    exact hmem

/-- The invariant behind executable-edge soundness: every edge of `ExecutableEdges` and of
`CFGWorkset` satisfies `EdgeOK`. -/
theorem edgeOK_invariant (F : Function) (s : SCCPState) (hs : MicroReachable F s) :
    ∀ e, (e ∈ s.ExecutableEdges ∨ e ∈ s.CFGWorkset) → EdgeOK F s.ExecutableEdges e := by
  induction hs with
  | init =>
    intro e he
    simp only [analyzeInit, List.not_mem_nil, List.mem_singleton, false_or] at he
    exact Or.inl he
  | step s s1 _ hstep ih =>
    have block_ok : ∀ b, isExecutableBlock s (some b) = true →
        ExecPath F s.ExecutableEdges b ∧ ∃ e1 ∈ s.ExecutableEdges, e1.To = some b := by
      intro b hb
      obtain ⟨e1, h1, h2⟩ := (isExecutableBlock_iff s _).1 hb
      exact ⟨execPath_of_target (ih e1 (Or.inl h1)) h1 h2, e1, h1, h2⟩
    cases hstep with
    | takeEdge Edge hmem =>
      intro e he
      have hsub : ∀ x ∈ s.ExecutableEdges, x ∈ setInsert CFGEdge.lt Edge s.ExecutableEdges :=
        fun x hx => (mem_setInsert _ _ _ _).2 (Or.inr hx)
      refine edgeOK_mono (ih e ?_) hsub
      rcases he with he | he
      · rcases (mem_setInsert _ _ _ _).1 he with h | h
        · subst h
          exact Or.inr hmem
        · exact Or.inl h
      · exact Or.inr (List.mem_of_mem_erase he)
    | visit _ BB I hBB hI hside hv =>
      obtain ⟨n, t, hvis, hexec, hcfg, -, -⟩ := visit_spec F BB.id I s s1 hv
      obtain ⟨-, -, -, hnew⟩ := visitorVisit_frame F BB.id I s t n hvis
      intro e he
      rw [hexec]
      rcases he with he | he
      · rw [hexec] at he
        exact ih e (Or.inl he)
      · rw [hcfg] at he
        rcases hnew e he with h | ⟨hfrom, hnophi⟩
        · exact ih e (Or.inr h)
        · have hex : isExecutableBlock s (some BB.id) = true := by
            rcases hside with h | h
            · rw [hnophi] at h
              cases h
            · exact h
          obtain ⟨hp, hq⟩ := block_ok BB.id hex
          exact Or.inr ⟨BB.id, hfrom, hp, hq⟩
    | addSuccessor BB Successor0 hBB hex =>
      obtain ⟨hp, hq⟩ := block_ok BB.id hex
      intro e he
      have hsub : ∀ x ∈ s.ExecutableEdges,
          x ∈ (if (⟨some BB.id, some Successor0⟩ : CFGEdge) ∈ s.ExecutableEdges
            then s.ExecutableEdges
            else setInsert CFGEdge.lt ⟨some BB.id, some Successor0⟩ s.ExecutableEdges) := by
        intro x hx
        split
        · exact hx
        · exact (mem_setInsert _ _ _ _).2 (Or.inr hx)
      have hnew : EdgeOK F s.ExecutableEdges ⟨some BB.id, some Successor0⟩ :=
        Or.inr ⟨BB.id, rfl, hp, hq⟩
      simp only at he ⊢
      refine edgeOK_mono ?_ hsub
      rcases he with he | he
      · split at he
        · exact ih e (Or.inl he)
        · rcases (mem_setInsert _ _ _ _).1 he with h | h
          · rw [h]
            exact hnew
          · exact ih e (Or.inl h)
      · rcases (mem_setInsert _ _ _ _).1 he with h | h
        · rw [h]
          exact hnew
        · exact ih e (Or.inr h)
    | takeInst V =>
      intro e he
      exact ih e he

/-- C4: at every point of `analyze` (every state reached by its elementary changes, the states
at the head of the loop among them), an edge of `ExecutableEdges` is the seed edge, or its
source block is reached from the entry block along a path of executable edges and is the
target of an executable edge. -/
theorem executable_edges_sound (F : Function) (s : SCCPState) (hs : MicroReachable F s)
    (e : CFGEdge) (he : e ∈ s.ExecutableEdges) :
    e = seedEdge F ∨
      ∃ a, e.From = some a ∧ ExecPath F s.ExecutableEdges a ∧
        ∃ e1 ∈ s.ExecutableEdges, e1.To = some a :=
  edgeOK_invariant F s hs e (Or.inl he)

/-! ## Monotonicity of the transfer functions -/

theorem strictLift_mono (g : Int → Int → Option ConstantValue) {a1 a b1 b n1 : ConstantValue}
    (ha : a1.le a) (hb : b1.le b) (h : strictLift g a1 b1 = some n1) :
    n1 = ConstantValue.bot ∨ ∃ n, strictLift g a b = some n ∧ n1.le n := by
  cases a1 <;> cases a <;> cases b1 <;> cases b <;>
    simp [ConstantValue.le, strictLift, ConstantValue.IsTop, ConstantValue.IsBot,
      ConstantValue.value, ConstantValue.IntValue] at ha hb h ⊢ <;>
    (try subst ha) <;> (try subst hb) <;> (try subst h) <;> simp_all

theorem visitICmpInst_strict (pred : Predicate) (a b : Value) :
    ∃ g, ∀ s, some (visitICmpInst s pred a b) =
      strictLift g (getConstantValue s a) (getConstantValue s b) := by
  refine ⟨fun Int1 Int2 => some
    (match pred with
    | .ICMP_SLT | .ICMP_ULT => .const (if Int1 < Int2 then 1 else 0)
    | .ICMP_SLE | .ICMP_ULE => .const (if Int1 ≤ Int2 then 1 else 0)
    | .ICMP_SGT | .ICMP_UGT => .const (if Int1 > Int2 then 1 else 0)
    | .ICMP_SGE | .ICMP_UGE => .const (if Int1 ≥ Int2 then 1 else 0)
    | .ICMP_EQ => .const (if Int1 = Int2 then 1 else 0)
    | .ICMP_NE => .const (if Int1 ≠ Int2 then 1 else 0)
    | .OTHER => .bot), fun s => ?_⟩
  unfold visitICmpInst strictLift
  simp only
  split
  · rfl
  · split
    · rfl
    · rfl

theorem visitBinaryOperator_strict (opcode : BinaryOps) (a b : Value) :
    ∃ g, ∀ s, visitBinaryOperator s opcode a b =
      strictLift g (getConstantValue s a) (getConstantValue s b) := by
  refine ⟨fun Int1 Int2 =>
    (match opcode with
    | .Add => some (.const (toInt64 (Int1 + Int2)))
    | .Sub => some (.const (toInt64 (Int1 - Int2)))
    | .Mul => some (.const (toInt64 (Int1 * Int2)))
    | .UDiv | .SDiv => (divInt64 Int1 Int2).map ConstantValue.const
    | .And => some (.const (Int.land Int1 Int2))
    | .Or => some (.const (Int.lor Int1 Int2))
    | .Xor => some (.const (Int.xor Int1 Int2))
    | _ => some .bot), fun s => ?_⟩
  unfold visitBinaryOperator strictLift
  rfl

theorem isExecutableEdge_iff (s : SCCPState) (e : CFGEdge) :
    isExecutableEdge s e = true ↔ e ∈ s.ExecutableEdges := by
  simp [isExecutableEdge]

theorem visitPHINode_mono_aux (F : Function) (P : BlockId) {s1 s : SCCPState}
    (hle : StateLe s1 s) (incoming : List (Value × Option BlockId)) :
    ∀ acc1 acc : ConstantValue, acc1.le acc →
      (incoming.foldl
        (fun NewValue entry =>
          match entry.1 with
          | .inst id =>
            if isExecutableEdge s1 ⟨F.getParent id, some P⟩
            then NewValue.meet (getConstantValue s1 entry.1)
            else NewValue
          | _ => NewValue) acc1).le
      (incoming.foldl
        (fun NewValue entry =>
          match entry.1 with
          | .inst id =>
            if isExecutableEdge s ⟨F.getParent id, some P⟩
            then NewValue.meet (getConstantValue s entry.1)
            else NewValue
          | _ => NewValue) acc) := by
  induction incoming with
  | nil => exact fun _ _ h => h
  | cons entry more ih =>
    intro acc1 acc hacc
    simp only [List.foldl_cons]
    apply ih
    obtain ⟨v, blk⟩ := entry
    cases v with
    | constInt w bits => exact hacc
    | argument i => exact hacc
    | inst id =>
      simp only
      by_cases hex : isExecutableEdge s ⟨F.getParent id, some P⟩ = true
      · have hex1 : isExecutableEdge s1 ⟨F.getParent id, some P⟩ = true :=
          (isExecutableEdge_iff _ _).2 (hle.2 _ ((isExecutableEdge_iff _ _).1 hex))
        simp only [hex, hex1, if_true]
        exact ConstantValue.meet_mono hacc (hle.1 _)
      · simp only [hex, if_false]
        split
        · exact ConstantValue.le_trans (ConstantValue.meet_le_left _ _) hacc
        · exact hacc

theorem visitPHINode_mono (F : Function) (P : BlockId) {s1 s : SCCPState}
    (hle : StateLe s1 s) (incoming : List (Value × Option BlockId)) :
    (visitPHINode F s1 P incoming).le (visitPHINode F s P incoming) :=
  visitPHINode_mono_aux F P hle incoming _ _ (ConstantValue.le_refl _)

/-- The visitor is monotone in the state: in a lower state it computes Bottom or a value below
the one it computes in the higher state. -/
theorem visitorVisit_mono (F : Function) (P : BlockId) (I : Instruction) {s1 s t1 : SCCPState}
    {n1 : ConstantValue} (hle : StateLe s1 s) (h : visitorVisit F P I s1 = some (n1, t1)) :
    n1 = ConstantValue.bot ∨ ∃ n t, visitorVisit F P I s = some (n, t) ∧ n1.le n := by
  unfold visitorVisit at h ⊢
  split at h
  · simp only [Option.some.injEq, Prod.mk.injEq] at h
    obtain ⟨rfl, -⟩ := h
    exact Or.inr ⟨_, _, rfl, visitPHINode_mono F P hle _⟩
  · left
    have := (visitBranchInst_frame s1 P I.kind).1
    rw [Option.some.inj h] at this
    exact this
  · left
    have := (visitBranchInst_frame s1 P I.kind).1
    rw [Option.some.inj h] at this
    exact this
  · rename_i pred a b hk
    simp only [Option.some.injEq, Prod.mk.injEq] at h
    obtain ⟨rfl, -⟩ := h
    obtain ⟨g, hg⟩ := visitICmpInst_strict pred a b
    rcases strictLift_mono g (hle.1 a) (hle.1 b) (hg s1).symm with h | ⟨n, hn, hle1⟩
    · exact Or.inl h
    · rw [← hg s] at hn
      simp only [Option.some.injEq] at hn
      exact Or.inr ⟨_, _, rfl, hn ▸ hle1⟩
  · rename_i opcode a b hk
    simp only [Option.map_eq_some', Prod.mk.injEq] at h
    obtain ⟨c, hc, rfl, -⟩ := h
    obtain ⟨g, hg⟩ := visitBinaryOperator_strict opcode a b
    rw [hg s1] at hc
    rcases strictLift_mono g (hle.1 a) (hle.1 b) hc with h | ⟨n, hn, hle1⟩
    · exact Or.inl h
    · rw [← hg s] at hn
      exact Or.inr ⟨n, s, by simp [hn], hle1⟩
  · simp only [visitInstruction, Option.some.injEq, Prod.mk.injEq] at h
    exact Or.inl h.1.symm

/-! ## Stored facts only go down -/

theorem unique_inst {F : Function} (hu : F.UniqueIds) {BB BB1 : BasicBlock}
    {I I1 : Instruction} (hBB : BB ∈ F.blocks) (hI : I ∈ BB.insts) (hBB1 : BB1 ∈ F.blocks)
    (hI1 : I1 ∈ BB1.insts) (hid : I.id = I1.id) : BB = BB1 ∧ I = I1 := by
  have hmap : (F.blocks.flatMap (fun B => B.insts.map (fun J => (B, J)))).map
      (fun p => p.2.id) = F.instructions.map (fun J => J.id) := by
    unfold Function.instructions
    generalize F.blocks = bs
    induction bs with
    | nil => rfl
    | cons B more ih =>
      simp only [List.flatMap_cons, List.map_append, List.map_map, ih]
      rfl
  have hnd : ((F.blocks.flatMap (fun B => B.insts.map (fun J => (B, J)))).map
      (fun p => p.2.id)).Nodup := by
    rw [hmap]
    exact hu
  have hmem : ∀ B J, B ∈ F.blocks → J ∈ B.insts →
      (B, J) ∈ F.blocks.flatMap (fun B => B.insts.map (fun J => (B, J))) := by
    intro B J hB hJ
    exact List.mem_flatMap.2 ⟨B, hB, List.mem_map.2 ⟨J, hJ, rfl⟩⟩
  have := List.inj_on_of_nodup_map hnd (hmem BB I hBB hI) (hmem BB1 I1 hBB1 hI1) hid
  simpa using this

theorem factsLe_refl (s : SCCPState) : FactsLe s s :=
  fun _ f h => ⟨f, h, ConstantValue.le_refl f⟩

theorem factsLe_trans {s2 s1 s : SCCPState} (h2 : FactsLe s2 s1) (h1 : FactsLe s1 s) :
    FactsLe s2 s := by
  intro k f hf
  obtain ⟨f1, hf1, hle1⟩ := h1 k f hf
  obtain ⟨f2, hf2, hle2⟩ := h2 k f1 hf1
  exact ⟨f2, hf2, ConstantValue.le_trans hle2 hle1⟩

theorem factInv_of_stateLe {F : Function} {s1 s : SCCPState} (h : FactInv F s)
    (hle : StateLe s1 s) (hfacts : s1.DataflowFacts = s.DataflowFacts) : FactInv F s1 := by
  intro BB hBB I hI f hf n t hv
  rw [hfacts] at hf
  rcases visitorVisit_mono F BB.id I hle hv with h0 | ⟨n0, t0, hv0, hle0⟩
  · rw [h0]
    exact ConstantValue.bot_le f
  · exact ConstantValue.le_trans hle0 (h BB hBB I hI f hf n0 t0 hv0)

theorem stateLe_of_facts_eq {s1 s : SCCPState} (hfacts : s1.DataflowFacts = s.DataflowFacts)
    (hexec : ∀ e ∈ s.ExecutableEdges, e ∈ s1.ExecutableEdges) : StateLe s1 s := by
  refine ⟨fun v => ?_, hexec⟩
  unfold getConstantValue
  rw [hfacts]
  exact ConstantValue.le_refl _

theorem visit_factInv {F : Function} (hu : F.UniqueIds) {s s2 : SCCPState} {BB : BasicBlock}
    {I : Instruction} (hinv : FactInv F s) (hBB : BB ∈ F.blocks) (hI : I ∈ BB.insts)
    (hv : visit F BB.id I s = some s2) : FactInv F s2 ∧ FactsLe s2 s := by
  obtain ⟨n, t, hvis, hexec, -, hfacts, -⟩ := visit_spec F BB.id I s s2 hv
  have hnew : ∀ f, mapFind (Value.inst I.id) s.DataflowFacts = some f → n.le f :=
    fun f hf => hinv BB hBB I hI f hf n t hvis
  have hle : StateLe s2 s := by
    refine ⟨fun v => ?_, fun e he => by rw [hexec]; exact he⟩
    cases v with
    | constInt w bits => exact ConstantValue.le_refl _
    | argument i =>
      simp only [getConstantValue, hfacts]
      simp only [reduceCtorEq, if_false]
      exact ConstantValue.le_refl _
    | inst id =>
      simp only [getConstantValue, hfacts]
      by_cases hid : id = I.id
      · subst hid
        simp only [if_true]
        cases hold : mapFind (Value.inst I.id) s.DataflowFacts with
        | none => exact ConstantValue.le_top _
        | some f => exact hnew f hold
      · have : Value.inst id ≠ Value.inst I.id := fun h => hid (Value.inst.inj h)
        simp only [this, if_false]
        exact ConstantValue.le_refl _
  refine ⟨?_, ?_⟩
  · intro BB1 hBB1 I1 hI1 f hf n1 t1 hv1
    rcases visitorVisit_mono F BB1.id I1 hle hv1 with h0 | ⟨n0, t0, hv0, hle0⟩
    · rw [h0]
      exact ConstantValue.bot_le f
    · rw [hfacts] at hf
      by_cases hid : I1.id = I.id
      · obtain ⟨rfl, rfl⟩ := unique_inst hu hBB1 hI1 hBB hI hid
        simp only [if_true, Option.some.injEq] at hf
        subst hf
        rw [hvis] at hv0
        simp only [Option.some.injEq, Prod.mk.injEq] at hv0
        rw [hv0.1]
        exact hle0
      · have : Value.inst I1.id ≠ Value.inst I.id := fun h => hid (Value.inst.inj h)
        simp only [this, if_false] at hf
        exact ConstantValue.le_trans hle0 (hinv BB1 hBB1 I1 hI1 f hf n0 t0 hv0)
  · intro k f hf
    rw [hfacts]
    by_cases hk : k = Value.inst I.id
    · subst hk
      exact ⟨n, by simp, hnew f hf⟩
    · exact ⟨f, by simp [hk, hf], ConstantValue.le_refl f⟩

theorem micro_factInv {F : Function} (hu : F.UniqueIds) {s s1 : SCCPState}
    (hinv : FactInv F s) (hstep : Micro F s s1) : FactInv F s1 ∧ FactsLe s1 s := by
  cases hstep with
  | takeEdge Edge hmem =>
    refine ⟨factInv_of_stateLe hinv (stateLe_of_facts_eq rfl ?_) rfl, fun k f hf => ?_⟩
    · exact fun e he => (mem_setInsert _ _ _ _).2 (Or.inr he)
    · exact ⟨f, hf, ConstantValue.le_refl f⟩
  | visit _ BB I hBB hI hside hv => exact visit_factInv hu hinv hBB hI hv
  | addSuccessor BB Successor0 hBB hex =>
    refine ⟨factInv_of_stateLe hinv (stateLe_of_facts_eq rfl ?_) rfl, fun k f hf => ?_⟩
    · intro e he
      simp only
      split
      · exact he
      · exact (mem_setInsert _ _ _ _).2 (Or.inr he)
    · exact ⟨f, hf, ConstantValue.le_refl f⟩
  | takeInst V =>
    exact ⟨factInv_of_stateLe hinv (stateLe_of_facts_eq rfl (fun e he => he)) rfl,
      fun k f hf => ⟨f, hf, ConstantValue.le_refl f⟩⟩

theorem factInv_init (F : Function) : FactInv F (analyzeInit F) := by
  intro BB _ I _ f hf
  simp [analyzeInit, mapFind] at hf

theorem factInv_of_microReachable {F : Function} (hu : F.UniqueIds) {s : SCCPState}
    (hs : MicroReachable F s) : FactInv F s := by
  induction hs with
  | init => exact factInv_init F
  | step s s1 _ hstep ih => exact (micro_factInv hu ih hstep).1

theorem micro_chain_factsLe {F : Function} (hu : F.UniqueIds) {s s1 : SCCPState}
    (hs : MicroReachable F s) (h : Relation.ReflTransGen (Micro F) s s1) : FactsLe s1 s := by
  induction h with
  | refl => exact factsLe_refl s
  | tail hchain hstep ih =>
    exact factsLe_trans (micro_factInv hu (factInv_of_microReachable hu (microReachable_of_chain hs hchain)) hstep).2 ih

theorem link_factsLe {F : Function} (hu : F.UniqueIds) {s s1 : SCCPState}
    (hs : MicroReachable F s) (h : Micro F s s1 ∨ Step F s s1) :
    MicroReachable F s1 ∧ FactsLe s1 s := by
  rcases h with h | h
  · exact ⟨MicroReachable.step _ _ hs h, (micro_factInv hu (factInv_of_microReachable hu hs) h).2⟩
  · exact ⟨microReachable_of_chain hs (micro_of_step h), micro_chain_factsLe hu hs (micro_of_step h)⟩

theorem chain_factsLe {F : Function} (hu : F.UniqueIds) (run : List SCCPState) :
    ∀ s, MicroReachable F s → List.Chain (fun a b => Micro F a b ∨ Step F a b) s run →
      ∀ t ∈ run, FactsLe t s := by
  induction run with
  | nil => exact fun _ _ _ t ht => absurd ht (List.not_mem_nil t)
  | cons s1 more ih =>
    intro s hs hchain t ht
    rw [List.chain_cons] at hchain
    obtain ⟨hr, hle⟩ := link_factsLe hu hs hchain.1
    rcases List.mem_cons.1 ht with h | h
    · rw [h]
      exact hle
    · exact factsLe_trans (ih s1 hr hchain.2 t h) hle

theorem ConstantValue.height_lt {a b : ConstantValue} (h : a.le b) (hne : a ≠ b) :
    a.height < b.height := by
  cases a <;> cases b <;> simp_all [ConstantValue.le, ConstantValue.height]

theorem storedHeight_le_two (v : Value) (s : SCCPState) : storedHeight v s ≤ 2 := by
  unfold storedHeight
  cases mapFind v s.DataflowFacts with
  | none => exact Nat.le_refl 2
  | some f => cases f <;> simp [ConstantValue.height]

theorem factChanges_step (v : Value) {s t : SCCPState} (h : FactsLe t s) :
    (if mapFind v s.DataflowFacts ≠ none ∧
        mapFind v s.DataflowFacts ≠ mapFind v t.DataflowFacts then 1 else 0) +
      storedHeight v t ≤ storedHeight v s := by
  cases hs : mapFind v s.DataflowFacts with
  | none =>
    have h2 : storedHeight v s = 2 := by simp [storedHeight, hs]
    have := storedHeight_le_two v t
    simp only [ne_eq, not_true_eq_false, false_and, if_false]
    omega
  | some f =>
    obtain ⟨f1, hf1, hle⟩ := h v f hs
    have h1 : storedHeight v s = f.height := by simp [storedHeight, hs]
    have h2 : storedHeight v t = f1.height := by simp [storedHeight, hf1]
    rw [h1, h2, hf1]
    by_cases heq : f1 = f
    · subst heq
      simp
    · have := ConstantValue.height_lt hle heq
      have hne : ¬ (some f = some f1) := fun h => heq (Option.some.inj h).symm
      simp only [ne_eq, reduceCtorEq, not_false_eq_true, hne, and_self, if_true]
      omega

theorem factChanges_le_height {F : Function} (hu : F.UniqueIds) (v : Value)
    (run : List SCCPState) :
    ∀ s, MicroReachable F s → List.Chain (fun a b => Micro F a b ∨ Step F a b) s run →
      factChanges v (s :: run) ≤ storedHeight v s := by
  induction run with
  | nil => exact fun s _ _ => Nat.zero_le _
  | cons s1 more ih =>
    intro s hs hchain
    rw [List.chain_cons] at hchain
    obtain ⟨hr, hle⟩ := link_factsLe hu hs hchain.1
    have h1 := ih s1 hr hchain.2
    have h2 := factChanges_step v hle
    unfold factChanges
    omega

/-- C3: along any run of `analyze` on a function whose instructions have distinct identities
(`run` lists later states, each reached from the one before by an elementary change or by a
whole iteration of the loop), a fact stored for `v` stays stored; once it is Constant or Bottom
it is never Top again, once it is Bottom it stays Bottom, a Constant is never replaced by a
different Constant; and the stored fact of `v` changes at most twice. -/
theorem stored_facts_never_regress (F : Function) (hu : F.UniqueIds) (s : SCCPState)
    (run : List SCCPState) (v : Value) (hs : MicroReachable F s)
    (hrun : List.Chain (fun a b => Micro F a b ∨ Step F a b) s run) :
    (∀ t ∈ run, ∀ f, mapFind v s.DataflowFacts = some f →
      ∃ f1, mapFind v t.DataflowFacts = some f1 ∧
        (f ≠ ConstantValue.top → f1 ≠ ConstantValue.top) ∧
        (f = ConstantValue.bot → f1 = ConstantValue.bot) ∧
        (∀ a b, f = ConstantValue.const a → f1 = ConstantValue.const b → a = b)) ∧
    factChanges v (s :: run) ≤ 2 := by
  refine ⟨?_, (factChanges_le_height hu v run s hs hrun).trans (storedHeight_le_two v s)⟩
  intro t ht f hf
  obtain ⟨f1, hf1, hle⟩ := chain_factsLe hu run s hs hrun t ht v f hf
  refine ⟨f1, hf1, ?_, ?_, ?_⟩
  · intro h1 h2
    subst h2
    rcases hle with h | h | h
    · cases h
    · exact h1 h
    · exact h1 h.symm
  · intro h1
    subst h1
    rcases hle with h | h | h
    · exact h
    · cases h
    · exact h
  · intro a b h1 h2
    subst h1 h2
    rcases hle with h | h | h
    · cases h
    · cases h
    · exact (ConstantValue.const.inj h).symm

/-! ## Runs along a removal order -/

theorem stepWith_step {F : Function} {c : Choice} {s s1 : SCCPState}
    (h : stepWith F c s = some s1) : Step F s s1 := by
  unfold stepWith at h
  split at h
  · split at h
    · rename_i hmem
      exact Step.cfg s s1 _ hmem h
    · cases h
  · split at h
    · rename_i hmem
      exact Step.ssa s s1 _ hmem.1 hmem.2 h
    · cases h

theorem runWith_chain {F : Function} (cs : List Choice) :
    ∀ s s1, runWith F cs s = some s1 → Relation.ReflTransGen (Step F) s s1 := by
  induction cs with
  | nil =>
    intro s s1 h
    simp only [runWith, Option.some.injEq] at h
    subst h
    exact Relation.ReflTransGen.refl
  | cons c more ih =>
    intro s s1 h
    unfold runWith at h
    split at h
    · cases h
    · rename_i s0 h0
      exact Relation.ReflTransGen.head (stepWith_step h0) (ih s0 s1 h)

theorem reachable_of_chain {F : Function} {s s1 : SCCPState} (hs : Reachable F s)
    (h : Relation.ReflTransGen (Step F) s s1) : Reachable F s1 := by
  induction h with
  | refl => exact hs
  | tail _ hstep ih => exact Reachable.step _ _ ih hstep

theorem runWith_reachable {F : Function} {cs : List Choice} {s1 : SCCPState}
    (h : runWith F cs (analyzeInit F) = some s1) : Reachable F s1 :=
  reachable_of_chain Reachable.init (runWith_chain cs _ _ h)

theorem loopBody_step {F : Function} {s s1 : SCCPState} (hne : ¬ Finished s)
    (h : loopBody F s = some s1) : Step F s s1 := by
  unfold loopBody at h
  split at h
  · rename_i Edge more hcfg
    exact Step.cfg s s1 Edge (by rw [hcfg]; exact List.mem_cons_self _ _) h
  · rename_i hcfg
    split at h
    · rename_i V more hssa
      exact Step.ssa s s1 V hcfg (by rw [hssa]; exact List.mem_cons_self _ _) h
    · rename_i hssa
      exact absurd ⟨hcfg, hssa⟩ hne

/-! ## The lattice and the visitor at concrete inputs -/

/-- C2 (what the code does): a phi whose incoming values are the literal 5 and a function
argument evaluates to Top for every state, whichever of its edges are executable, and not to
Constant(5): `visitPHINode` only looks at incoming values that are instructions. -/
theorem visitPHINode_skips_literal_and_argument (F : Function) (s : SCCPState) (P : BlockId)
    (A B : Option BlockId) :
    visitPHINode F s P [(Value.constInt 32 5, A), (Value.argument 0, B)] = ConstantValue.top ∧
    visitPHINode F s P [(Value.constInt 32 5, A), (Value.argument 0, B)] ≠
      ConstantValue.const 5 := by
  constructor
  · rfl
  · simp [visitPHINode]

/-- C6 (what the code does): on Constant(7) and Constant(0) the transfer function of `udiv` and
of `sdiv` evaluates `Int1 / Int2` with a zero divisor, which is undefined; it does not return
Bottom. -/
theorem visitBinaryOperator_div_by_zero (s : SCCPState) :
    visitBinaryOperator s BinaryOps.UDiv (Value.constInt 32 7) (Value.constInt 32 0) = none ∧
    visitBinaryOperator s BinaryOps.SDiv (Value.constInt 32 7) (Value.constInt 32 0) = none ∧
    visitBinaryOperator s BinaryOps.UDiv (Value.constInt 32 7) (Value.constInt 32 0) ≠
      some ConstantValue.bot := by
  refine ⟨?_, ?_, ?_⟩ <;>
    simp [visitBinaryOperator, getConstantValue, getSExtValue, ConstantValue.IsBot,
      ConstantValue.IsTop, ConstantValue.value, ConstantValue.IntValue, divInt64]

/-! ## `analyze` at concrete inputs -/

theorem selfLoop_stuck_fixed : loopBody selfLoopFn selfLoopStuck = some selfLoopStuck := by
  decide

theorem selfLoop_two_iterations :
    iterateLoop selfLoopFn 2 (analyzeInit selfLoopFn) = some selfLoopStuck := by
  decide

theorem iterateLoop_stuck (n : Nat) :
    iterateLoop selfLoopFn n selfLoopStuck = some selfLoopStuck := by
  induction n with
  | zero => rfl
  | succ n ih =>
    unfold iterateLoop
    rw [selfLoop_stuck_fixed]
    exact ih

theorem analyzeLoop_succ_of_step {F : Function} {fuel : Nat} {s s1 : SCCPState}
    (hne : ¬ (s.CFGWorkset = [] ∧ s.SSAWorkset = [])) (hb : loopBody F s = some s1) :
    analyzeLoop F (fuel + 1) s = analyzeLoop F fuel s1 := by
  rw [analyzeLoop, if_neg hne, hb]

theorem analyzeLoop_stuck (n : Nat) : analyzeLoop selfLoopFn n selfLoopStuck = none := by
  induction n with
  | zero => decide
  | succ n ih =>
    rw [analyzeLoop_succ_of_step (by decide) selfLoop_stuck_fixed]
    exact ih

/-- C1 (what the code does): on `entry: br loop; loop: br loop` the loop of `analyze` never
ends.  After any number of iterations it is in a defined state whose `CFGWorkset` is not
empty, so `analyze` returns for no bound on the iterations. -/
theorem analyze_selfLoop_never_finishes (n : Nat) :
    (∃ s, iterateLoop selfLoopFn n (analyzeInit selfLoopFn) = some s ∧ s.CFGWorkset ≠ []) ∧
    analyze selfLoopFn n = none := by
  match n with
  | 0 => exact ⟨⟨_, rfl, by decide⟩, by decide⟩
  | 1 => exact ⟨⟨_, rfl, by decide⟩, by decide⟩
  | n + 2 =>
    constructor
    · refine ⟨selfLoopStuck, ?_, by decide⟩
      have h : ∀ m s, iterateLoop selfLoopFn (m + 2) s =
          (iterateLoop selfLoopFn 2 s).bind (iterateLoop selfLoopFn m) := by
        intro m s
        simp only [iterateLoop]
        cases loopBody selfLoopFn s with
        | none => rfl
        | some s1 =>
          simp only
          cases loopBody selfLoopFn s1 with
          | none => rfl
          | some s2 => rfl
      rw [Nat.add_comm, Nat.add_comm 2 n, h, selfLoop_two_iterations]
      exact iterateLoop_stuck n
    · have h : analyze selfLoopFn (n + 2) = analyzeLoop selfLoopFn n selfLoopStuck := by
        have h1 : loopBody selfLoopFn (analyzeInit selfLoopFn) =
            some ⟨[⟨some 0, some 1⟩], [], [⟨none, some 0⟩, ⟨some 0, some 1⟩],
              [(.inst 10, .bot)]⟩ := by decide
        have h2 : loopBody selfLoopFn ⟨[⟨some 0, some 1⟩], [],
            [⟨none, some 0⟩, ⟨some 0, some 1⟩], [(.inst 10, .bot)]⟩ = some selfLoopStuck := by
          decide
        unfold analyze
        rw [analyzeLoop_succ_of_step (by decide) h1, analyzeLoop_succ_of_step (by decide) h2]
      rw [h]
      exact analyzeLoop_stuck n

/-- C5 (what the code does): on the diamond `diamondFn` two removal orders both end the loop of
`analyze`, with the same executable edges; one ends with the fact Constant(3) for `x` and
Bottom for the return, the other (the order of `*begin()`) with no fact at all for the
instructions of the merge block. -/
theorem analyze_result_depends_on_order :
    runWith diamondFn diamondOrderDepthFirst (analyzeInit diamondFn) =
      some diamondFinalDepthFirst ∧
    runWith diamondFn diamondOrderByAddress (analyzeInit diamondFn) =
      some diamondFinalByAddress ∧
    analyze diamondFn 5 = some diamondFinalByAddress ∧
    Finished diamondFinalDepthFirst ∧ Finished diamondFinalByAddress ∧
    mapFind (Value.inst 40) diamondFinalDepthFirst.DataflowFacts =
      some (ConstantValue.const 3) ∧
    mapFind (Value.inst 40) diamondFinalByAddress.DataflowFacts = none ∧
    mapFind (Value.inst 41) diamondFinalDepthFirst.DataflowFacts = some ConstantValue.bot ∧
    mapFind (Value.inst 41) diamondFinalByAddress.DataflowFacts = none := by
  decide

/-- C7 (what the code does): on scenario A with the facts x = Constant(5), y = Constant(20)
`foldConstants` removes both arithmetic instructions and rewrites the operand of the return,
and returns `false`. -/
theorem foldConstants_scenarioA_reports_no_change :
    foldConstants scenarioA scenarioAFacts = some (scenarioAFolded, false) ∧
    scenarioAFolded ≠ scenarioA ∧
    (analyze scenarioA 3).map (fun s => s.DataflowFacts) = some scenarioAFacts := by
  decide

/-- C8 (what the code does): on scenario B, with the facts `analyze` computes, `foldConstants`
erases block B and leaves the phi of the merge block with the single entry that came from the
erased block B; the entry from the surviving block A is the one removed. -/
theorem foldConstants_scenarioB_phi_keeps_dead_entry :
    (analyze scenarioB 10).map (fun s => s.DataflowFacts) = some scenarioBFacts ∧
    foldConstants scenarioB scenarioBFacts = some (scenarioBFolded, true) ∧
    scenarioBFolded.getBlock 1 ≠ none ∧ scenarioBFolded.getBlock 2 = none ∧
    (scenarioBFolded.findInst 40).map (fun p => p.2.kind) =
      some (InstKind.PHINode [(Value.inst 9, some 2)]) := by
  decide

/-- C9 (what the code does): on the counting loop `loopFn` the loop of `analyze` ends (after
ten iterations) with the fact Top for the header phi, not Bottom. -/
theorem analyze_loop_phi_is_top :
    analyze loopFn 10 = some loopFinal ∧
    mapFind (Value.inst 20) loopFinal.DataflowFacts = some ConstantValue.top ∧
    mapFind (Value.inst 20) loopFinal.DataflowFacts ≠ some ConstantValue.bot := by
  decide

/-! ## Witnesses -/

theorem scenarioA_first_iteration :
    runWith scenarioA [Choice.edge ⟨none, some 0⟩] (analyzeInit scenarioA) =
      some (scenarioAState [11, 12]) := by
  decide

theorem scenarioA_chain :
    List.Chain (fun a b => Micro scenarioA a b ∨ Step scenarioA a b) (scenarioAState [11, 12])
      [scenarioAState [12], scenarioAState []] :=
  List.Chain.cons (Or.inr (Step.ssa _ _ 11 rfl (by decide) (by decide)))
    (List.Chain.cons (Or.inr (Step.ssa _ _ 12 rfl (by decide) (by decide))) List.Chain.nil)

/-- Witness for C3: scenario A, from the state after the first iteration of the loop through
the two remaining iterations, for the value `y`. -/
theorem stored_facts_never_regress_witness :
    scenarioA.UniqueIds ∧ MicroReachable scenarioA (scenarioAState [11, 12]) ∧
    List.Chain (fun a b => Micro scenarioA a b ∨ Step scenarioA a b) (scenarioAState [11, 12])
      [scenarioAState [12], scenarioAState []] ∧
    ((∀ t ∈ [scenarioAState [12], scenarioAState []], ∀ f,
        mapFind (Value.inst 11) (scenarioAState [11, 12]).DataflowFacts = some f →
        ∃ f1, mapFind (Value.inst 11) t.DataflowFacts = some f1 ∧
          (f ≠ ConstantValue.top → f1 ≠ ConstantValue.top) ∧
          (f = ConstantValue.bot → f1 = ConstantValue.bot) ∧
          (∀ a b, f = ConstantValue.const a → f1 = ConstantValue.const b → a = b)) ∧
      factChanges (Value.inst 11)
        (scenarioAState [11, 12] :: [scenarioAState [12], scenarioAState []]) ≤ 2) :=
  ⟨by decide, (microReachable_of_reachable (runWith_reachable scenarioA_first_iteration)), scenarioA_chain,
    stored_facts_never_regress scenarioA (by decide) (scenarioAState [11, 12])
      [scenarioAState [12], scenarioAState []] (Value.inst 11)
      (microReachable_of_reachable (runWith_reachable scenarioA_first_iteration)) scenarioA_chain⟩

theorem diamond_run_by_address :
    runWith diamondFn diamondOrderByAddress (analyzeInit diamondFn) =
      some diamondFinalByAddress := by
  decide

/-- Witness for C4: the final state of `analyze` on the diamond and its edge from A to the
merge block. -/
theorem executable_edges_sound_witness :
    MicroReachable diamondFn diamondFinalByAddress ∧
    (⟨some 1, some 3⟩ : CFGEdge) ∈ diamondFinalByAddress.ExecutableEdges ∧
    ((⟨some 1, some 3⟩ : CFGEdge) = seedEdge diamondFn ∨
      ∃ a, (⟨some 1, some 3⟩ : CFGEdge).From = some a ∧
        ExecPath diamondFn diamondFinalByAddress.ExecutableEdges a ∧
        ∃ e1 ∈ diamondFinalByAddress.ExecutableEdges, e1.To = some a) :=
  ⟨(microReachable_of_reachable (runWith_reachable diamond_run_by_address)), by decide,
    executable_edges_sound diamondFn diamondFinalByAddress
      (microReachable_of_reachable (runWith_reachable diamond_run_by_address)) ⟨some 1, some 3⟩ (by decide)⟩

/-! ## The counting loop under every removal order -/

theorem loopFn_inst_cases {BB : BasicBlock} {I : Instruction} (hBB : BB ∈ loopFn.blocks)
    (hI : I ∈ BB.insts) :
    (I.id = 20 → BB.id = 1 ∧
      I.kind = InstKind.PHINode [(Value.constInt 32 0, some 0), (Value.inst 30, some 2)]) ∧
    (I.id = 30 → I.kind = InstKind.BinaryOperator BinaryOps.Add (Value.inst 20)
      (Value.constInt 32 1)) := by
  simp only [loopFn, Function.blocks, List.mem_cons, List.mem_singleton, List.not_mem_nil,
    or_false] at hBB
  rcases hBB with rfl | rfl | rfl | rfl <;>
    simp only [List.mem_cons, List.mem_singleton, List.not_mem_nil, or_false] at hI <;>
    rcases hI with rfl | rfl | rfl <;> simp

/-- On `loopFn`, at every point of `analyze` and for every removal order, the header phi and
the increment have no fact or the fact Top. -/
theorem loopFn_facts_top (s : SCCPState) (hs : MicroReachable loopFn s) :
    getConstantValue s (Value.inst 20) = ConstantValue.top ∧
    getConstantValue s (Value.inst 30) = ConstantValue.top := by
  induction hs with
  | init => exact ⟨rfl, rfl⟩
  | step s s1 _ hstep ih =>
    cases hstep with
    | takeEdge Edge hmem => exact ih
    | addSuccessor BB Successor0 hBB hex => exact ih
    | takeInst V => exact ih
    | visit _ BB I hBB hI hside hv =>
      obtain ⟨n, t, hvis, -, -, hfacts, -⟩ := visit_spec loopFn BB.id I s s1 hv
      obtain ⟨h20, h30⟩ := loopFn_inst_cases hBB hI
      have key : ∀ k, (k = Value.inst I.id → n = ConstantValue.top) →
          getConstantValue s k = ConstantValue.top →
          (∀ w b, k ≠ Value.constInt w b) → getConstantValue s1 k = ConstantValue.top := by
        intro k hk hold hnc
        cases k with
        | constInt w b => exact absurd rfl (hnc w b)
        | argument i =>
          simp only [getConstantValue, hfacts] at hold ⊢
          simp only [reduceCtorEq, if_false]
          exact hold
        | inst id =>
          simp only [getConstantValue, hfacts] at hold ⊢
          split
          · rename_i c hc
            split at hc
            · rename_i heq
              simp only [Option.some.injEq] at hc
              rw [← hc]
              exact hk heq
            · rw [hc] at hold
              exact hold
          · rfl
      constructor
      · refine key _ ?_ ih.1 (fun _ _ h => by cases h)
        intro heq
        obtain ⟨hid, hkind⟩ := h20 (Value.inst.inj heq).symm
        unfold visitorVisit at hvis
        rw [hkind] at hvis
        simp only [Option.some.injEq, Prod.mk.injEq] at hvis
        rw [← hvis.1]
        simp only [visitPHINode, List.foldl_cons, List.foldl_nil, ih.2]
        split <;> rfl
      · refine key _ ?_ ih.2 (fun _ _ h => by cases h)
        intro heq
        have hkind := h30 (Value.inst.inj heq).symm
        unfold visitorVisit at hvis
        rw [hkind] at hvis
        have hval : visitBinaryOperator s BinaryOps.Add (Value.inst 20) (Value.constInt 32 1) =
            some ConstantValue.top := by
          simp only [visitBinaryOperator, ih.1]
          rfl
        simp only [hval, Option.map_some', Option.some.injEq, Prod.mk.injEq] at hvis
        exact hvis.1.symm

/-- On `loopFn` the fact stored for the header phi is Bottom at no point of `analyze`, for
every removal order. -/
theorem loopFn_phi_never_bottom (s : SCCPState) (hs : MicroReachable loopFn s) :
    mapFind (Value.inst 20) s.DataflowFacts ≠ some ConstantValue.bot := by
  intro h
  have := (loopFn_facts_top s hs).1
  simp [getConstantValue, h] at this

/-! ## The self loop under every removal order -/

/-- On `selfLoopFn` the loop of `analyze` is in one of three states, for every removal order,
and `CFGWorkset` is empty in none of them. -/
theorem selfLoop_reachable (s : SCCPState) (hs : Reachable selfLoopFn s) :
    (s = analyzeInit selfLoopFn ∨
      s = ⟨[⟨some 0, some 1⟩], [], [⟨none, some 0⟩, ⟨some 0, some 1⟩], [(.inst 10, .bot)]⟩ ∨
      s = selfLoopStuck) ∧ s.CFGWorkset ≠ [] := by
  induction hs with
  | init => exact ⟨Or.inl rfl, by decide⟩
  | step s s1 _ hstep ih =>
    have hcases : s1 = ⟨[⟨some 0, some 1⟩], [], [⟨none, some 0⟩, ⟨some 0, some 1⟩],
        [(.inst 10, .bot)]⟩ ∨ s1 = selfLoopStuck := by
      cases hstep with
      | ssa V hcfg _ _ => exact absurd hcfg ih.2
      | cfg Edge hmem hp =>
        rcases ih.1 with h | h | h <;> subst h
        · simp only [analyzeInit, selfLoopFn, List.mem_singleton] at hmem
          subst hmem
          left
          have : processEdge selfLoopFn ⟨none, some 0⟩
              (analyzeInit selfLoopFn) = some ⟨[⟨some 0, some 1⟩], [],
                [⟨none, some 0⟩, ⟨some 0, some 1⟩], [(.inst 10, .bot)]⟩ := by decide
          rw [this] at hp
          exact (Option.some.inj hp).symm
        · simp only [List.mem_singleton] at hmem
          subst hmem
          right
          have : processEdge selfLoopFn ⟨some 0, some 1⟩
              ⟨[⟨some 0, some 1⟩], [], [⟨none, some 0⟩, ⟨some 0, some 1⟩],
                [(.inst 10, .bot)]⟩ = some selfLoopStuck := by decide
          rw [this] at hp
          exact (Option.some.inj hp).symm
        · simp only [selfLoopStuck, List.mem_singleton] at hmem
          subst hmem
          right
          have : processEdge selfLoopFn ⟨some 1, some 1⟩ selfLoopStuck =
              some selfLoopStuck := by decide
          rw [this] at hp
          exact (Option.some.inj hp).symm
    refine ⟨Or.inr hcases, ?_⟩
    rcases hcases with h | h <;> subst h <;> decide

/-! ## The lattice: commutativity and lower bound -/

/-- C11: `meet` is commutative, and the meet of two values is below or equal to both in the
order Bottom <= Constant(v) <= Top (`ConstantValue.le`, distinct constants incomparable). -/
theorem meet_comm_lower_bound (a b : ConstantValue) :
    a.meet b = b.meet a ∧ (a.meet b).le a ∧ (a.meet b).le b := by
  cases a <;> cases b <;>
    simp [ConstantValue.meet, ConstantValue.le, ConstantValue.eq, ConstantValue.IsTop,
      ConstantValue.IsBot, ConstantValue.IntValue]
  rename_i x y
  by_cases h : x = y
  · simp [h]
  · have h1 : ¬ y = x := fun h2 => h h2.symm
    simp [h, h1]

/-! ## The transfer functions, case by case -/

theorem appendExecutableSuccessors_mem (P : BlockId) (succs : List BlockId) (s : SCCPState) :
    (∀ e ∈ s.CFGWorkset, e ∈ (appendExecutableSuccessors P succs s).CFGWorkset) ∧
    (∀ b ∈ succs, (⟨some P, some b⟩ : CFGEdge) ∈
        (appendExecutableSuccessors P succs s).CFGWorkset ∨
      (⟨some P, some b⟩ : CFGEdge) ∈ s.ExecutableEdges) ∧
    (∀ e ∈ (appendExecutableSuccessors P succs s).CFGWorkset,
      e ∈ s.CFGWorkset ∨ ∃ b ∈ succs, e = ⟨some P, some b⟩ ∧ e ∉ s.ExecutableEdges) := by
  unfold appendExecutableSuccessors
  induction succs generalizing s with
  | nil =>
    simp only [List.foldl_nil, List.not_mem_nil, false_and, exists_false, or_false]
    exact ⟨fun e he => he, fun b hb => hb.elim, fun e he => he⟩
  | cons b bs ih =>
    simp only [List.foldl_cons]
    split
    · rename_i hmem
      obtain ⟨h1, h2, h3⟩ := ih s
      refine ⟨h1, ?_, ?_⟩
      · intro c hc
        rcases List.mem_cons.1 hc with h | h
        · subst h
          exact Or.inr hmem
        · exact h2 c h
      · intro e he
        rcases h3 e he with h | ⟨c, hc, h⟩
        · exact Or.inl h
        · exact Or.inr ⟨c, List.mem_cons_of_mem _ hc, h⟩
    · rename_i hmem
      obtain ⟨h1, h2, h3⟩ :=
        ih { s with CFGWorkset := setInsert CFGEdge.lt ⟨some P, some b⟩ s.CFGWorkset }
      refine ⟨?_, ?_, ?_⟩
      · exact fun e he => h1 e ((mem_setInsert _ _ _ _).2 (Or.inr he))
      · intro c hc
        rcases List.mem_cons.1 hc with h | h
        · subst h
          exact Or.inl (h1 _ ((mem_setInsert _ _ _ _).2 (Or.inl rfl)))
        · exact h2 c h
      · intro e he
        rcases h3 e he with h | ⟨c, hc, h⟩
        · rcases (mem_setInsert _ _ _ _).1 h with h | h
          · exact Or.inr ⟨b, List.mem_cons_self _ _, h, by rw [h]; exact hmem⟩
          · exact Or.inl h
        · exact Or.inr ⟨c, List.mem_cons_of_mem _ hc, h⟩

/-- C12: `visitBranchInst` returns Bottom and leaves `ExecutableEdges`, `DataflowFacts` and
`SSAWorkset` as they are.  For a conditional branch of block `B`: with a condition fact
Constant(v), v not 0, `CFGWorkset` gains the edge to successor 0 and nothing else; with
Constant(0) the edge to successor 1 and nothing else; with Top or Bottom each of the two
successor edges is afterwards in `CFGWorkset` or was already in `ExecutableEdges` (and nothing
else is added).  For an unconditional branch its successor edge is afterwards in `CFGWorkset`
or was already in `ExecutableEdges`. -/
theorem visitBranchInst_spec (s : SCCPState) (B : BlockId) :
    (∀ I, (visitBranchInst s B I).1 = ConstantValue.bot ∧
      (visitBranchInst s B I).2.ExecutableEdges = s.ExecutableEdges ∧
      (visitBranchInst s B I).2.DataflowFacts = s.DataflowFacts ∧
      (visitBranchInst s B I).2.SSAWorkset = s.SSAWorkset) ∧
    (∀ cond S0 S1 v, getConstantValue s cond = ConstantValue.const v → v ≠ 0 →
      (visitBranchInst s B (InstKind.CondBr cond S0 S1)).2.CFGWorkset =
        setInsert CFGEdge.lt ⟨some B, some S0⟩ s.CFGWorkset ∧
      ∀ e, e ∈ (visitBranchInst s B (InstKind.CondBr cond S0 S1)).2.CFGWorkset ↔
        e = ⟨some B, some S0⟩ ∨ e ∈ s.CFGWorkset) ∧
    (∀ cond S0 S1, getConstantValue s cond = ConstantValue.const 0 →
      (visitBranchInst s B (InstKind.CondBr cond S0 S1)).2.CFGWorkset =
        setInsert CFGEdge.lt ⟨some B, some S1⟩ s.CFGWorkset ∧
      ∀ e, e ∈ (visitBranchInst s B (InstKind.CondBr cond S0 S1)).2.CFGWorkset ↔
        e = ⟨some B, some S1⟩ ∨ e ∈ s.CFGWorkset) ∧
    (∀ cond S0 S1,
      getConstantValue s cond = ConstantValue.top ∨
        getConstantValue s cond = ConstantValue.bot →
      ((⟨some B, some S0⟩ : CFGEdge) ∈
          (visitBranchInst s B (InstKind.CondBr cond S0 S1)).2.CFGWorkset ∨
        (⟨some B, some S0⟩ : CFGEdge) ∈ s.ExecutableEdges) ∧
      ((⟨some B, some S1⟩ : CFGEdge) ∈
          (visitBranchInst s B (InstKind.CondBr cond S0 S1)).2.CFGWorkset ∨
        (⟨some B, some S1⟩ : CFGEdge) ∈ s.ExecutableEdges) ∧
      ∀ e, e ∈ (visitBranchInst s B (InstKind.CondBr cond S0 S1)).2.CFGWorkset ↔
        e ∈ s.CFGWorkset ∨
          ((e = ⟨some B, some S0⟩ ∨ e = ⟨some B, some S1⟩) ∧ e ∉ s.ExecutableEdges)) ∧
    (∀ dest,
      ((⟨some B, some dest⟩ : CFGEdge) ∈ (visitBranchInst s B (InstKind.Br dest)).2.CFGWorkset ∨
        (⟨some B, some dest⟩ : CFGEdge) ∈ s.ExecutableEdges) ∧
      ∀ e, e ∈ (visitBranchInst s B (InstKind.Br dest)).2.CFGWorkset ↔
        e ∈ s.CFGWorkset ∨ (e = ⟨some B, some dest⟩ ∧ e ∉ s.ExecutableEdges)) := by
  refine ⟨?_, ?_, ?_, ?_, ?_⟩
  · intro I
    obtain ⟨h1, h2, h3, h4, -⟩ := visitBranchInst_frame s B I
    exact ⟨h1, h2, h3, h4⟩
  · intro cond S0 S1 v hv hne
    have h : (visitBranchInst s B (InstKind.CondBr cond S0 S1)).2.CFGWorkset =
        setInsert CFGEdge.lt ⟨some B, some S0⟩ s.CFGWorkset := by
      simp [visitBranchInst, hv, ConstantValue.isConstant, ConstantValue.IsTop,
        ConstantValue.IsBot, ConstantValue.value, ConstantValue.IntValue, hne]
    exact ⟨h, fun e => by rw [h, mem_setInsert]⟩
  · intro cond S0 S1 hv
    have h : (visitBranchInst s B (InstKind.CondBr cond S0 S1)).2.CFGWorkset =
        setInsert CFGEdge.lt ⟨some B, some S1⟩ s.CFGWorkset := by
      simp [visitBranchInst, hv, ConstantValue.isConstant, ConstantValue.IsTop,
        ConstantValue.IsBot, ConstantValue.value, ConstantValue.IntValue]
    exact ⟨h, fun e => by rw [h, mem_setInsert]⟩
  · intro cond S0 S1 hv
    have h : (visitBranchInst s B (InstKind.CondBr cond S0 S1)).2 =
        appendExecutableSuccessors B [S0, S1] s := by
      rcases hv with hv | hv <;>
        simp [visitBranchInst, hv, ConstantValue.isConstant, ConstantValue.IsTop,
          ConstantValue.IsBot, InstKind.successors]
    rw [h]
    obtain ⟨h1, h2, h3⟩ := appendExecutableSuccessors_mem B [S0, S1] s
    refine ⟨h2 S0 (by simp), h2 S1 (by simp), fun e => ⟨fun he => ?_, fun he => ?_⟩⟩
    · rcases h3 e he with h0 | ⟨b, hb, h0, hn⟩
      · exact Or.inl h0
      · simp only [List.mem_cons, List.mem_singleton, List.not_mem_nil, or_false] at hb
        rcases hb with hb | hb <;> subst hb
        · exact Or.inr ⟨Or.inl h0, hn⟩
        · exact Or.inr ⟨Or.inr h0, hn⟩
    · rcases he with h | ⟨h | h, hn⟩
      · exact h1 e h
      · subst h
        exact (h2 S0 (by simp)).resolve_right hn
      · subst h
        exact (h2 S1 (by simp)).resolve_right hn
  · intro dest
    have h : (visitBranchInst s B (InstKind.Br dest)).2 =
        appendExecutableSuccessors B [dest] s := by
      simp [visitBranchInst, InstKind.successors]
    rw [h]
    obtain ⟨h1, h2, h3⟩ := appendExecutableSuccessors_mem B [dest] s
    refine ⟨h2 dest (by simp), fun e => ⟨fun he => ?_, fun he => ?_⟩⟩
    · rcases h3 e he with h0 | ⟨b, hb, h0, hn⟩
      · exact Or.inl h0
      · simp only [List.mem_singleton] at hb
        subst hb
        exact Or.inr ⟨h0, hn⟩
    · rcases he with h | ⟨h, hn⟩
      · exact h1 e h
      · subst h
        exact (h2 dest (by simp)).resolve_right hn

/-- C13 as stated fails: on the operand facts Constant(-2^63) and Constant(-1) (the 64-bit
literals `0x8000000000000000` and `-1`), with a divisor that is not zero, `sdiv` and `udiv`
do not return the Constant of the truncated quotient: the quotient is not representable and
`Int1 / Int2` is undefined. -/
theorem visitBinaryOperator_div_overflow :
    getConstantValue (analyzeInit scenarioA) (Value.constInt 64 (2 ^ 63)) =
      ConstantValue.const (-(2 ^ 63)) ∧
    getConstantValue (analyzeInit scenarioA) (Value.constInt 64 (2 ^ 64 - 1)) =
      ConstantValue.const (-1) ∧
    (-1 : Int) ≠ 0 ∧
    visitBinaryOperator (analyzeInit scenarioA) BinaryOps.SDiv (Value.constInt 64 (2 ^ 63))
      (Value.constInt 64 (2 ^ 64 - 1)) ≠
        some (ConstantValue.const (Int.tdiv (-(2 ^ 63)) (-1))) ∧
    visitBinaryOperator (analyzeInit scenarioA) BinaryOps.UDiv (Value.constInt 64 (2 ^ 63))
      (Value.constInt 64 (2 ^ 64 - 1)) = none := by
  decide

/-- C13 (amended): `visitBinaryOperator` returns Bottom if an operand fact is Bottom, otherwise
Top if one is Top; on Constant(a) and Constant(b) it returns the Constant of the sum,
difference or product wrapped to 64 bits, of the bitwise and, or, xor, and for `udiv` and
`sdiv` alike the Constant of the truncating signed quotient when b is not 0 and the quotient is
representable (not a = -2^63 with b = -1); for every other opcode it returns Bottom. -/
theorem visitBinaryOperator_spec (s : SCCPState) (opcode : BinaryOps) (Operand1 Operand2 : Value) :
    ((getConstantValue s Operand1 = ConstantValue.bot ∨
        getConstantValue s Operand2 = ConstantValue.bot) →
      visitBinaryOperator s opcode Operand1 Operand2 = some ConstantValue.bot) ∧
    (getConstantValue s Operand1 ≠ ConstantValue.bot →
      getConstantValue s Operand2 ≠ ConstantValue.bot →
      (getConstantValue s Operand1 = ConstantValue.top ∨
        getConstantValue s Operand2 = ConstantValue.top) →
      visitBinaryOperator s opcode Operand1 Operand2 = some ConstantValue.top) ∧
    (∀ a b, getConstantValue s Operand1 = ConstantValue.const a →
      getConstantValue s Operand2 = ConstantValue.const b →
      (opcode = BinaryOps.Add → visitBinaryOperator s opcode Operand1 Operand2 =
        some (ConstantValue.const (toInt64 (a + b)))) ∧
      (opcode = BinaryOps.Sub → visitBinaryOperator s opcode Operand1 Operand2 =
        some (ConstantValue.const (toInt64 (a - b)))) ∧
      (opcode = BinaryOps.Mul → visitBinaryOperator s opcode Operand1 Operand2 =
        some (ConstantValue.const (toInt64 (a * b)))) ∧
      (opcode = BinaryOps.And → visitBinaryOperator s opcode Operand1 Operand2 =
        some (ConstantValue.const (Int.land a b))) ∧
      (opcode = BinaryOps.Or → visitBinaryOperator s opcode Operand1 Operand2 =
        some (ConstantValue.const (Int.lor a b))) ∧
      (opcode = BinaryOps.Xor → visitBinaryOperator s opcode Operand1 Operand2 =
        some (ConstantValue.const (Int.xor a b))) ∧
      ((opcode = BinaryOps.UDiv ∨ opcode = BinaryOps.SDiv) → b ≠ 0 →
        ¬ (a = -(2 ^ 63) ∧ b = -1) →
        visitBinaryOperator s opcode Operand1 Operand2 =
          some (ConstantValue.const (Int.tdiv a b))) ∧
      (opcode ≠ BinaryOps.Add → opcode ≠ BinaryOps.Sub → opcode ≠ BinaryOps.Mul →
        opcode ≠ BinaryOps.And → opcode ≠ BinaryOps.Or → opcode ≠ BinaryOps.Xor →
        opcode ≠ BinaryOps.UDiv → opcode ≠ BinaryOps.SDiv →
        visitBinaryOperator s opcode Operand1 Operand2 = some ConstantValue.bot)) := by
  refine ⟨?_, ?_, ?_⟩
  · intro h
    rcases h with h | h <;>
      simp [visitBinaryOperator, h, ConstantValue.IsBot]
  · intro h1 h2 h
    rcases h with h | h
    · cases hc : getConstantValue s Operand2 <;>
        simp_all [visitBinaryOperator, ConstantValue.IsBot, ConstantValue.IsTop]
    · cases hc : getConstantValue s Operand1 <;>
        simp_all [visitBinaryOperator, ConstantValue.IsBot, ConstantValue.IsTop]
  · intro a b ha hb
    refine ⟨?_, ?_, ?_, ?_, ?_, ?_, ?_, ?_⟩
    · intro h
      subst h
      simp [visitBinaryOperator, ha, hb, ConstantValue.IsBot, ConstantValue.IsTop,
        ConstantValue.value, ConstantValue.IntValue]
    · intro h
      subst h
      simp [visitBinaryOperator, ha, hb, ConstantValue.IsBot, ConstantValue.IsTop,
        ConstantValue.value, ConstantValue.IntValue]
    · intro h
      subst h
      simp [visitBinaryOperator, ha, hb, ConstantValue.IsBot, ConstantValue.IsTop,
        ConstantValue.value, ConstantValue.IntValue]
    · intro h
      subst h
      simp [visitBinaryOperator, ha, hb, ConstantValue.IsBot, ConstantValue.IsTop,
        ConstantValue.value, ConstantValue.IntValue]
    · intro h
      subst h
      simp [visitBinaryOperator, ha, hb, ConstantValue.IsBot, ConstantValue.IsTop,
        ConstantValue.value, ConstantValue.IntValue]
    · intro h
      subst h
      simp [visitBinaryOperator, ha, hb, ConstantValue.IsBot, ConstantValue.IsTop,
        ConstantValue.value, ConstantValue.IntValue]
    · intro h hb0 hov
      have hd : divInt64 a b = some (Int.tdiv a b) := by
        unfold divInt64
        rw [if_neg hb0, if_neg hov]
      rcases h with h | h <;> subst h <;>
        simp [visitBinaryOperator, ha, hb, ConstantValue.IsBot, ConstantValue.IsTop,
          ConstantValue.value, ConstantValue.IntValue, hd]
    · intro h1 h2 h3 h4 h5 h6 h7 h8
      cases opcode <;>
        simp_all [visitBinaryOperator, ConstantValue.IsBot, ConstantValue.IsTop]

/-- C14: `visitICmpInst` returns Bottom if an operand fact is Bottom, otherwise Top if one is
Top; on Constant(a) and Constant(b) it returns Constant(1) when the predicate holds of (a, b)
and Constant(0) when it does not, the signed and the unsigned variant of lt, le, gt, ge alike
by comparison of the signed 64-bit values, and Bottom for any other predicate.  The result is
never a Constant other than 0 or 1. -/
theorem visitICmpInst_spec (s : SCCPState) (pred : Predicate) (Operand1 Operand2 : Value) :
    ((getConstantValue s Operand1 = ConstantValue.bot ∨
        getConstantValue s Operand2 = ConstantValue.bot) →
      visitICmpInst s pred Operand1 Operand2 = ConstantValue.bot) ∧
    (getConstantValue s Operand1 ≠ ConstantValue.bot →
      getConstantValue s Operand2 ≠ ConstantValue.bot →
      (getConstantValue s Operand1 = ConstantValue.top ∨
        getConstantValue s Operand2 = ConstantValue.top) →
      visitICmpInst s pred Operand1 Operand2 = ConstantValue.top) ∧
    (∀ a b, getConstantValue s Operand1 = ConstantValue.const a →
      getConstantValue s Operand2 = ConstantValue.const b →
      ((pred = Predicate.ICMP_SLT ∨ pred = Predicate.ICMP_ULT) →
        visitICmpInst s pred Operand1 Operand2 = ConstantValue.const (if a < b then 1 else 0)) ∧
      ((pred = Predicate.ICMP_SLE ∨ pred = Predicate.ICMP_ULE) →
        visitICmpInst s pred Operand1 Operand2 = ConstantValue.const (if a ≤ b then 1 else 0)) ∧
      ((pred = Predicate.ICMP_SGT ∨ pred = Predicate.ICMP_UGT) →
        visitICmpInst s pred Operand1 Operand2 = ConstantValue.const (if b < a then 1 else 0)) ∧
      ((pred = Predicate.ICMP_SGE ∨ pred = Predicate.ICMP_UGE) →
        visitICmpInst s pred Operand1 Operand2 = ConstantValue.const (if b ≤ a then 1 else 0)) ∧
      (pred = Predicate.ICMP_EQ →
        visitICmpInst s pred Operand1 Operand2 = ConstantValue.const (if a = b then 1 else 0)) ∧
      (pred = Predicate.ICMP_NE →
        visitICmpInst s pred Operand1 Operand2 = ConstantValue.const (if a ≠ b then 1 else 0)) ∧
      (pred = Predicate.OTHER →
        visitICmpInst s pred Operand1 Operand2 = ConstantValue.bot)) ∧
    (∀ v, visitICmpInst s pred Operand1 Operand2 = ConstantValue.const v → v = 0 ∨ v = 1) := by
  refine ⟨?_, ?_, ?_, ?_⟩
  · intro h
    rcases h with h | h <;> simp [visitICmpInst, h, ConstantValue.IsBot]
  · intro h1 h2 h
    rcases h with h | h
    · cases hc : getConstantValue s Operand2 <;>
        simp_all [visitICmpInst, ConstantValue.IsBot, ConstantValue.IsTop]
    · cases hc : getConstantValue s Operand1 <;>
        simp_all [visitICmpInst, ConstantValue.IsBot, ConstantValue.IsTop]
  · intro a b ha hb
    have key : ∀ p, visitICmpInst s p Operand1 Operand2 =
        (match p with
        | .ICMP_SLT | .ICMP_ULT => ConstantValue.const (if a < b then 1 else 0)
        | .ICMP_SLE | .ICMP_ULE => ConstantValue.const (if a ≤ b then 1 else 0)
        | .ICMP_SGT | .ICMP_UGT => ConstantValue.const (if a > b then 1 else 0)
        | .ICMP_SGE | .ICMP_UGE => ConstantValue.const (if a ≥ b then 1 else 0)
        | .ICMP_EQ => ConstantValue.const (if a = b then 1 else 0)
        | .ICMP_NE => ConstantValue.const (if a ≠ b then 1 else 0)
        | .OTHER => ConstantValue.bot) := by
      intro p
      simp [visitICmpInst, ha, hb, ConstantValue.IsBot, ConstantValue.IsTop,
        ConstantValue.value, ConstantValue.IntValue]
    rw [key]
    refine ⟨?_, ?_, ?_, ?_, ?_, ?_, ?_⟩
    · intro h
      rcases h with h | h <;> subst h <;> rfl
    · intro h
      rcases h with h | h <;> subst h <;> rfl
    · intro h
      rcases h with h | h <;> subst h <;> rfl
    · intro h
      rcases h with h | h <;> subst h <;> rfl
    · intro h
      subst h
      rfl
    · intro h
      subst h
      rfl
    · intro h
      subst h
      rfl
  · intro v hv
    unfold visitICmpInst at hv
    simp only at hv
    split at hv
    · cases hv
    · split at hv
      · cases hv
      · split at hv
        all_goals first
          | (simp only [ConstantValue.const.injEq] at hv
             rw [← hv]
             split <;> simp)
          | cases hv

/-! ## Facts exist only for phis and for instructions of executable blocks -/

theorem isExecutableBlock_mono {s s1 : SCCPState} {b : Option BlockId}
    (hsub : ∀ e ∈ s.ExecutableEdges, e ∈ s1.ExecutableEdges)
    (h : isExecutableBlock s b = true) : isExecutableBlock s1 b = true := by
  rw [isExecutableBlock_iff] at h ⊢
  obtain ⟨e, he, hto⟩ := h
  exact ⟨e, hsub e he, hto⟩

theorem fact_keys_invariant (F : Function) (s : SCCPState) (hs : MicroReachable F s) :
    ∀ k, mapFind k s.DataflowFacts ≠ none →
      ∃ BB ∈ F.blocks, ∃ I ∈ BB.insts, k = Value.inst I.id ∧
        (I.kind.isPHI = true ∨ isExecutableBlock s (some BB.id) = true) := by
  induction hs with
  | init =>
    intro k hk
    simp [analyzeInit, mapFind] at hk
  | step s s1 _ hstep ih =>
    cases hstep with
    | takeEdge Edge hmem =>
      intro k hk
      obtain ⟨BB, hBB, I, hI, hkey, hside⟩ := ih k hk
      refine ⟨BB, hBB, I, hI, hkey, hside.imp id (isExecutableBlock_mono ?_)⟩
      exact fun e he => (mem_setInsert _ _ _ _).2 (Or.inr he)
    | addSuccessor BB0 Successor0 hBB0 hex =>
      intro k hk
      obtain ⟨BB, hBB, I, hI, hkey, hside⟩ := ih k hk
      refine ⟨BB, hBB, I, hI, hkey, hside.imp id (isExecutableBlock_mono ?_)⟩
      intro e he
      simp only
      split
      · exact he
      · exact (mem_setInsert _ _ _ _).2 (Or.inr he)
    | takeInst V => exact ih
    | visit _ BB0 I0 hBB0 hI0 hside0 hv =>
      obtain ⟨n, t, -, hexec, -, hfacts, -⟩ := visit_spec F BB0.id I0 s s1 hv
      intro k hk
      rw [hfacts] at hk
      by_cases hkey : k = Value.inst I0.id
      · refine ⟨BB0, hBB0, I0, hI0, hkey, hside0.imp id ?_⟩
        intro h
        rw [isExecutableBlock_congr s s1 _ hexec]
        exact h
      · simp only [hkey, if_false] at hk
        obtain ⟨BB, hBB, I, hI, hkey1, hside⟩ := ih k hk
        refine ⟨BB, hBB, I, hI, hkey1, hside.imp id ?_⟩
        intro h
        rw [isExecutableBlock_congr s s1 _ hexec]
        exact h

/-- C19: at every point of `analyze` on a function whose instructions have distinct
identities, a non-phi instruction that has an entry in `DataflowFacts` lies in a block that is
the destination of an edge of `ExecutableEdges`. -/
theorem facts_only_in_executable_blocks (F : Function) (hu : F.UniqueIds) (s : SCCPState)
    (hs : MicroReachable F s) (BB : BasicBlock) (I : Instruction) (hBB : BB ∈ F.blocks)
    (hI : I ∈ BB.insts) (hphi : I.kind.isPHI = false)
    (hfact : mapFind (Value.inst I.id) s.DataflowFacts ≠ none) :
    ∃ e ∈ s.ExecutableEdges, e.To = some BB.id := by
  obtain ⟨BB1, hBB1, I1, hI1, hkey, hside⟩ := fact_keys_invariant F s hs _ hfact
  obtain ⟨rfl, rfl⟩ := unique_inst hu hBB hI hBB1 hI1 (Value.inst.inj hkey)
  rcases hside with h | h
  · rw [hphi] at h
    cases h
  · exact (isExecutableBlock_iff s _).1 h

/-! ## The effect of `visit` -/

/-- C20: `visit` of an instruction `I`, with `n` the value the visitor computes for it.  If the
stored fact of `I` is `n`, `DataflowFacts` and `SSAWorkset` are unchanged.  If `I` has no
stored fact or a different one, afterwards `DataflowFacts` maps `I` to `n`, every other entry is
as before, and `SSAWorkset` holds what it held before and the instructions that use `I`. -/
theorem visit_effect (F : Function) (P : BlockId) (I : Instruction) (s s2 : SCCPState)
    (h : visit F P I s = some s2) :
    ∃ n s1, visitorVisit F P I s = some (n, s1) ∧
      (mapFind (Value.inst I.id) s.DataflowFacts = some n →
        s2.DataflowFacts = s.DataflowFacts ∧ s2.SSAWorkset = s.SSAWorkset) ∧
      (mapFind (Value.inst I.id) s.DataflowFacts ≠ some n →
        mapFind (Value.inst I.id) s2.DataflowFacts = some n ∧
        (∀ k, k ≠ Value.inst I.id →
          mapFind k s2.DataflowFacts = mapFind k s.DataflowFacts) ∧
        ∀ v, v ∈ s2.SSAWorkset ↔ v ∈ s.SSAWorkset ∨ v ∈ F.users (Value.inst I.id)) := by
  unfold visit at h
  split at h
  · cases h
  · rename_i n s1 hv
    obtain ⟨-, h2, h3, -⟩ := visitorVisit_frame F P I s s1 n hv
    refine ⟨n, s1, hv, ?_⟩
    split at h
    · rename_i old hold
      rw [h2] at hold
      split at h
      · rename_i hne
        have hne1 : n ≠ old := (ConstantValue.ne_iff _ _).1 hne
        simp only [Option.some.injEq] at h
        subst h
        refine ⟨fun heq => ?_, fun _ => ⟨?_, ?_, ?_⟩⟩
        · rw [hold] at heq
          exact absurd (Option.some.inj heq).symm hne1
        · simp [insertUsers, mapFind_mapSet]
        · intro k hk
          simp [insertUsers, mapFind_mapSet, hk, h2]
        · intro v
          simp only [insertUsers, mem_setInsertAll, h3]
          tauto
      · rename_i hne
        have heq1 : n = old := by
          by_contra hc
          exact hne ((ConstantValue.ne_iff _ _).2 hc)
        simp only [Option.some.injEq] at h
        subst h
        refine ⟨fun _ => ⟨h2, h3⟩, fun hneq => ?_⟩
        rw [hold, heq1] at hneq
        exact absurd rfl hneq
    · rename_i hnone
      rw [h2] at hnone
      simp only [Option.some.injEq] at h
      subst h
      refine ⟨fun heq => ?_, fun _ => ⟨?_, ?_, ?_⟩⟩
      · rw [hnone] at heq
        cases heq
      · simp [insertUsers, mapFind_append, h2, hnone]
      · intro k hk
        simp only [insertUsers, mapFind_append, h2, hk, if_false]
        cases mapFind k s.DataflowFacts <;> rfl
      · intro v
        simp only [insertUsers, mem_setInsertAll, h3]
        tauto

/-- Witness for C19: the branch of block A of the diamond in the final state of `analyze`. -/
theorem facts_only_in_executable_blocks_witness :
    diamondFn.UniqueIds ∧ MicroReachable diamondFn diamondFinalByAddress ∧
    (⟨1, [⟨20, 0, .Br 3⟩]⟩ : BasicBlock) ∈ diamondFn.blocks ∧
    (⟨20, 0, .Br 3⟩ : Instruction) ∈ (⟨1, [⟨20, 0, .Br 3⟩]⟩ : BasicBlock).insts ∧
    (⟨20, 0, .Br 3⟩ : Instruction).kind.isPHI = false ∧
    mapFind (Value.inst (⟨20, 0, .Br 3⟩ : Instruction).id)
      diamondFinalByAddress.DataflowFacts ≠ none ∧
    ∃ e ∈ diamondFinalByAddress.ExecutableEdges,
      e.To = some (⟨1, [⟨20, 0, .Br 3⟩]⟩ : BasicBlock).id :=
  ⟨by decide, microReachable_of_reachable (runWith_reachable diamond_run_by_address),
    by decide, by decide, by decide, by decide,
    facts_only_in_executable_blocks diamondFn (by decide) diamondFinalByAddress
      (microReachable_of_reachable (runWith_reachable diamond_run_by_address))
      ⟨1, [⟨20, 0, .Br 3⟩]⟩ ⟨20, 0, .Br 3⟩ (by decide) (by decide) (by decide) (by decide)⟩

theorem scenarioA_visit_x :
    visit scenarioA 0 ⟨10, 32, .BinaryOperator .Add (.constInt 32 2) (.constInt 32 3)⟩
      (analyzeInit scenarioA) = some scenarioAVisited := by
  decide

/-- Witness for C20: `visit` of `x` of scenario A in the initial state of `analyze`. -/
theorem visit_effect_witness :
    visit scenarioA 0 ⟨10, 32, .BinaryOperator .Add (.constInt 32 2) (.constInt 32 3)⟩
      (analyzeInit scenarioA) = some scenarioAVisited ∧
    ∃ n s1, visitorVisit scenarioA 0
        ⟨10, 32, .BinaryOperator .Add (.constInt 32 2) (.constInt 32 3)⟩
        (analyzeInit scenarioA) = some (n, s1) ∧
      (mapFind (Value.inst 10) (analyzeInit scenarioA).DataflowFacts = some n →
        scenarioAVisited.DataflowFacts = (analyzeInit scenarioA).DataflowFacts ∧
        scenarioAVisited.SSAWorkset = (analyzeInit scenarioA).SSAWorkset) ∧
      (mapFind (Value.inst 10) (analyzeInit scenarioA).DataflowFacts ≠ some n →
        mapFind (Value.inst 10) scenarioAVisited.DataflowFacts = some n ∧
        (∀ k, k ≠ Value.inst 10 →
          mapFind k scenarioAVisited.DataflowFacts =
            mapFind k (analyzeInit scenarioA).DataflowFacts) ∧
        ∀ v, v ∈ scenarioAVisited.SSAWorkset ↔
          v ∈ (analyzeInit scenarioA).SSAWorkset ∨ v ∈ scenarioA.users (Value.inst 10)) :=
  ⟨scenarioA_visit_x,
    visit_effect scenarioA 0 ⟨10, 32, .BinaryOperator .Add (.constInt 32 2) (.constInt 32 3)⟩
      (analyzeInit scenarioA) scenarioAVisited scenarioA_visit_x⟩

/-! ## The reachability traversal of `foldConstants` -/

theorem setInsert_toFinset (x : BlockId) (l : List BlockId) :
    (setInsert instLt x l).toFinset = insert x l.toFinset := by
  ext a
  simp [mem_setInsert]

theorem successorsOf_subset_slots (F : Function) (a b : BlockId)
    (h : b ∈ F.successorsOf a) : b ∈ F.successorSlots := by
  unfold Function.successorsOf at h
  split at h
  · rename_i BB hBB
    obtain ⟨hmem, hid⟩ := getBlock_some F a BB hBB
    refine List.mem_flatMap.2 ⟨BB, hmem, ?_⟩
    unfold Function.successorsOf
    rw [hid, hBB]
    exact h
  · cases h

theorem reachFuel_eq (F : Function) : F.reachFuel = 1 + F.successorSlots.length := by
  unfold Function.reachFuel Function.successorSlots
  rw [List.length_flatMap]
  rfl

/-- The inner loop of the traversal: what it adds to `Reachable` and to `WorkList`, and the
measure it keeps. -/
theorem visitSuccessors_spec (U : Finset BlockId) (succs : List BlockId) :
    ∀ WorkList Reachable : List BlockId, (∀ x ∈ succs, x ∈ U) →
      (∀ x, x ∈ (visitSuccessors succs WorkList Reachable).2 ↔ x ∈ Reachable ∨ x ∈ succs) ∧
      (∀ x, x ∈ (visitSuccessors succs WorkList Reachable).1 ↔
        x ∈ WorkList ∨ (x ∈ succs ∧ x ∉ Reachable)) ∧
      (visitSuccessors succs WorkList Reachable).1.length +
          (U \ (visitSuccessors succs WorkList Reachable).2.toFinset).card =
        WorkList.length + (U \ Reachable.toFinset).card := by
  unfold visitSuccessors
  induction succs with
  | nil =>
    intro wl R _
    simp
  | cons y ys ih =>
    intro wl R hU
    simp only [List.foldl_cons]
    have hU1 : ∀ x ∈ ys, x ∈ U := fun x hx => hU x (List.mem_cons_of_mem _ hx)
    by_cases hy : y ∈ R
    · simp only [hy, if_true]
      obtain ⟨h1, h2, h3⟩ := ih wl R hU1
      refine ⟨?_, ?_, h3⟩
      · intro x
        rw [h1, List.mem_cons]
        constructor
        · rintro (h | h)
          · exact Or.inl h
          · exact Or.inr (Or.inr h)
        · rintro (h | h | h)
          · exact Or.inl h
          · exact Or.inl (h ▸ hy)
          · exact Or.inr h
      · intro x
        rw [h2, List.mem_cons]
        constructor
        · rintro (h | ⟨h, hn⟩)
          · exact Or.inl h
          · exact Or.inr ⟨Or.inr h, hn⟩
        · rintro (h | ⟨h | h, hn⟩)
          · exact Or.inl h
          · exact absurd (h ▸ hy) hn
          · exact Or.inr ⟨h, hn⟩
    · simp only [hy, if_false]
      obtain ⟨h1, h2, h3⟩ := ih (y :: wl) (setInsert instLt y R) hU1
      refine ⟨?_, ?_, ?_⟩
      · intro x
        rw [h1, mem_setInsert, List.mem_cons]
        tauto
      · intro x
        rw [h2, mem_setInsert, List.mem_cons, List.mem_cons]
        by_cases hxy : x = y
        · subst hxy
          simp [hy]
        · simp [hxy]
      · rw [h3, setInsert_toFinset, Finset.sdiff_insert, List.length_cons]
        have hmem : y ∈ U \ R.toFinset := by
          simp [hU y (List.mem_cons_self _ _), hy]
        rw [Finset.card_erase_of_mem hmem]
        have : 0 < (U \ R.toFinset).card := Finset.card_pos.2 ⟨y, hmem⟩
        omega

theorem reachLoop_spec (F : Function) :
    ∀ fuel WorkList Reachable, ReachInv F WorkList Reachable →
      WorkList.length + (F.successorSlots.toFinset \ Reachable.toFinset).card ≤ fuel →
      (reachLoop F fuel WorkList Reachable).1 = [] ∧
        ReachInv F [] (reachLoop F fuel WorkList Reachable).2 := by
  intro fuel
  induction fuel with
  | zero =>
    intro wl R hinv hfuel
    have hwl : wl = [] := List.length_eq_zero.1 (by omega)
    subst hwl
    exact ⟨rfl, hinv⟩
  | succ fuel ih =>
    intro wl R hinv hfuel
    cases wl with
    | nil => exact ⟨rfl, hinv⟩
    | cons Current rest =>
      simp only [reachLoop]
      obtain ⟨hentry, hreach, hwl, hclosed⟩ := hinv
      have hU : ∀ x ∈ F.successorsOf Current, x ∈ F.successorSlots.toFinset := fun x hx =>
        List.mem_toFinset.2 (successorsOf_subset_slots F Current x hx)
      obtain ⟨h1, h2, h3⟩ :=
        visitSuccessors_spec F.successorSlots.toFinset (F.successorsOf Current) rest R hU
      apply ih
      · refine ⟨(h1 _).2 (Or.inl hentry), ?_, ?_, ?_⟩
        · intro x hx
          rcases (h1 x).1 hx with h | h
          · exact hreach x h
          · exact Relation.ReflTransGen.tail
              (hreach Current (hwl Current (List.mem_cons_self _ _))) h
        · intro x hx
          rcases (h2 x).1 hx with h | ⟨h, -⟩
          · exact (h1 x).2 (Or.inl (hwl x (List.mem_cons_of_mem _ h)))
          · exact (h1 x).2 (Or.inr h)
        · intro x hx
          rcases (h1 x).1 hx with h | h
          · rcases hclosed x h with hc | hc
            · rcases List.mem_cons.1 hc with hc | hc
              · right
                intro y hy
                rw [hc] at hy
                exact (h1 y).2 (Or.inr hy)
              · exact Or.inl ((h2 x).2 (Or.inl hc))
            · exact Or.inr (fun y hy => (h1 y).2 (Or.inl (hc y hy)))
          · by_cases hR : x ∈ R
            · rcases hclosed x hR with hc | hc
              · rcases List.mem_cons.1 hc with hc | hc
                · right
                  intro y hy
                  rw [hc] at hy
                  exact (h1 y).2 (Or.inr hy)
                · exact Or.inl ((h2 x).2 (Or.inl hc))
              · exact Or.inr (fun y hy => (h1 y).2 (Or.inl (hc y hy)))
            · exact Or.inl ((h2 x).2 (Or.inr ⟨h, hR⟩))
      · rw [h3]
        simp only [List.length_cons] at hfuel
        omega

theorem reachInv_init (F : Function) : ReachInv F [F.entry.id] [F.entry.id] := by
  refine ⟨List.mem_singleton.2 rfl, ?_, fun x hx => hx, fun x hx => Or.inl hx⟩
  intro x hx
  rw [List.mem_singleton.1 hx]
  exact Relation.ReflTransGen.refl

theorem reachLoop_init_fuel (F : Function) :
    [F.entry.id].length +
      (F.successorSlots.toFinset \ [F.entry.id].toFinset).card ≤ F.reachFuel := by
  rw [reachFuel_eq]
  have h1 : (F.successorSlots.toFinset \ [F.entry.id].toFinset).card ≤
      F.successorSlots.toFinset.card := Finset.card_le_card Finset.sdiff_subset
  have h2 := List.toFinset_card_le F.successorSlots
  simp only [List.length_singleton]
  omega

/-- The traversal ends within its bound with an empty `WorkList`, and `Reachable` then holds
exactly the blocks reached from the entry block by successor steps. -/
theorem reachableBlocks_iff (F : Function) :
    (reachLoop F F.reachFuel [F.entry.id] [F.entry.id]).1 = [] ∧
      ∀ b, b ∈ reachableBlocks F ↔ CFGReach F b := by
  obtain ⟨h1, hentry, hreach, -, hclosed⟩ :=
    reachLoop_spec F F.reachFuel [F.entry.id] [F.entry.id] (reachInv_init F)
      (reachLoop_init_fuel F)
  refine ⟨h1, fun b => ⟨fun hb => hreach b hb, fun hb => ?_⟩⟩
  unfold CFGReach at hb
  induction hb with
  | refl => exact hentry
  | tail _ hstep ih =>
    rcases hclosed _ ih with h | h
    · cases h
    · exact h _ hstep

theorem repairBlocks_ids (bs : List BasicBlock) :
    ∀ bs1 ch, repairBlocks bs = some (bs1, ch) →
      bs1.map (fun BB => BB.id) = bs.map (fun BB => BB.id) := by
  induction bs with
  | nil =>
    intro bs1 ch h
    simp only [repairBlocks, Option.some.injEq, Prod.mk.injEq] at h
    rw [← h.1]
  | cons BB more ih =>
    intro bs1 ch h
    unfold repairBlocks at h
    split at h
    · cases h
    · rename_i insts c1 _
      split at h
      · cases h
      · rename_i more1 c2 hmore
        simp only [Option.some.injEq, Prod.mk.injEq] at h
        rw [← h.1]
        simp only [List.map_cons, ih more1 c2 hmore]

theorem repairPhis_ids (F F1 : Function) (ch : Bool) (h : repairPhis F = some (F1, ch)) :
    F1.blocks.map (fun BB => BB.id) = F.blocks.map (fun BB => BB.id) := by
  unfold repairPhis at h
  split at h
  · rename_i e r c hrep
    simp only [Option.some.injEq, Prod.mk.injEq] at h
    rw [← h.1]
    exact repairBlocks_ids F.blocks (e :: r) c hrep
  · cases h

theorem removeUnreachableBlocks_blocks (F : Function) :
    (removeUnreachableBlocks F).blocks =
      F.blocks.filter (fun BB => decide (BB.id ∈ reachableBlocks F)) := by
  have hentry : F.entry.id ∈ reachableBlocks F :=
    ((reachableBlocks_iff F).2 _).2 Relation.ReflTransGen.refl
  simp [removeUnreachableBlocks, Function.blocks, List.filter_cons, hentry]

/-- C17: in `foldConstants`, with `F2` the function as rewritten by branch simplification, the
reachability traversal ends (its `WorkList` is empty within the bound on its iterations), the
set `Reachable` it computes holds exactly the blocks reached from the entry block by zero or
more successor steps in `F2`, and the blocks of the result are exactly the blocks of `F2` that
are in this set, in their order, the entry block first. -/
theorem reachability_exact (F : Function) (DataflowFacts : List (Value × ConstantValue))
    (F4 : Function) (madeChange : Bool)
    (h : foldConstants F DataflowFacts = some (F4, madeChange)) :
    ∃ F2 ch2, simplifyBranches (substituteConstants F DataflowFacts) = some (F2, ch2) ∧
      (reachLoop F2 F2.reachFuel [F2.entry.id] [F2.entry.id]).1 = [] ∧
      (∀ b, b ∈ reachableBlocks F2 ↔ CFGReach F2 b) ∧
      F4.entry.id = F2.entry.id ∧
      F4.blocks.map (fun BB => BB.id) =
        (F2.blocks.filter (fun BB => decide (BB.id ∈ reachableBlocks F2))).map
          (fun BB => BB.id) ∧
      ∀ b, b ∈ F4.blocks.map (fun BB => BB.id) ↔
        b ∈ F2.blocks.map (fun BB => BB.id) ∧ CFGReach F2 b := by
  unfold foldConstants at h
  simp only at h
  split at h
  · cases h
  · rename_i F2 ch2 hsimp
    split at h
    · cases h
    · rename_i F4a ch4 hrep
      simp only [Option.some.injEq, Prod.mk.injEq] at h
      obtain ⟨rfl, -⟩ := h
      obtain ⟨hend, hiff⟩ := reachableBlocks_iff F2
      have hids := repairPhis_ids _ _ _ hrep
      rw [removeUnreachableBlocks_blocks] at hids
      refine ⟨F2, ch2, hsimp, hend, hiff, ?_, hids, ?_⟩
      · have := congrArg List.head? hids
        simp only [Function.blocks, List.map_cons, List.head?_cons] at this
        have hentry : F2.entry.id ∈ reachableBlocks F2 :=
          (hiff _).2 Relation.ReflTransGen.refl
        simp only [List.filter_cons, hentry, decide_True, if_true, List.map_cons,
          List.head?_cons, Option.some.injEq] at this
        exact this
      · intro b
        rw [hids]
        simp only [List.mem_map, List.mem_filter, decide_eq_true_eq]
        constructor
        · rintro ⟨BB, ⟨hBB, hr⟩, rfl⟩
          exact ⟨⟨BB, hBB, rfl⟩, (hiff _).1 hr⟩
        · rintro ⟨⟨BB, hBB, rfl⟩, hr⟩
          exact ⟨BB, ⟨hBB, (hiff _).2 hr⟩, rfl⟩

theorem scenarioB_folded :
    foldConstants scenarioB scenarioBFacts = some (scenarioBFolded, true) := by
  decide

/-- Witness for C17: scenario B. -/
theorem reachability_exact_witness :
    foldConstants scenarioB scenarioBFacts = some (scenarioBFolded, true) ∧
    ∃ F2 ch2, simplifyBranches (substituteConstants scenarioB scenarioBFacts) = some (F2, ch2) ∧
      (reachLoop F2 F2.reachFuel [F2.entry.id] [F2.entry.id]).1 = [] ∧
      (∀ b, b ∈ reachableBlocks F2 ↔ CFGReach F2 b) ∧
      scenarioBFolded.entry.id = F2.entry.id ∧
      scenarioBFolded.blocks.map (fun BB => BB.id) =
        (F2.blocks.filter (fun BB => decide (BB.id ∈ reachableBlocks F2))).map
          (fun BB => BB.id) ∧
      ∀ b, b ∈ scenarioBFolded.blocks.map (fun BB => BB.id) ↔
        b ∈ F2.blocks.map (fun BB => BB.id) ∧ CFGReach F2 b :=
  ⟨scenarioB_folded, reachability_exact scenarioB scenarioBFacts scenarioBFolded true
    scenarioB_folded⟩

/-! ## Branch simplification -/

theorem mapBlocks_mapBlocks (F : Function) (f g : BasicBlock → BasicBlock) :
    (F.mapBlocks f).mapBlocks g = F.mapBlocks (fun BB => g (f BB)) := by
  simp [Function.mapBlocks, List.map_map, Function.comp_def]

theorem removeAbandoned_eq (ab : List InstId) :
    ∀ F : Function, removeAbandoned F ab =
      F.mapBlocks (fun BB =>
        { BB with insts := BB.insts.filter (fun I => decide (I.id ∉ ab)) }) := by
  unfold removeAbandoned
  induction ab with
  | nil =>
    intro F
    simp [Function.mapBlocks]
  | cons a more ih =>
    intro F
    simp only [List.foldl_cons]
    rw [ih]
    simp only [Function.removeFromParent, mapBlocks_mapBlocks, List.filter_filter]
    congr 1
    funext BB
    congr 1
    apply List.filter_congr
    intro I _
    simp only [List.mem_cons, not_or, decide_not, Bool.and_eq_true, decide_eq_true_eq,
      Bool.not_eq_true', decide_eq_false_iff_not, ne_eq, Bool.decide_and]
    rw [Bool.and_comm]

/-- What the loop over the blocks produces: block by block the old block, or the old block
with the new branch inserted before its terminator; the abandoned terminators; and the
flag. -/
theorem simplifyBranchesLoop_spec (bs : List BasicBlock) :
    ∀ next bs1 ab ch, simplifyBranchesLoop bs next = some (bs1, ab, ch) →
      List.Forall₂
        (fun BB BB1 =>
          match literalBranchTarget BB with
          | some dest => ∃ newId TI, next ≤ newId ∧ BB.getTerminator = some TI ∧ TI.id ∈ ab ∧
              BB1 = ⟨BB.id, BB.insts.dropLast ++ [⟨newId, 0, .Br dest⟩, TI]⟩
          | none => BB1 = BB) bs bs1 ∧
      (∀ a ∈ ab, ∃ BB ∈ bs, ∃ TI, BB.getTerminator = some TI ∧ TI.id = a ∧
        literalBranchTarget BB ≠ none) ∧
      (ch = true ↔ ∃ BB ∈ bs, literalBranchTarget BB ≠ none) := by
  induction bs with
  | nil =>
    intro next bs1 ab ch h
    simp only [simplifyBranchesLoop, Option.some.injEq, Prod.mk.injEq] at h
    obtain ⟨rfl, rfl, rfl⟩ := h
    simp
  | cons BB more ih =>
    intro next bs1 ab ch h
    unfold simplifyBranchesLoop at h
    split at h
    · cases h
    · rename_i TI hTI
      have hrewrite : ∀ dest, literalBranchTarget BB = some dest →
          (match simplifyBranchesLoop more (next + 1) with
            | none => none
            | some (bs, ab, _) =>
              some ({ BB with insts := BB.insts.dropLast ++ [⟨next, 0, .Br dest⟩, TI] } :: bs,
                TI.id :: ab, true)) = some (bs1, ab, ch) →
          List.Forall₂
            (fun BB BB1 =>
              match literalBranchTarget BB with
              | some dest => ∃ newId TI, next ≤ newId ∧ BB.getTerminator = some TI ∧
                  TI.id ∈ ab ∧
                  BB1 = ⟨BB.id, BB.insts.dropLast ++ [⟨newId, 0, .Br dest⟩, TI]⟩
              | none => BB1 = BB) (BB :: more) bs1 ∧
          (∀ a ∈ ab, ∃ B ∈ BB :: more, ∃ TI, B.getTerminator = some TI ∧ TI.id = a ∧
            literalBranchTarget B ≠ none) ∧
          (ch = true ↔ ∃ B ∈ BB :: more, literalBranchTarget B ≠ none) := by
        intro dest hdest h
        split at h
        · cases h
        · rename_i bs2 ab2 ch2 hrec
          simp only [Option.some.injEq, Prod.mk.injEq] at h
          obtain ⟨rfl, rfl, rfl⟩ := h
          obtain ⟨h1, h2, -⟩ := ih (next + 1) bs2 ab2 ch2 hrec
          refine ⟨List.Forall₂.cons ?_ ?_, ?_, ?_⟩
          · simp only [hdest]
            exact ⟨next, TI, Nat.le_refl _, hTI, List.mem_cons_self _ _, rfl⟩
          · refine h1.imp ?_
            intro B B1 hB
            split at hB
            · obtain ⟨newId, T, hle, hT, hmem, hB1⟩ := hB
              exact ⟨newId, T, Nat.le_of_succ_le hle, hT, List.mem_cons_of_mem _ hmem, hB1⟩
            · exact hB
          · intro a ha
            rcases List.mem_cons.1 ha with ha | ha
            · exact ⟨BB, List.mem_cons_self _ _, TI, hTI, ha.symm, by simp [hdest]⟩
            · obtain ⟨B, hB, T, hT⟩ := h2 a ha
              exact ⟨B, List.mem_cons_of_mem _ hB, T, hT⟩
          · simp only [true_iff]
            exact ⟨BB, List.mem_cons_self _ _, by simp [hdest]⟩
      have hkeep : literalBranchTarget BB = none →
          (match simplifyBranchesLoop more next with
            | none => none
            | some (bs, ab, ch) => some (BB :: bs, ab, ch)) = some (bs1, ab, ch) →
          List.Forall₂
            (fun BB BB1 =>
              match literalBranchTarget BB with
              | some dest => ∃ newId TI, next ≤ newId ∧ BB.getTerminator = some TI ∧
                  TI.id ∈ ab ∧
                  BB1 = ⟨BB.id, BB.insts.dropLast ++ [⟨newId, 0, .Br dest⟩, TI]⟩
              | none => BB1 = BB) (BB :: more) bs1 ∧
          (∀ a ∈ ab, ∃ B ∈ BB :: more, ∃ TI, B.getTerminator = some TI ∧ TI.id = a ∧
            literalBranchTarget B ≠ none) ∧
          (ch = true ↔ ∃ B ∈ BB :: more, literalBranchTarget B ≠ none) := by
        intro hnone h
        split at h
        · cases h
        · rename_i bs2 ab2 ch2 hrec
          simp only [Option.some.injEq, Prod.mk.injEq] at h
          obtain ⟨rfl, rfl, rfl⟩ := h
          obtain ⟨h1, h2, h3⟩ := ih next bs2 ab2 ch2 hrec
          refine ⟨List.Forall₂.cons ?_ h1, ?_, ?_⟩
          · simp only [hnone]
          · intro a ha
            obtain ⟨B, hB, T, hT⟩ := h2 a ha
            exact ⟨B, List.mem_cons_of_mem _ hB, T, hT⟩
          · rw [h3]
            constructor
            · rintro ⟨B, hB, hne⟩
              exact ⟨B, List.mem_cons_of_mem _ hB, hne⟩
            · rintro ⟨B, hB, hne⟩
              rcases List.mem_cons.1 hB with hB | hB
              · rw [hB, hnone] at hne
                exact absurd rfl hne
              · exact ⟨B, hB, hne⟩
      simp only at h
      split at h
      · rename_i width bits S0 S1 hkind
        split at h
        · rename_i hone
          exact hrewrite S0 (by simp [literalBranchTarget, hTI, hkind, hone]) h
        · rename_i hone
          split at h
          · rename_i hzero
            exact hrewrite S1 (by simp [literalBranchTarget, hTI, hkind, hone, hzero]) h
          · rename_i hzero
            exact hkeep (by simp [literalBranchTarget, hTI, hkind, hone, hzero]) h
      · rename_i hkind
        refine hkeep ?_ h
        unfold literalBranchTarget
        rw [hTI]
        simp only

theorem foldl_max_ge (l : List Nat) : ∀ acc x, (x ≤ acc ∨ x ∈ l) → x ≤ l.foldl max acc := by
  induction l with
  | nil =>
    intro acc x h
    rcases h with h | h
    · exact h
    · cases h
  | cons y ys ih =>
    intro acc x h
    simp only [List.foldl_cons]
    apply ih
    rcases h with h | h
    · exact Or.inl (Nat.le_trans h (Nat.le_max_left _ _))
    · rcases List.mem_cons.1 h with h | h
      · exact Or.inl (h ▸ Nat.le_max_right _ _)
      · exact Or.inr h

theorem mem_instructions {F : Function} {BB : BasicBlock} {I : Instruction}
    (hBB : BB ∈ F.blocks) (hI : I ∈ BB.insts) : I ∈ F.instructions :=
  List.mem_flatMap.2 ⟨BB, hBB, hI⟩

theorem lt_freshId {F : Function} {I : Instruction} (h : I ∈ F.instructions) :
    I.id < F.freshId := by
  unfold Function.freshId
  exact Nat.lt_succ_of_le (foldl_max_ge _ 0 I.id (Or.inr (List.mem_map.2 ⟨I, h, rfl⟩)))

theorem getTerminator_mem {BB : BasicBlock} {TI : Instruction}
    (h : BB.getTerminator = some TI) : BB.insts.getLast? = some TI := by
  unfold BasicBlock.getTerminator at h
  split at h
  · rename_i I hI
    split at h
    · rw [hI, ← Option.some.inj h]
    · cases h
  · cases h

theorem insts_nodup {F : Function} (hu : F.UniqueIds) {BB : BasicBlock} (hBB : BB ∈ F.blocks) :
    (BB.insts.map (fun I => I.id)).Nodup := by
  have hsub : BB.insts.Sublist F.instructions := by
    unfold Function.instructions
    rw [List.flatMap_def]
    exact List.sublist_flatten_of_mem (List.mem_map.2 ⟨BB, hBB, rfl⟩)
  exact List.Nodup.sublist (hsub.map _) hu

/-- The branch-simplification pass, block by block. -/
theorem simplifyBranches_blocks (F : Function) (hu : F.UniqueIds) (F2 : Function) (ch : Bool)
    (h : simplifyBranches F = some (F2, ch)) :
    List.Forall₂ BranchSimplified F.blocks F2.blocks ∧
      (ch = true ↔ ∃ BB ∈ F.blocks, literalBranchTarget BB ≠ none) := by
  unfold simplifyBranches at h
  split at h
  · rename_i e r ab c hloop
    simp only [Option.some.injEq, Prod.mk.injEq] at h
    obtain ⟨rfl, rfl⟩ := h
    obtain ⟨h1, h2, h3⟩ := simplifyBranchesLoop_spec F.blocks F.freshId (e :: r) ab c hloop
    refine ⟨?_, h3⟩
    rw [removeAbandoned_eq]
    have hblocks : (Function.mapBlocks ⟨e, r⟩ (fun BB =>
        { BB with insts := BB.insts.filter (fun I => decide (I.id ∉ ab)) })).blocks =
        (e :: r).map (fun BB =>
          { BB with insts := BB.insts.filter (fun I => decide (I.id ∉ ab)) }) := rfl
    rw [hblocks, List.forall₂_map_right_iff]
    have key : ∀ BB ∈ F.blocks, ∀ BB1,
        (match literalBranchTarget BB with
          | some dest => ∃ newId TI, F.freshId ≤ newId ∧ BB.getTerminator = some TI ∧
              TI.id ∈ ab ∧
              BB1 = ⟨BB.id, BB.insts.dropLast ++ [⟨newId, 0, .Br dest⟩, TI]⟩
          | none => BB1 = BB) →
        BranchSimplified BB
          { BB1 with insts := BB1.insts.filter (fun I => decide (I.id ∉ ab)) } := by
      intro BB hBB BB1 hrel
      have hab : ∀ I ∈ BB.insts, I.id ∈ ab →
          literalBranchTarget BB ≠ none ∧ BB.getTerminator = some I := by
        intro I hI ha
        obtain ⟨B, hB, T, hT, hid, hne⟩ := h2 _ ha
        have hTmem : T ∈ B.insts := List.mem_of_getLast?_eq_some (getTerminator_mem hT)
        obtain ⟨rfl, rfl⟩ := unique_inst hu hBB hI hB hTmem hid.symm
        exact ⟨hne, hT⟩
      unfold BranchSimplified
      split at hrel
      · rename_i dest hdest
        obtain ⟨newId, TI, hfresh, hTI, hTIab, rfl⟩ := hrel
        simp only [hdest]
        refine ⟨newId, ?_⟩
        congr 1
        have hlast := getTerminator_mem hTI
        have hsplit : BB.insts.dropLast ++ [TI] = BB.insts :=
          List.dropLast_append_getLast? TI hlast
        have hnd := insts_nodup hu hBB
        rw [← hsplit, List.map_append, List.nodup_append] at hnd
        have hdisj := hnd.2.2
        simp only [List.filter_append, List.filter_cons, List.filter_nil]
        have h1 : List.filter (fun I => decide (I.id ∉ ab)) BB.insts.dropLast =
            BB.insts.dropLast := by
          rw [List.filter_eq_self]
          intro I hI
          simp only [decide_eq_true_eq]
          intro ha
          have hImem : I ∈ BB.insts := List.mem_of_mem_dropLast hI
          obtain ⟨-, hterm⟩ := hab I hImem ha
          rw [hTI] at hterm
          have hITI : TI = I := Option.some.inj hterm
          subst hITI
          exact hdisj (List.mem_map.2 ⟨TI, hI, rfl⟩) (by simp)
        have h2 : decide ((⟨newId, 0, .Br dest⟩ : Instruction).id ∉ ab) = true := by
          simp only [decide_eq_true_eq]
          intro ha
          obtain ⟨B, hB, T, hT, hid, -⟩ := h2 _ ha
          have hTmem : T ∈ B.insts := List.mem_of_getLast?_eq_some (getTerminator_mem hT)
          have hlt : T.id < F.freshId := lt_freshId (mem_instructions hB hTmem)
          have hid1 : T.id = newId := hid
          rw [hid1] at hlt
          exact absurd hlt (Nat.not_lt.2 hfresh)
        have h3 : decide (TI.id ∉ ab) = false := by
          simp only [decide_eq_false_iff_not, not_not]
          exact hTIab
        rw [h1, h2, h3]
        simp
      · rename_i hnone
        subst hrel
        have : List.filter (fun I => decide (I.id ∉ ab)) BB1.insts = BB1.insts := by
          rw [List.filter_eq_self]
          intro I hI
          simp only [decide_eq_true_eq]
          intro ha
          exact (hab I hI ha).1 hnone
        rw [this]
    exact List.forall₂_iff_zip.2 ⟨h1.length_eq, fun {BB BB1} hz =>
      key BB (List.of_mem_zip hz).1 BB1 ((List.forall₂_iff_zip.1 h1).2 hz)⟩
  · cases h

theorem forall₂_exists_left {α β : Type} {R : α → β → Prop} {l1 : List α} {l2 : List β}
    (h : List.Forall₂ R l1 l2) : ∀ b ∈ l2, ∃ a ∈ l1, R a b := by
  induction h with
  | nil => exact fun b hb => absurd hb (List.not_mem_nil b)
  | cons hab _ ih =>
    intro b hb
    rcases List.mem_cons.1 hb with hb | hb
    · exact ⟨_, List.mem_cons_self _ _, hb ▸ hab⟩
    · obtain ⟨a, ha, hr⟩ := ih b hb
      exact ⟨a, List.mem_cons_of_mem _ ha, hr⟩

theorem literalBranchTarget_condBr {BB : BasicBlock} {TI : Instruction} {w bits : Nat}
    {S0 S1 : BlockId} (hTI : BB.getTerminator = some TI)
    (hk : TI.kind = InstKind.CondBr (Value.constInt w bits) S0 S1) :
    literalBranchTarget BB =
      if isOne w bits then some S0 else if isZero w bits then some S1 else none := by
  unfold literalBranchTarget
  rw [hTI]
  simp only [hk]

theorem isOne_or_isZero_i1 (bits : Nat) : isOne 1 bits = true ∨ isZero 1 bits = true := by
  unfold isOne isZero
  simp only [pow_one, beq_iff_eq]
  omega

/-- C16: the branch-simplification pass of `foldConstants` on a function `F` whose instructions
have distinct identities.  Block by block (`BranchSimplified`), a block whose terminator is a
conditional branch on the literal true ends, instead of it, with a new unconditional branch to
successor 0, one on the literal false with one to successor 1, and every other block is
unchanged; afterwards no block ends with a conditional branch on a 1-bit literal; the flag is
true exactly when some branch was rewritten, and then the flag `foldConstants` returns is true
as well. -/
theorem branch_simplification_spec (F : Function) (hu : F.UniqueIds) (F2 : Function)
    (ch : Bool) (h : simplifyBranches F = some (F2, ch)) :
    List.Forall₂ BranchSimplified F.blocks F2.blocks ∧
    (∀ BB TI w bits S0 S1, BB.getTerminator = some TI →
      TI.kind = InstKind.CondBr (Value.constInt w bits) S0 S1 →
      (isOne w bits = true → literalBranchTarget BB = some S0) ∧
      (isOne w bits = false → isZero w bits = true → literalBranchTarget BB = some S1) ∧
      (w = 1 → isOne w bits = true ∨ isZero w bits = true)) ∧
    (∀ BB, (∀ TI w bits S0 S1, BB.getTerminator = some TI →
        TI.kind ≠ InstKind.CondBr (Value.constInt w bits) S0 S1) →
      literalBranchTarget BB = none) ∧
    (∀ BB1 ∈ F2.blocks, ∀ TI w bits S0 S1, BB1.getTerminator = some TI →
      TI.kind = InstKind.CondBr (Value.constInt w bits) S0 S1 →
      w ≠ 1 ∧ isOne w bits = false ∧ isZero w bits = false) ∧
    (ch = true ↔ ∃ BB ∈ F.blocks, literalBranchTarget BB ≠ none) ∧
    (∀ F0 facts F4 ch4, substituteConstants F0 facts = F →
      foldConstants F0 facts = some (F4, ch4) → ch = true → ch4 = true) := by
  obtain ⟨hblocks, hflag⟩ := simplifyBranches_blocks F hu F2 ch h
  refine ⟨hblocks, ?_, ?_, ?_, hflag, ?_⟩
  · intro BB TI w bits S0 S1 hTI hk
    rw [literalBranchTarget_condBr hTI hk]
    refine ⟨fun h1 => by simp [h1], fun h1 h2 => by simp [h1, h2], fun hw => ?_⟩
    subst hw
    exact isOne_or_isZero_i1 bits
  · intro BB hBB
    unfold literalBranchTarget
    split
    · rename_i TI hTI
      split
      · rename_i w bits S0 S1 hk
        exact absurd hk (hBB TI w bits S0 S1 hTI)
      · rfl
    · rfl
  · intro BB1 hBB1 TI w bits S0 S1 hTI hk
    obtain ⟨BB, -, hrel⟩ := forall₂_exists_left hblocks BB1 hBB1
    unfold BranchSimplified at hrel
    split at hrel
    · obtain ⟨newId, rfl⟩ := hrel
      simp [BasicBlock.getTerminator, InstKind.isTerminator] at hTI
      rw [← hTI] at hk
      cases hk
    · rename_i hnone
      subst hrel
      rw [literalBranchTarget_condBr hTI hk] at hnone
      have h1 : isOne w bits = false := by
        cases hone : isOne w bits
        · rfl
        · simp [hone] at hnone
      have h2 : isZero w bits = false := by
        cases hzero : isZero w bits
        · rfl
        · simp [h1, hzero] at hnone
      refine ⟨fun hw => ?_, h1, h2⟩
      subst hw
      rcases isOne_or_isZero_i1 bits with h3 | h3
      · rw [h1] at h3
        cases h3
      · rw [h2] at h3
        cases h3
  · intro F0 facts F4 ch4 hF hfold hch
    unfold foldConstants at hfold
    simp only [hF, h] at hfold
    split at hfold
    · cases hfold
    · simp only [Option.some.injEq, Prod.mk.injEq] at hfold
      rw [← hfold.2, hch]
      rfl

theorem scenarioB_simplified :
    simplifyBranches scenarioBSubstituted = some (scenarioBSimplified, true) := by
  decide

/-- Witness for C16: scenario B after constant substitution. -/
theorem branch_simplification_spec_witness :
    scenarioBSubstituted.UniqueIds ∧
    simplifyBranches scenarioBSubstituted = some (scenarioBSimplified, true) ∧
    List.Forall₂ BranchSimplified scenarioBSubstituted.blocks scenarioBSimplified.blocks ∧
    (true = true ↔ ∃ BB ∈ scenarioBSubstituted.blocks, literalBranchTarget BB ≠ none) :=
  ⟨by decide, scenarioB_simplified,
    (branch_simplification_spec scenarioBSubstituted (by decide) scenarioBSimplified true
      scenarioB_simplified).1,
    (branch_simplification_spec scenarioBSubstituted (by decide) scenarioBSimplified true
      scenarioB_simplified).2.2.2.2.1⟩

/-! ## Constant substitution -/

theorem replaceUses_eq_mapOperands (old new : Value) (k : InstKind) :
    k.replaceUses old new = k.mapOperands (replaceValue old new) := by
  cases k <;> rfl

theorem mapOperands_mapOperands (f g : Value → Value) (k : InstKind) :
    (k.mapOperands f).mapOperands g = k.mapOperands (fun v => g (f v)) := by
  cases k <;> simp [InstKind.mapOperands, List.map_map, Function.comp_def]

theorem mapOperands_congr (f g : Value → Value) (k : InstKind)
    (h : ∀ v ∈ k.operands, f v = g v) : k.mapOperands f = k.mapOperands g := by
  cases k with
  | PHINode inc =>
    simp only [InstKind.mapOperands, InstKind.PHINode.injEq]
    apply List.map_congr_left
    intro e he
    rw [h e.1 (List.mem_map.2 ⟨e, he, rfl⟩)]
  | Br d => rfl
  | CondBr c t e =>
    simp only [InstKind.mapOperands, h c (by simp [InstKind.operands])]
  | ICmpInst p a b =>
    simp only [InstKind.mapOperands, h a (by simp [InstKind.operands]),
      h b (by simp [InstKind.operands])]
  | BinaryOperator o a b =>
    simp only [InstKind.mapOperands, h a (by simp [InstKind.operands]),
      h b (by simp [InstKind.operands])]
  | Other ops succs t =>
    simp only [InstKind.mapOperands, InstKind.Other.injEq, and_true]
    exact List.map_congr_left (fun v hv => h v hv)

theorem mapOperands_id (k : InstKind) : k.mapOperands (fun v => v) = k := by
  cases k <;> simp [InstKind.mapOperands]

theorem operands_mapOperands (f : Value → Value) (k : InstKind) :
    (k.mapOperands f).operands = k.operands.map f := by
  cases k <;> simp [InstKind.mapOperands, InstKind.operands, List.map_map, Function.comp_def]

theorem replaceAllUsesWith_eq (F : Function) (old new : Value) :
    F.replaceAllUsesWith old new = F.mapOperands (replaceValue old new) := by
  unfold Function.replaceAllUsesWith Function.mapOperands
  simp only [replaceUses_eq_mapOperands]

theorem mapOperands_comp (F : Function) (f g : Value → Value) :
    (F.mapOperands f).mapOperands g = F.mapOperands (fun v => g (f v)) := by
  unfold Function.mapOperands
  rw [mapBlocks_mapBlocks]
  simp only [List.map_map, Function.comp_def, mapOperands_mapOperands]

theorem function_mapOperands_congr (F : Function) (f g : Value → Value)
    (h : ∀ v, f v = g v) : F.mapOperands f = F.mapOperands g := by
  have : f = g := funext h
  rw [this]

theorem findInstIn_mapOperands (f : Value → Value) (id : InstId) (bs : List BasicBlock) :
    findInstIn id (bs.map (fun BB =>
      { BB with insts := BB.insts.map (fun I => { I with kind := I.kind.mapOperands f }) })) =
    (findInstIn id bs).map (fun p => (p.1, { p.2 with kind := p.2.kind.mapOperands f })) := by
  induction bs with
  | nil => rfl
  | cons BB more ih =>
    simp only [List.map_cons, findInstIn, List.find?_map, Function.comp_def]
    cases h : List.find? (fun I => I.id == id) BB.insts with
    | none => simp [ih]
    | some I => simp

theorem findInst_mapOperands (F : Function) (f : Value → Value) (id : InstId) :
    (F.mapOperands f).findInst id =
      (F.findInst id).map (fun p => (p.1, { p.2 with kind := p.2.kind.mapOperands f })) := by
  have := findInstIn_mapOperands f id F.blocks
  simpa [Function.findInst, Function.mapOperands, Function.mapBlocks, Function.blocks] using this

theorem instructions_mapOperands (F : Function) (f : Value → Value) :
    (F.mapOperands f).instructions =
      F.instructions.map (fun I => { I with kind := I.kind.mapOperands f }) := by
  unfold Function.instructions
  have : (F.mapOperands f).blocks = F.blocks.map (fun BB =>
      { BB with insts := BB.insts.map (fun I => { I with kind := I.kind.mapOperands f }) }) :=
    rfl
  rw [this]
  generalize F.blocks = bs
  induction bs with
  | nil => rfl
  | cons BB more ih => simp [List.flatMap_cons, ih]

theorem users_nil_replace (F : Function) (old new : Value) (h : F.users old = []) :
    F.replaceAllUsesWith old new = F := by
  have hno : ∀ BB ∈ F.blocks, ∀ I ∈ BB.insts, old ∉ I.kind.operands := by
    intro BB hBB I hI hmem
    have hI1 : I ∈ F.instructions := mem_instructions hBB hI
    have : I.id ∈ F.users old := by
      unfold Function.users
      exact List.mem_map.2 ⟨I, List.mem_filter.2 ⟨hI1, by simpa using hmem⟩, rfl⟩
    rw [h] at this
    cases this
  have hblock : ∀ BB ∈ F.blocks,
      (⟨BB.id, BB.insts.map (fun I => { I with kind := I.kind.replaceUses old new })⟩ :
        BasicBlock) = BB := by
    intro BB hBB
    have : BB.insts.map (fun I => { I with kind := I.kind.replaceUses old new }) =
        BB.insts := by
      conv_rhs => rw [← List.map_id BB.insts]
      apply List.map_congr_left
      intro I hI
      have hk : I.kind.replaceUses old new = I.kind := by
        rw [replaceUses_eq_mapOperands]
        conv_rhs => rw [← mapOperands_id I.kind]
        apply mapOperands_congr
        intro v hv
        unfold replaceValue
        rw [if_neg]
        intro hvo
        exact hno BB hBB I hI (hvo ▸ hv)
      simp [hk]
    rw [this]
  unfold Function.replaceAllUsesWith Function.mapBlocks
  have he := hblock F.entry (List.mem_cons_self _ _)
  have hr : F.rest.map (fun BB => (⟨BB.id, BB.insts.map
      (fun I => { I with kind := I.kind.replaceUses old new })⟩ : BasicBlock)) = F.rest := by
    conv_rhs => rw [← List.map_id F.rest]
    apply List.map_congr_left
    intro BB hBB
    exact hblock BB (List.mem_cons_of_mem _ hBB)
  simp only [he, hr]

theorem mapFind_none_of_not_mem {α β : Type} [DecidableEq α] (k : α) (l : List (α × β))
    (h : k ∉ l.map Prod.fst) : mapFind k l = none := by
  induction l with
  | nil => rfl
  | cons p ps ih =>
    obtain ⟨k1, v1⟩ := p
    simp only [List.map_cons, List.mem_cons, not_or] at h
    simp [mapFind, h.1, ih h.2]

theorem constantOf_append_ne (F : Function) (pre : List (Value × ConstantValue)) (V v : Value)
    (CV : ConstantValue) (h : v ≠ V) :
    constantOf F (pre ++ [(V, CV)]) v = constantOf F pre v := by
  cases v with
  | constInt w b => rfl
  | argument i => rfl
  | inst id =>
    simp only [constantOf, mapFind_append, h, if_false]
    cases mapFind (Value.inst id) pre <;> rfl

theorem constantOf_none_of_absent (F : Function) (pre : List (Value × ConstantValue))
    (V : Value) (h : mapFind V pre = none) : constantOf F pre V = none := by
  cases V with
  | constInt w b => rfl
  | argument i => rfl
  | inst id => simp [constantOf, h]

theorem constantOf_append_self (F : Function) (pre : List (Value × ConstantValue))
    (id0 : InstId) (CV : ConstantValue) (h : mapFind (Value.inst id0) pre = none) :
    constantOf F (pre ++ [(Value.inst id0, CV)]) (Value.inst id0) =
      if CV.isConstant then (F.findInst id0).map (fun p => constantIntGet p.2.ty CV.value)
      else none := by
  simp [constantOf, mapFind_append, h]

theorem constantOf_is_literal (F : Function) (l : List (Value × ConstantValue)) (v x : Value)
    (h : constantOf F l v = some x) : ∃ w b, x = Value.constInt w b := by
  cases v with
  | constInt w b => cases h
  | argument i => cases h
  | inst id =>
    unfold constantOf at h
    simp only at h
    split at h
    · split at h
      · simp only [Option.map_eq_some'] at h
        obtain ⟨p, -, hp⟩ := h
        exact ⟨_, _, hp.symm⟩
      · cases h
    · cases h

/-- The loop over `DataflowFacts`: the function with every operand replaced as `substValue`
says, and the abandoned instructions. -/
theorem substitute_foldl (F : Function) (facts : List (Value × ConstantValue))
    (hnd : (facts.map Prod.fst).Nodup) :
    (facts.foldl substituteEntry (F, [])).1 = F.mapOperands (substValue F facts) ∧
    ∀ a, a ∈ (facts.foldl substituteEntry (F, [])).2 ↔
      (constantOf F facts (Value.inst a)).isSome = true := by
  induction facts using List.reverseRecOn with
  | nil =>
    constructor
    · simp only [List.foldl_nil]
      have : F.mapOperands (substValue F []) = F.mapOperands (fun v => v) := by
        apply function_mapOperands_congr
        intro v
        cases v <;> rfl
      rw [this]
      simp [Function.mapOperands, Function.mapBlocks, mapOperands_id]
    · intro a
      simp [constantOf, mapFind]
  | append_singleton pre e ih =>
    obtain ⟨V, CV⟩ := e
    rw [List.map_append, List.nodup_append] at hnd
    obtain ⟨hpre, -, hdisj⟩ := hnd
    have hV : V ∉ pre.map Prod.fst := fun hmem => hdisj hmem (by simp)
    have habsent : mapFind V pre = none := mapFind_none_of_not_mem V pre hV
    obtain ⟨ih1, ih2⟩ := ih hpre
    rw [List.foldl_append, List.foldl_cons, List.foldl_nil]
    generalize List.foldl substituteEntry (F, []) pre = acc at ih1 ih2 ⊢
    have hsame : constantOf F (pre ++ [(V, CV)]) V = none →
        acc.1 = F.mapOperands (substValue F (pre ++ [(V, CV)])) ∧
        ∀ a, a ∈ acc.2 ↔ (constantOf F (pre ++ [(V, CV)]) (Value.inst a)).isSome = true := by
      intro hnone
      have heq : ∀ v, constantOf F (pre ++ [(V, CV)]) v = constantOf F pre v := by
        intro v
        by_cases hv : v = V
        · subst hv
          rw [hnone, constantOf_none_of_absent F pre v habsent]
        · exact constantOf_append_ne F pre V v CV hv
      refine ⟨?_, fun a => by rw [ih2 a, heq]⟩
      rw [ih1]
      apply function_mapOperands_congr
      intro v
      simp only [substValue, heq]
    unfold substituteEntry
    simp only
    split
    · rename_i hconst
      split
      · rename_i id0
        split
        · rename_i b I1 hfind
          rw [ih1, findInst_mapOperands] at hfind
          simp only [Option.map_eq_some'] at hfind
          obtain ⟨p, hp, hpeq⟩ := hfind
          simp only [Prod.mk.injEq] at hpeq
          have hty : I1.ty = p.2.ty := by rw [← hpeq.2]
          have hlit : constantOf F (pre ++ [(Value.inst id0, CV)]) (Value.inst id0) =
              some (constantIntGet I1.ty CV.value) := by
            rw [constantOf_append_self F pre id0 CV habsent, if_pos hconst, hp, hty]
            rfl
          have hfun : acc.1.replaceAllUsesWith (Value.inst id0)
              (constantIntGet I1.ty CV.value) =
              F.mapOperands (substValue F (pre ++ [(Value.inst id0, CV)])) := by
            rw [replaceAllUsesWith_eq, ih1, mapOperands_comp]
            apply function_mapOperands_congr
            intro v
            by_cases hv : v = Value.inst id0
            · subst hv
              simp [substValue, hlit, constantOf_none_of_absent F pre _ habsent, replaceValue]
            · simp only [substValue, constantOf_append_ne F pre _ v CV hv]
              unfold replaceValue
              rw [if_neg]
              cases hc : constantOf F pre v with
              | none => simpa using hv
              | some x =>
                obtain ⟨w, bb, hx⟩ := constantOf_is_literal F pre v x hc
                simp [hx]
          have hmem : ∀ a, a ∈ acc.2 ++ [id0] ↔
              (constantOf F (pre ++ [(Value.inst id0, CV)]) (Value.inst a)).isSome = true := by
            intro a
            rw [List.mem_append, List.mem_singleton, ih2 a]
            by_cases ha : a = id0
            · subst ha
              simp [hlit]
            · have hne : Value.inst a ≠ Value.inst id0 := fun h => ha (Value.inst.inj h)
              rw [constantOf_append_ne F pre _ _ CV hne]
              simp [ha]
          split
          · rename_i husers
            refine ⟨?_, hmem⟩
            rw [← hfun, users_nil_replace _ _ _ husers]
          · exact ⟨hfun, hmem⟩
        · rename_i hfind
          apply hsame
          rw [ih1, findInst_mapOperands] at hfind
          simp only [Option.map_eq_none'] at hfind
          rw [constantOf_append_self F pre id0 CV habsent, if_pos hconst, hfind]
          rfl
      · rename_i hnot
        apply hsame
        cases V with
        | constInt w b => rfl
        | argument i => rfl
        | inst id0 => exact absurd rfl (hnot id0)
    · rename_i hconst
      apply hsame
      cases V with
      | constInt w b => rfl
      | argument i => rfl
      | inst id0 =>
        rw [constantOf_append_self F pre id0 CV habsent, if_neg hconst]

theorem findInstIn_none (id : InstId) (bs : List BasicBlock) (h : findInstIn id bs = none) :
    ∀ BB ∈ bs, ∀ I ∈ BB.insts, I.id ≠ id := by
  induction bs with
  | nil => intro BB hBB; cases hBB
  | cons B more ih =>
    unfold findInstIn at h
    split at h
    · cases h
    · rename_i hnone
      intro BB hBB I hI
      rcases List.mem_cons.1 hBB with rfl | hmore
      · have := List.find?_eq_none.1 hnone I hI
        simpa using this
      · exact ih h BB hmore I hI

theorem findInst_of_mem {F : Function} (hu : F.UniqueIds) {BB : BasicBlock} {I : Instruction}
    (hBB : BB ∈ F.blocks) (hI : I ∈ BB.insts) : F.findInst I.id = some (BB.id, I) := by
  cases hf : F.findInst I.id with
  | none => exact absurd rfl (findInstIn_none I.id F.blocks hf BB hBB I hI)
  | some p =>
    obtain ⟨P, J⟩ := p
    obtain ⟨BB1, hBB1, hP, hJ, hid⟩ := findInst_some F I.id P J hf
    obtain ⟨hb, hj⟩ := unique_inst hu hBB1 hJ hBB hI hid
    subst hb
    subst hj
    rw [hP]

theorem findInst_of_mem_instructions {F : Function} (hu : F.UniqueIds) {I : Instruction}
    (hI : I ∈ F.instructions) : ∃ b, F.findInst I.id = some (b, I) := by
  obtain ⟨BB, hBB, hI1⟩ := List.mem_flatMap.1 hI
  exact ⟨BB.id, findInst_of_mem hu hBB hI1⟩

/-- The constant-substitution pass computes `substitutionSpec`. -/
theorem substituteConstants_eq (F : Function) (facts : List (Value × ConstantValue))
    (hnd : (facts.map Prod.fst).Nodup) :
    substituteConstants F facts = substitutionSpec F facts := by
  obtain ⟨h1, h2⟩ := substitute_foldl F facts hnd
  unfold substituteConstants
  simp only
  rw [removeAbandoned_eq, h1]
  unfold Function.mapOperands substitutionSpec
  rw [mapBlocks_mapBlocks]
  congr 1
  funext BB
  simp only [Function.comp, List.filter_map]
  congr 2
  apply List.filter_congr
  intro I _
  simp only [Function.comp]
  cases hc : constantOf F facts (Value.inst I.id) with
  | some x =>
    have : I.id ∈ (List.foldl substituteEntry (F, []) facts).2 := (h2 _).2 (by rw [hc]; rfl)
    simp [this]
  | none =>
    have : I.id ∉ (List.foldl substituteEntry (F, []) facts).2 := fun hm => by
      have := (h2 _).1 hm
      rw [hc] at this
      cases this
    simp [this]

theorem mem_substitutionSpec (F : Function) (facts : List (Value × ConstantValue))
    (BB1 : BasicBlock) :
    BB1 ∈ (substitutionSpec F facts).blocks ↔
      ∃ BB ∈ F.blocks, BB1 = ⟨BB.id,
        (BB.insts.filter (fun I => (constantOf F facts (Value.inst I.id)).isNone)).map
          (fun I => ⟨I.id, I.ty, I.kind.mapOperands (substValue F facts)⟩)⟩ := by
  have : (substitutionSpec F facts).blocks = F.blocks.map (fun BB => ⟨BB.id,
        (BB.insts.filter (fun I => (constantOf F facts (Value.inst I.id)).isNone)).map
          (fun I => ⟨I.id, I.ty, I.kind.mapOperands (substValue F facts)⟩)⟩) := rfl
  rw [this, List.mem_map]
  constructor
  · rintro ⟨BB, h, rfl⟩
    exact ⟨BB, h, rfl⟩
  · rintro ⟨BB, h, rfl⟩
    exact ⟨BB, h, rfl⟩

theorem mem_instructions_substitutionSpec (F : Function) (facts : List (Value × ConstantValue))
    (J : Instruction) (h : J ∈ (substitutionSpec F facts).instructions) :
    ∃ I ∈ F.instructions, constantOf F facts (Value.inst I.id) = none ∧
      J = ⟨I.id, I.ty, I.kind.mapOperands (substValue F facts)⟩ := by
  obtain ⟨BB1, hBB1, hJ⟩ := List.mem_flatMap.1 h
  obtain ⟨BB, hBB, rfl⟩ := (mem_substitutionSpec F facts BB1).1 hBB1
  simp only [List.mem_map, List.mem_filter, Option.isNone_iff_eq_none] at hJ
  obtain ⟨I, ⟨hI, hnone⟩, rfl⟩ := hJ
  exact ⟨I, mem_instructions hBB hI, hnone, rfl⟩

theorem constantIntGet_of_fits (w : Nat) (v : Int) (hw : w ≤ 64) (h0 : 0 ≤ v)
    (h1 : v < 2 ^ w) : constantIntGet w v = Value.constInt w v.toNat := by
  unfold constantIntGet
  have hle : (2 : Int) ^ w ≤ 2 ^ 64 := pow_le_pow_right₀ (by norm_num) hw
  rw [Int.emod_eq_of_lt h0 (lt_of_lt_of_le h1 hle), Int.emod_eq_of_lt h0 h1]

/-- C18 (amended): the constant-substitution pass of `foldConstants`, for a fact map with one
entry per key and a function with distinct instruction identities.  The pass computes
`substitutionSpec`: block by block, the instructions with a Constant fact are deleted and in
the others every operand `u` becomes `substValue u`.  For an instruction `I` with fact
Constant(v): `substValue` of its result is the literal of the type of `I` with the bits of
`v` truncated to the width of that type, no instruction of the result has the identity of `I`,
and no operand of the result refers to `I`.  For an instruction whose fact is not a Constant
(Top, Bottom or no fact): its result stands for itself and the instruction is still in its
block.  A value that is not the result of an instruction of the function stands for itself.
The truncated literal is `v` itself when `0 ≤ v < 2 ^ width`. -/
theorem constant_substitution_spec (F : Function) (facts : List (Value × ConstantValue))
    (hnd : (facts.map Prod.fst).Nodup) (hu : F.UniqueIds) :
    substituteConstants F facts = substitutionSpec F facts ∧
    (∀ I ∈ F.instructions, ∀ v, mapFind (Value.inst I.id) facts = some (ConstantValue.const v) →
      substValue F facts (Value.inst I.id) =
        Value.constInt I.ty ((v % 2 ^ 64 % 2 ^ I.ty).toNat) ∧
      ∀ J ∈ (substituteConstants F facts).instructions,
        J.id ≠ I.id ∧ Value.inst I.id ∉ J.kind.operands) ∧
    (∀ I ∈ F.instructions,
      (∀ v, mapFind (Value.inst I.id) facts ≠ some (ConstantValue.const v)) →
      substValue F facts (Value.inst I.id) = Value.inst I.id ∧
      ∀ BB ∈ F.blocks, I ∈ BB.insts →
        ∃ BB1 ∈ (substituteConstants F facts).blocks, BB1.id = BB.id ∧
          (⟨I.id, I.ty, I.kind.mapOperands (substValue F facts)⟩ : Instruction) ∈ BB1.insts) ∧
    (∀ u, (∀ I ∈ F.instructions, u ≠ Value.inst I.id) → substValue F facts u = u) ∧
    (∀ w v, w ≤ 64 → 0 ≤ v → v < 2 ^ w → constantIntGet w v = Value.constInt w v.toNat) := by
  have heq := substituteConstants_eq F facts hnd
  have hconst : ∀ I ∈ F.instructions, ∀ v,
      mapFind (Value.inst I.id) facts = some (ConstantValue.const v) →
      constantOf F facts (Value.inst I.id) = some (constantIntGet I.ty v) := by
    intro I hI v hv
    obtain ⟨b, hb⟩ := findInst_of_mem_instructions hu hI
    simp [constantOf, hv, hb, ConstantValue.isConstant, ConstantValue.IsTop,
      ConstantValue.IsBot, ConstantValue.value, ConstantValue.IntValue]
  have hnonconst : ∀ id, (∀ v, mapFind (Value.inst id) facts ≠ some (ConstantValue.const v)) →
      constantOf F facts (Value.inst id) = none := by
    intro id hv
    unfold constantOf
    simp only
    cases hm : mapFind (Value.inst id) facts with
    | none => rfl
    | some CV =>
      cases CV with
      | top => rfl
      | bot => rfl
      | const v => exact absurd hm (hv v)
  refine ⟨heq, ?_, ?_, ?_, fun w v hw h0 h1 => constantIntGet_of_fits w v hw h0 h1⟩
  · intro I hI v hv
    have hc := hconst I hI v hv
    refine ⟨by simp [substValue, hc, constantIntGet], ?_⟩
    intro J hJ
    rw [heq] at hJ
    obtain ⟨I1, hI1, hnone, rfl⟩ := mem_instructions_substitutionSpec F facts J hJ
    constructor
    · intro hid
      simp only at hid
      rw [hid, hc] at hnone
      cases hnone
    · simp only [operands_mapOperands, List.mem_map, not_exists, not_and]
      intro u _ hu1
      unfold substValue at hu1
      cases hcu : constantOf F facts u with
      | none =>
        rw [hcu] at hu1
        simp only [Option.getD_none] at hu1
        rw [hu1, hc] at hcu
        cases hcu
      | some x =>
        rw [hcu] at hu1
        simp only [Option.getD_some] at hu1
        obtain ⟨w, bb, hx⟩ := constantOf_is_literal F facts u x hcu
        rw [hx] at hu1
        cases hu1
  · intro I hI hv
    have hc := hnonconst I.id hv
    refine ⟨by simp [substValue, hc], ?_⟩
    intro BB hBB hIBB
    rw [heq]
    refine ⟨_, (mem_substitutionSpec F facts _).2 ⟨BB, hBB, rfl⟩, rfl, ?_⟩
    simp only [List.mem_map, List.mem_filter, Option.isNone_iff_eq_none]
    exact ⟨I, ⟨hIBB, hc⟩, rfl⟩
  · intro u hu1
    cases u with
    | constInt w b => rfl
    | argument i => rfl
    | inst id =>
      have hfind : F.findInst id = none := by
        cases hf : F.findInst id with
        | none => rfl
        | some p =>
          obtain ⟨P, J⟩ := p
          obtain ⟨BB, hBB, -, hJ, hid⟩ := findInst_some F id P J hf
          exact absurd (by rw [hid]) (hu1 J (mem_instructions hBB hJ))
      unfold substValue constantOf
      simp only [hfind, Option.map_none']
      cases mapFind (Value.inst id) facts with
      | none => rfl
      | some CV => cases CV <;> rfl

/-- C18, counterexample: on `x = add i8 100, 100; y = add i8 x, 100; ret y` the analysis ends
with the fact Constant(300) for `y`, and constant substitution puts the 8-bit literal 44, not
300, in the operand of `ret` that referred to `y`. -/
theorem substituteConstants_truncates :
    (analyze narrowFn 10).map (fun s => s.DataflowFacts) = some narrowFacts ∧
    mapFind (Value.inst 11) narrowFacts = some (ConstantValue.const 300) ∧
    substituteConstants narrowFn narrowFacts = narrowSubstituted ∧
    narrowSubstituted.instructions = [⟨12, 0, InstKind.Other [Value.constInt 8 44] [] true⟩] ∧
    getSExtValue 8 44 = 44 := by
  decide

/-- Witness for C18: scenario A with the facts x = Constant(5), y = Constant(20). -/
theorem constant_substitution_spec_witness :
    (scenarioAFacts.map Prod.fst).Nodup ∧ scenarioA.UniqueIds ∧
    substituteConstants scenarioA scenarioAFacts = substitutionSpec scenarioA scenarioAFacts ∧
    substitutionSpec scenarioA scenarioAFacts = scenarioAFolded :=
  ⟨by decide, by decide,
    (constant_substitution_spec scenarioA scenarioAFacts (by decide) (by decide)).1,
    by decide⟩

/-! ## Straight-line programs -/

/-- C15, counterexample: `x = udiv i32 7, 0; ret x` is a single block of one supported binary
operator over literals followed by a return, and `analyze` has no final state on it for any
number of iterations (the division by zero of `visitBinaryOperator`). -/
theorem analyze_divZero_no_result : ¬ ∃ fuel s, analyze divZeroFn fuel = some s := by
  rintro ⟨fuel, s, h⟩
  have h1 : loopBody divZeroFn (analyzeInit divZeroFn) = none := by decide
  cases fuel with
  | zero =>
    have h0 : analyze divZeroFn 0 = none := by decide
    rw [h0] at h
    cases h
  | succ n =>
    unfold analyze at h
    rw [analyzeLoop, if_neg (by decide), h1] at h
    cases h

theorem visitAll_append (F : Function) (P : BlockId) (l1 l2 : List Instruction) :
    ∀ s, visitAll F P (l1 ++ l2) s = (visitAll F P l1 s).bind (visitAll F P l2) := by
  induction l1 with
  | nil => intro s; rfl
  | cons I more ih =>
    intro s
    simp only [List.cons_append, visitAll]
    cases visit F P I s with
    | none => rfl
    | some s1 => exact ih s1

theorem mapFind_factsOfSpec (id : InstId) (env : List (InstId × Int)) :
    mapFind (Value.inst id) (factsOfSpec env) = (mapFind id env).map ConstantValue.const := by
  induction env with
  | nil => rfl
  | cons p ps ih =>
    obtain ⟨k, v⟩ := p
    unfold factsOfSpec at ih ⊢
    by_cases h : id = k
    · simp [mapFind, h]
    · simp [mapFind, h, ih]

theorem getConstantValue_of_eval (s : SCCPState) (env : List (InstId × Int)) (v : Value) (x : Int)
    (hag : ∀ id y, mapFind id env = some y →
      mapFind (Value.inst id) s.DataflowFacts = some (ConstantValue.const y))
    (h : evalOperandSpec env v = some x) : getConstantValue s v = ConstantValue.const x := by
  cases v with
  | constInt w b =>
    simp only [evalOperandSpec, Option.some.injEq] at h
    simp [getConstantValue, h]
  | argument i => cases h
  | inst id =>
    simp only [evalOperandSpec] at h
    simp [getConstantValue, hag id x h]

theorem visitBinaryOperator_of_eval (s : SCCPState) (op : BinaryOps) (a b : Value) (x y r : Int)
    (ha : getConstantValue s a = ConstantValue.const x)
    (hb : getConstantValue s b = ConstantValue.const y)
    (h : evalBinarySpec op x y = some r) :
    visitBinaryOperator s op a b = some (ConstantValue.const r) := by
  unfold visitBinaryOperator
  simp only [ha, hb, ConstantValue.IsBot, ConstantValue.IsTop, ConstantValue.value,
    ConstantValue.IntValue, Bool.or_self, Bool.false_eq_true, if_false]
  cases op <;> simp only [evalBinarySpec] at h
  all_goals first
    | (simp only [Option.some.injEq] at h
       subst h
       rfl)
    | (split at h
       · cases h
       · rename_i hc
         simp only [Option.some.injEq] at h
         subst h
         have h1 : ¬ y = 0 := fun e => hc (Or.inl e)
         have h2 : ¬ (x = -(2 ^ 63) ∧ y = -1) := fun e => hc (Or.inr e)
         simp only [divInt64, if_neg h1, if_neg h2, Option.map_some'])
    | cases h

theorem visit_fresh (F : Function) (P : BlockId) (I : Instruction) (s : SCCPState)
    (n : ConstantValue) (hv : visitorVisit F P I s = some (n, s))
    (hnone : mapFind (Value.inst I.id) s.DataflowFacts = none) :
    visit F P I s = some (insertUsers F I
      { s with DataflowFacts := s.DataflowFacts ++ [(Value.inst I.id, n)] }) := by
  unfold visit
  simp only [hv, hnone]

theorem visit_stable (F : Function) (P : BlockId) (I : Instruction) (s : SCCPState)
    (n : ConstantValue) (hv : visitorVisit F P I s = some (n, s))
    (hsome : mapFind (Value.inst I.id) s.DataflowFacts = some n) :
    visit F P I s = some s := by
  have hne : n.ne n = false := by
    cases hc : n.ne n with
    | false => rfl
    | true => exact absurd rfl ((ConstantValue.ne_iff n n).1 hc)
  unfold visit
  simp only [hv, hsome, hne, Bool.false_eq_true, if_false]

theorem evalBodySpec_cons (I : Instruction) (more : List Instruction)
    (env env1 : List (InstId × Int)) (h : evalBodySpec (I :: more) env = some env1) :
    ∃ op a c x y r, I.kind = InstKind.BinaryOperator op a c ∧
      evalOperandSpec env a = some x ∧ evalOperandSpec env c = some y ∧
      evalBinarySpec op x y = some r ∧ evalBodySpec more (env ++ [(I.id, r)]) = some env1 := by
  unfold evalBodySpec at h
  split at h
  · rename_i op a c hk
    split at h
    · rename_i x y hx hy
      split at h
      · rename_i r hr
        exact ⟨op, a, c, x, y, r, hk, hx, hy, hr, h⟩
      · cases h
    · cases h
  · cases h

theorem evalBodySpec_mono (body : List Instruction) :
    ∀ env env1, evalBodySpec body env = some env1 →
      ∀ id x, mapFind id env = some x → mapFind id env1 = some x := by
  induction body with
  | nil =>
    intro env env1 h id x hx
    simp only [evalBodySpec, Option.some.injEq] at h
    rw [← h]
    exact hx
  | cons I more ih =>
    intro env env1 h id x hx
    obtain ⟨op, a, c, x1, y1, r, -, -, -, -, hrest⟩ := evalBodySpec_cons I more env env1 h
    apply ih _ _ hrest
    rw [mapFind_append, hx]

theorem evalOperandSpec_mono (env env1 : List (InstId × Int))
    (hm : ∀ id x, mapFind id env = some x → mapFind id env1 = some x) (v : Value) (x : Int)
    (h : evalOperandSpec env v = some x) : evalOperandSpec env1 v = some x := by
  cases v with
  | constInt w b => exact h
  | argument i => cases h
  | inst id => exact hm id x h

theorem evalBodySpec_keys (body : List Instruction) :
    ∀ env env1, evalBodySpec body env = some env1 →
      env1.map Prod.fst = env.map Prod.fst ++ body.map (fun I => I.id) := by
  induction body with
  | nil =>
    intro env env1 h
    simp only [evalBodySpec, Option.some.injEq] at h
    simp [h]
  | cons I more ih =>
    intro env env1 h
    obtain ⟨op, a, c, x1, y1, r, -, -, -, -, hrest⟩ := evalBodySpec_cons I more env env1 h
    rw [ih _ _ hrest]
    simp

/-- Every instruction of the body has, in the final environment, the value of its operator
on the values of its operands. -/
theorem evalBodySpec_sound (body : List Instruction) :
    ∀ env env1, evalBodySpec body env = some env1 →
      (∀ I ∈ body, mapFind I.id env = none) → (body.map (fun I => I.id)).Nodup →
      ∀ I ∈ body, ∃ op a c x y r, I.kind = InstKind.BinaryOperator op a c ∧
        evalOperandSpec env1 a = some x ∧ evalOperandSpec env1 c = some y ∧
        evalBinarySpec op x y = some r ∧ mapFind I.id env1 = some r := by
  induction body with
  | nil => intro env env1 _ _ _ I hI; cases hI
  | cons J more ih =>
    intro env env1 h hfresh hnd I hI
    obtain ⟨op, a, c, x, y, r, hk, hx, hy, hr, hrest⟩ := evalBodySpec_cons J more env env1 h
    have hmono := evalBodySpec_mono more _ _ hrest
    have hJ : mapFind J.id (env ++ [(J.id, r)]) = some r := by
      rw [mapFind_append, hfresh J (List.mem_cons_self _ _)]
      simp
    simp only [List.map_cons, List.nodup_cons, List.mem_map, not_exists, not_and] at hnd
    rcases List.mem_cons.1 hI with rfl | hmore
    · refine ⟨op, a, c, x, y, r, hk, ?_, ?_, hr, hmono _ _ hJ⟩
      · apply evalOperandSpec_mono (env ++ [(I.id, r)]) env1 hmono
        apply evalOperandSpec_mono env _ _ a x hx
        intro id z hz
        rw [mapFind_append, hz]
      · apply evalOperandSpec_mono (env ++ [(I.id, r)]) env1 hmono
        apply evalOperandSpec_mono env _ _ c y hy
        intro id z hz
        rw [mapFind_append, hz]
    · apply ih _ _ hrest _ hnd.2 I hmore
      intro K hK
      rw [mapFind_append, hfresh K (List.mem_cons_of_mem _ hK)]
      have : K.id ≠ J.id := fun e => hnd.1 K hK e
      simp [this]

theorem mem_users (F : Function) (v : Value) (id : InstId) (h : id ∈ F.users v) :
    ∃ J ∈ F.instructions, J.id = id := by
  unfold Function.users at h
  simp only [List.mem_map, List.mem_filter] at h
  obtain ⟨J, ⟨hJ, -⟩, hid⟩ := h
  exact ⟨J, hJ, hid⟩

/-- The first visit of a list of binary operators with evaluated values: the facts become
the evaluated values, and only instructions of the function enter `SSAWorkset`. -/
theorem visitAll_body (F : Function) (P : BlockId) (body : List Instruction) :
    ∀ env env1 s, evalBodySpec body env = some env1 → s.DataflowFacts = factsOfSpec env →
      (∀ I ∈ body, mapFind I.id env = none) → (body.map (fun I => I.id)).Nodup →
      ∃ s1, visitAll F P body s = some s1 ∧ s1.DataflowFacts = factsOfSpec env1 ∧
        s1.CFGWorkset = s.CFGWorkset ∧ s1.ExecutableEdges = s.ExecutableEdges ∧
        ∀ v ∈ s1.SSAWorkset, v ∈ s.SSAWorkset ∨ ∃ J ∈ F.instructions, J.id = v := by
  induction body with
  | nil =>
    intro env env1 s h hf _ _
    simp only [evalBodySpec, Option.some.injEq] at h
    exact ⟨s, rfl, by rw [hf, h], rfl, rfl, fun v hv => Or.inl hv⟩
  | cons I more ih =>
    intro env env1 s h hf hfresh hnd
    obtain ⟨op, a, c, x, y, r, hk, hx, hy, hr, hrest⟩ := evalBodySpec_cons I more env env1 h
    have hag : ∀ id z, mapFind id env = some z →
        mapFind (Value.inst id) s.DataflowFacts = some (ConstantValue.const z) := by
      intro id z hz
      rw [hf, mapFind_factsOfSpec, hz]
      rfl
    have hvis : visitorVisit F P I s = some (ConstantValue.const r, s) := by
      simp only [visitorVisit, hk]
      rw [visitBinaryOperator_of_eval s op a c x y r
        (getConstantValue_of_eval s env a x hag hx)
        (getConstantValue_of_eval s env c y hag hy) hr]
      rfl
    have hnone : mapFind (Value.inst I.id) s.DataflowFacts = none := by
      rw [hf, mapFind_factsOfSpec, hfresh I (List.mem_cons_self _ _)]
      rfl
    simp only [List.map_cons, List.nodup_cons, List.mem_map, not_exists, not_and] at hnd
    have hfresh1 : ∀ K ∈ more, mapFind K.id (env ++ [(I.id, r)]) = none := by
      intro K hK
      rw [mapFind_append, hfresh K (List.mem_cons_of_mem _ hK)]
      have : K.id ≠ I.id := fun e => hnd.1 K hK e
      simp [this]
    obtain ⟨s1, h1, h2, h3, h4, h5⟩ := ih (env ++ [(I.id, r)]) env1
      (insertUsers F I
        { s with DataflowFacts := s.DataflowFacts ++ [(Value.inst I.id, ConstantValue.const r)] })
      hrest (by simp [insertUsers, hf, factsOfSpec]) hfresh1 hnd.2
    refine ⟨s1, ?_, h2, h3, h4, ?_⟩
    · simp only [visitAll, visit_fresh F P I s _ hvis hnone]
      exact h1
    · intro v hv
      rcases h5 v hv with hin | hex
      · simp only [insertUsers, mem_setInsertAll] at hin
        rcases hin with hin | hin
        · exact Or.inr (mem_users F _ v hin)
        · exact Or.inl hin
      · exact Or.inr hex

/-- With `CFGWorkset` empty and every instruction of `SSAWorkset` stable under `visit`, the
loop of `analyze` removes the instructions one by one and ends. -/
theorem analyzeLoop_drain (F : Function) (b : BlockId) (facts : List (Value × ConstantValue))
    (hstable : ∀ v, (∃ J ∈ F.instructions, J.id = v) →
      ∃ I, F.findInst v = some (b, I) ∧ I.kind.isPHI = false ∧
        ∀ s : SCCPState, s.DataflowFacts = facts → visit F b I s = some s) :
    ∀ (ws : List InstId) (s : SCCPState), s.CFGWorkset = [] → s.SSAWorkset = ws →
      s.DataflowFacts = facts → isExecutableBlock s (some b) = true →
      (∀ v ∈ ws, ∃ J ∈ F.instructions, J.id = v) →
      ∀ k, analyzeLoop F (ws.length + k) s = some { s with SSAWorkset := [] } := by
  intro ws
  induction ws with
  | nil =>
    intro s hc hw hf _ _ k
    have hs : ({ s with SSAWorkset := [] } : SCCPState) = s := by
      cases s
      simp only at hw
      simp [hw]
    rw [hs]
    cases k <;> simp [analyzeLoop, hc, hw]
  | cons V rest ih =>
    intro s hc hw hf hexec hmem k
    obtain ⟨I, hfind, hphi, hvisit⟩ := hstable V (hmem V (List.mem_cons_self _ _))
    have hstep : loopBody F s = some { s with SSAWorkset := rest } := by
      unfold loopBody
      rw [hc, hw]
      simp only
      unfold processInst
      simp only [hfind, hphi, Bool.false_eq_true, if_false]
      rw [hw, List.erase_cons_head]
      have hexec1 : isExecutableBlock { s with SSAWorkset := rest } (some b) = true := hexec
      rw [if_pos hexec1]
      have hv := hvisit { s with SSAWorkset := rest } hf
      simpa only [hc] using hv
    have hne : ¬ (s.CFGWorkset = [] ∧ s.SSAWorkset = []) := by
      rw [hw]
      simp
    have hlen : (V :: rest).length + k = (rest.length + k) + 1 := by
      simp only [List.length_cons]
      omega
    rw [hlen, analyzeLoop_succ_of_step hne hstep]
    exact ih { s with SSAWorkset := rest } hc rfl hf hexec
      (fun v hv => hmem v (List.mem_cons_of_mem _ hv)) k

theorem straightLine_instructions (b : BlockId) (body : List Instruction) (rid : InstId)
    (rty : Nat) (ops : List Value) :
    (straightLine b body rid rty ops).instructions =
      body ++ [(⟨rid, rty, InstKind.Other ops [] true⟩ : Instruction)] := by
  simp [Function.instructions, Function.blocks, straightLine]

theorem body_not_phi (body : List Instruction) (env env1 : List (InstId × Int))
    (h : evalBodySpec body env = some env1) : ∀ I ∈ body, I.kind.isPHI = false := by
  induction body generalizing env with
  | nil => intro I hI; cases hI
  | cons J more ih =>
    intro I hI
    obtain ⟨op, a, c, x, y, r, hk, -, -, -, hrest⟩ := evalBodySpec_cons J more env env1 h
    rcases List.mem_cons.1 hI with rfl | hmore
    · rw [hk]
      rfl
    · exact ih _ hrest I hmore

/-- The first iteration of `analyze` on a straight-line program visits the whole block. -/
theorem processEdge_straightLine (b : BlockId) (body : List Instruction) (rid : InstId)
    (rty : Nat) (ops : List Value) (env : List (InstId × Int))
    (hu : (straightLine b body rid rty ops).UniqueIds)
    (hev : evalBodySpec body [] = some env) :
    ∃ s2, processEdge (straightLine b body rid rty ops) ⟨none, some b⟩
        (analyzeInit (straightLine b body rid rty ops)) = some s2 ∧
      s2.CFGWorkset = [] ∧ s2.ExecutableEdges = [⟨none, some b⟩] ∧
      s2.DataflowFacts = factsOfSpec env ++ [(Value.inst rid, ConstantValue.bot)] ∧
      ∀ v ∈ s2.SSAWorkset, ∃ J ∈ (straightLine b body rid rty ops).instructions, J.id = v := by
  have hnd : ((body ++ [(⟨rid, rty, InstKind.Other ops [] true⟩ : Instruction)]).map (fun I => I.id)).Nodup := by
    have := hu
    unfold Function.UniqueIds at this
    rwa [straightLine_instructions] at this
  rw [List.map_append, List.nodup_append] at hnd
  obtain ⟨hndb, -, hdisj⟩ := hnd
  have hrid : rid ∉ body.map (fun I => I.id) := fun hm => hdisj hm (by simp)
  have hnophi := body_not_phi body [] env hev
  have hnophi1 : ∀ I ∈ body ++ [(⟨rid, rty, InstKind.Other ops [] true⟩ : Instruction)],
      I.kind.isPHI = false := by
    intro I hI
    rcases List.mem_append.1 hI with h | h
    · exact hnophi I h
    · rw [List.mem_singleton.1 h]
      rfl
  obtain ⟨s1, h1, h2, h3, h4, h5⟩ := visitAll_body (straightLine b body rid rty ops) b body []
    env ⟨[], [], [⟨none, some b⟩], []⟩ hev rfl (fun _ _ => rfl) hndb
  have hvis : visitorVisit (straightLine b body rid rty ops) b
      (⟨rid, rty, InstKind.Other ops [] true⟩ : Instruction) s1 = some (ConstantValue.bot, s1) := rfl
  have hnone : mapFind (Value.inst rid) s1.DataflowFacts = none := by
    rw [h2, mapFind_factsOfSpec, mapFind_none_of_not_mem rid env]
    · rfl
    · rw [evalBodySpec_keys body [] env hev]
      simpa using hrid
  have hret := visit_fresh _ b _ s1 _ hvis hnone
  refine ⟨insertUsers (straightLine b body rid rty ops)
      (⟨rid, rty, InstKind.Other ops [] true⟩ : Instruction)
      { s1 with DataflowFacts := s1.DataflowFacts ++ [(Value.inst rid, ConstantValue.bot)] },
    ?_, h3, h4, ?_, ?_⟩
  rotate_left
  · show s1.DataflowFacts ++ _ = _
    rw [h2]
  · intro v hv
    simp only [insertUsers, mem_setInsertAll] at hv
    rcases hv with hv | hv
    · exact mem_users _ _ v hv
    · rcases h5 v hv with h | h
      · cases h
      · exact h
  · have hphis : (⟨b, body ++ [(⟨rid, rty, InstKind.Other ops [] true⟩ : Instruction)]⟩ : BasicBlock).phis
        = [] := by
      unfold BasicBlock.phis
      cases hb : body with
      | nil => rfl
      | cons I more =>
        have := hnophi I (by rw [hb]; exact List.mem_cons_self _ _)
        simp [List.takeWhile, this]
    have hfilter : (body ++ [(⟨rid, rty, InstKind.Other ops [] true⟩ : Instruction)]).filter
        (fun I => !I.kind.isPHI) = body ++ [(⟨rid, rty, InstKind.Other ops [] true⟩ : Instruction)] := by
      apply List.filter_eq_self.2
      intro I hI
      simp [hnophi1 I hI]
    have hterm : (⟨b, body ++ [(⟨rid, rty, InstKind.Other ops [] true⟩ : Instruction)]⟩ : BasicBlock).getTerminator
        = some (⟨rid, rty, InstKind.Other ops [] true⟩ : Instruction) := by
      simp [BasicBlock.getTerminator, InstKind.isTerminator]
    have hblock : (straightLine b body rid rty ops).getBlock b =
        some ⟨b, body ++ [(⟨rid, rty, InstKind.Other ops [] true⟩ : Instruction)]⟩ := by
      simp [Function.getBlock, Function.blocks, straightLine]
    have hall : visitAll (straightLine b body rid rty ops) b
        (body ++ [(⟨rid, rty, InstKind.Other ops [] true⟩ : Instruction)])
        ⟨[], [], [⟨none, some b⟩], []⟩ = some (insertUsers (straightLine b body rid rty ops)
          (⟨rid, rty, InstKind.Other ops [] true⟩ : Instruction)
          { s1 with DataflowFacts := s1.DataflowFacts ++
            [(Value.inst rid, ConstantValue.bot)] }) := by
      rw [visitAll_append, h1]
      simp only [Option.some_bind, visitAll, hret]
    have hfirst : isFirstVisit ⟨[], [], [⟨none, some b⟩], []⟩ (some b) = true := by
      simp [isFirstVisit, isFirstVisitLoop]
    unfold processEdge
    simp only [analyzeInit, straightLine, List.erase_cons_head, setInsert]
    simp only [straightLine] at hblock hall
    simp only [hblock, hphis, visitAll, hfirst, if_true, hfilter, hall, hterm,
      InstKind.successors]

/-- C15 (amended): a single block of binary operators followed by a return, with distinct
instruction identities, in which every instruction has an evaluated value (`evalBodySpec`:
supported opcodes, operands that are literals or earlier results, no division with a zero
divisor or an unrepresentable quotient).  Then `analyze` ends, for every bound on the
iterations from some bound on, in one final state with both work sets empty; the fact of each
binary operator is Constant of its evaluated value, the operator applied on 64-bit signed
integers to the evaluated values of its operands; the fact of the return is Bottom.  For
`x = 2 + 3; y = x * 4; return y` the facts are x = Constant(5), y = Constant(20) and Bottom
for the return. -/
theorem straight_line_facts (b : BlockId) (body : List Instruction) (rid : InstId) (rty : Nat)
    (ops : List Value) (env : List (InstId × Int))
    (hu : (straightLine b body rid rty ops).UniqueIds)
    (hev : evalBodySpec body [] = some env) :
    (∃ s fuel, (∀ n, fuel ≤ n → analyze (straightLine b body rid rty ops) n = some s) ∧
      s.CFGWorkset = [] ∧ s.SSAWorkset = [] ∧
      s.DataflowFacts = factsOfSpec env ++ [(Value.inst rid, ConstantValue.bot)] ∧
      (∀ I ∈ body, ∃ op a c x y r, I.kind = InstKind.BinaryOperator op a c ∧
        evalOperandSpec env a = some x ∧ evalOperandSpec env c = some y ∧
        evalBinarySpec op x y = some r ∧
        mapFind (Value.inst I.id) s.DataflowFacts = some (ConstantValue.const r)) ∧
      mapFind (Value.inst rid) s.DataflowFacts = some ConstantValue.bot) ∧
    (analyze scenarioA 3).map (fun s => s.DataflowFacts) = some scenarioAFacts := by
  refine ⟨?_, by decide⟩
  obtain ⟨s2, hproc, hc, he, hf, hws⟩ := processEdge_straightLine b body rid rty ops env hu hev
  have hnd : ((body ++ [(⟨rid, rty, InstKind.Other ops [] true⟩ : Instruction)]).map
      (fun I => I.id)).Nodup := by
    have := hu
    unfold Function.UniqueIds at this
    rwa [straightLine_instructions] at this
  rw [List.map_append, List.nodup_append] at hnd
  obtain ⟨hndb, -, hdisj⟩ := hnd
  have hrid : mapFind rid env = none := by
    apply mapFind_none_of_not_mem
    rw [evalBodySpec_keys body [] env hev]
    simpa using fun hm => hdisj hm (by simp)
  have hagree : ∀ id z, mapFind id env = some z →
      mapFind (Value.inst id) (factsOfSpec env ++ [(Value.inst rid, ConstantValue.bot)]) =
        some (ConstantValue.const z) := by
    intro id z hz
    rw [mapFind_append, mapFind_factsOfSpec, hz]
    rfl
  have hridfact : mapFind (Value.inst rid)
      (factsOfSpec env ++ [(Value.inst rid, ConstantValue.bot)]) = some ConstantValue.bot := by
    rw [mapFind_append, mapFind_factsOfSpec, hrid]
    simp
  have hsound := evalBodySpec_sound body [] env hev (fun _ _ => rfl) hndb
  have hstable : ∀ v, (∃ J ∈ (straightLine b body rid rty ops).instructions, J.id = v) →
      ∃ I, (straightLine b body rid rty ops).findInst v = some (b, I) ∧
        I.kind.isPHI = false ∧
        ∀ s : SCCPState,
          s.DataflowFacts = factsOfSpec env ++ [(Value.inst rid, ConstantValue.bot)] →
          visit (straightLine b body rid rty ops) b I s = some s := by
    rintro v ⟨J, hJ, rfl⟩
    have hfind : (straightLine b body rid rty ops).findInst J.id = some (b, J) := by
      have hJ1 : J ∈ (straightLine b body rid rty ops).entry.insts := by
        rw [straightLine_instructions] at hJ
        exact hJ
      exact findInst_of_mem hu (List.mem_cons_self _ _) hJ1
    refine ⟨J, hfind, ?_⟩
    rw [straightLine_instructions] at hJ
    rcases List.mem_append.1 hJ with hb | hr
    · obtain ⟨op, a, c, x, y, r, hk, hx, hy, hr, hm⟩ := hsound J hb
      refine ⟨by rw [hk]; rfl, ?_⟩
      intro s hs
      have hag : ∀ id z, mapFind id env = some z →
          mapFind (Value.inst id) s.DataflowFacts = some (ConstantValue.const z) := by
        intro id z hz
        rw [hs]
        exact hagree id z hz
      apply visit_stable _ b J s (ConstantValue.const r)
      · simp only [visitorVisit, hk]
        rw [visitBinaryOperator_of_eval s op a c x y r
          (getConstantValue_of_eval s env a x hag hx)
          (getConstantValue_of_eval s env c y hag hy) hr]
        rfl
      · exact hag J.id r hm
    · rw [List.mem_singleton.1 hr]
      refine ⟨rfl, ?_⟩
      intro s hs
      apply visit_stable (straightLine b body rid rty ops) b
        (⟨rid, rty, InstKind.Other ops [] true⟩ : Instruction) s ConstantValue.bot rfl
      rw [hs]
      exact hridfact
  have hexec : isExecutableBlock s2 (some b) = true := by
    unfold isExecutableBlock
    rw [he]
    simp
  have hdrain := analyzeLoop_drain (straightLine b body rid rty ops) b _ hstable s2.SSAWorkset
    s2 hc rfl hf hexec hws
  refine ⟨{ s2 with SSAWorkset := [] }, s2.SSAWorkset.length + 1, ?_, hc, rfl, hf, ?_, ?_⟩
  · intro n hn
    obtain ⟨k, rfl⟩ := Nat.exists_eq_add_of_le hn
    have hlen : s2.SSAWorkset.length + 1 + k = (s2.SSAWorkset.length + k) + 1 := by omega
    have hne : ¬ ((analyzeInit (straightLine b body rid rty ops)).CFGWorkset = [] ∧
        (analyzeInit (straightLine b body rid rty ops)).SSAWorkset = []) := by
      simp [analyzeInit]
    have hb : loopBody (straightLine b body rid rty ops)
        (analyzeInit (straightLine b body rid rty ops)) = some s2 := hproc
    unfold analyze
    rw [hlen, analyzeLoop_succ_of_step hne hb]
    exact hdrain k
  · intro I hI
    obtain ⟨op, a, c, x, y, r, hk, hx, hy, hr, hm⟩ := hsound I hI
    refine ⟨op, a, c, x, y, r, hk, hx, hy, hr, ?_⟩
    show mapFind (Value.inst I.id) s2.DataflowFacts = _
    rw [hf]
    exact hagree I.id r hm
  · show mapFind (Value.inst rid) s2.DataflowFacts = _
    rw [hf]
    exact hridfact

/-- Witness for C15: scenario A, `x = 2 + 3; y = x * 4; return y`. -/
theorem straight_line_facts_witness :
    (straightLine 0 [⟨10, 32, .BinaryOperator .Add (.constInt 32 2) (.constInt 32 3)⟩,
        ⟨11, 32, .BinaryOperator .Mul (.inst 10) (.constInt 32 4)⟩] 12 0 [.inst 11]) = scenarioA ∧
    evalBodySpec [⟨10, 32, .BinaryOperator .Add (.constInt 32 2) (.constInt 32 3)⟩,
        ⟨11, 32, .BinaryOperator .Mul (.inst 10) (.constInt 32 4)⟩] [] = some [(10, 5), (11, 20)] ∧
    ∃ s fuel, (∀ n, fuel ≤ n → analyze scenarioA n = some s) ∧
      s.DataflowFacts = factsOfSpec [(10, 5), (11, 20)] ++ [(Value.inst 12, ConstantValue.bot)] := by
  refine ⟨by decide, by decide, ?_⟩
  obtain ⟨s, fuel, h1, -, -, h2, -, -⟩ :=
    (straight_line_facts 0 [⟨10, 32, .BinaryOperator .Add (.constInt 32 2) (.constInt 32 3)⟩,
        ⟨11, 32, .BinaryOperator .Mul (.inst 10) (.constInt 32 4)⟩] 12 0 [.inst 11]
      [(10, 5), (11, 20)] (by decide) (by decide)).1
  exact ⟨s, fuel, h1, h2⟩

/-! ## Visited blocks -/

/-- C21 (what the code does): on the diamond `diamondFn`, whose merge block M has the two
predecessors A and B that each end in an unconditional branch, `analyze` ends (in five
iterations, removing `*begin()` each time) in a state that a removal order reaches and in which
both work sets are empty; both edges into M are in `ExecutableEdges`, M is an executable block,
and neither instruction of M has an entry in `DataflowFacts`.  So not every instruction of an
executable block has been visited when `analyze` ends.  Along another removal order
(`diamondOrderDepthFirst`) every instruction of every executable block has an entry. -/
theorem merge_block_never_visited :
    analyze diamondFn 5 = some diamondFinalByAddress ∧
    Reachable diamondFn diamondFinalByAddress ∧
    Finished diamondFinalByAddress ∧
    (⟨some 1, some 3⟩ : CFGEdge) ∈ diamondFinalByAddress.ExecutableEdges ∧
    (⟨some 2, some 3⟩ : CFGEdge) ∈ diamondFinalByAddress.ExecutableEdges ∧
    isExecutableBlock diamondFinalByAddress (some 3) = true ∧
    (diamondFn.getBlock 3).map (fun BB => BB.insts.map (fun I => I.id)) = some [40, 41] ∧
    (diamondFn.getBlock 1).map (fun BB => BB.getTerminator.map (fun TI => TI.kind.successors)) =
      some (some [3]) ∧
    (diamondFn.getBlock 2).map (fun BB => BB.getTerminator.map (fun TI => TI.kind.successors)) =
      some (some [3]) ∧
    mapFind (Value.inst 40) diamondFinalByAddress.DataflowFacts = none ∧
    mapFind (Value.inst 41) diamondFinalByAddress.DataflowFacts = none ∧
    ¬ AllVisited diamondFn diamondFinalByAddress ∧
    Reachable diamondFn diamondFinalDepthFirst ∧
    Finished diamondFinalDepthFirst ∧
    AllVisited diamondFn diamondFinalDepthFirst := by
  refine ⟨by decide, runWith_reachable diamond_run_by_address, by decide, by decide, by decide,
    by decide, by decide, by decide, by decide, by decide, by decide, by decide,
    runWith_reachable (show runWith diamondFn diamondOrderDepthFirst (analyzeInit diamondFn) =
      some diamondFinalDepthFirst by decide), by decide, by decide⟩

end SimpleSCCP
